import Mathlib

/-!
# abiee/mfs: an in-memory filesystem

A shallow embedding of `src/file.go` and `src/fs.go`.

Modelling conventions.

* Go pointers are indices into explicit heaps.  `*[]byte` cells (slice headers)
  live in a `List Slice`, `*fileInfo` cells in a `List fileInfo`; allocation
  appends a cell, so a fresh pointer is the old heap length.
* Every slice header of the program owns its backing array exclusively
  (headers are only created by `make`, by `[]byte(content)` or by re-slicing
  from index 0 in place), so a header is modelled together with its array:
  `arr` is the whole backing array (`cap = arr.length`) and `len` the length.
* `int`/`int64` are 64-bit two's complement: sums are wrapped by `wrapInt64`.
* A run-time panic of Go (slice bounds out of range, nil dereference,
  assignment into a nil map) is the result `none`.
* A Go `map[string]*fileInfo` is an association list with unique keys.
* A client is modelled by `Sys`: the state of the filesystem and the handles
  returned so far; `run` executes a sequence of calls of the public interface
  on it.  The source of a `Write` is a Go slice, so its length is at most
  `maxAlloc` (`Op.sized`).
-/

namespace mfs

/-- A Go `byte`. -/
abbrev Byte := Fin 256

/-- The sentinel error values of `file.go` and `fs.go`, together with the
    standard library values `os.ErrNotExist`, `os.ErrExist` and `io.EOF`. -/
inductive Error
  | ErrReadOnly
  | ErrWriteOnly
  | ErrTooLarge
  | ErrNegativeSeek
  | ErrInvalidWhence
  | ErrTooFar
  | ErrDirectory
  | ErrNotExist
  | ErrExist
  | EOF
  deriving DecidableEq, Repr

/-- Go's `os.PathError`. -/
structure PathError where
  Op : String
  Path : String
  Err : Error
  deriving DecidableEq, Repr

/-- Two's complement wrap-around of a 64-bit signed integer: the value of
    `(x + 2^63) mod 2^64 - 2^63` (see `wrapInt64_eq`).  Values already in
    range are returned as they are; the test on the magnitude comes first so
    that the function evaluates without arithmetic on the argument. -/
def wrapInt64 (x : Int) : Int :=
  match x with
  | Int.ofNat n =>
    if n < 9223372036854775808 then x
    else (x + 9223372036854775808) % 18446744073709551616 - 9223372036854775808
  | Int.negSucc n =>
    if n < 9223372036854775808 then x
    else (x + 9223372036854775808) % 18446744073709551616 - 9223372036854775808

/-- The largest length `make([]byte, n)` accepts before panicking
    (`maxAlloc` of the Go runtime on 64-bit Linux, 2^48). -/
def maxAlloc : Nat := 281474976710656

/-- A `[]byte` value together with the backing array it owns. -/
structure Slice where
  arr : List Byte
  len : Nat
  deriving DecidableEq, Repr

/-- Go's `cap(s)`. -/
def Slice.cap (s : Slice) : Nat := s.arr.length

/-- The visible elements `s[0:len(s)]`. -/
def Slice.content (s : Slice) : List Byte := s.arr.take s.len

/-- Go's built-in `copy(dst, src)`: the number of bytes copied and the new
    elements of `dst`. -/
def copy (dst src : List Byte) : Nat × List Byte :=
  let n := min dst.length src.length
  (n, src.take n ++ dst.drop n)

/-- The elements of the slice expression `s[off:]`; `none` when Go panics
    with "slice bounds out of range". -/
def Slice.sliceFrom (s : Slice) (off : Int) : Option (List Byte) :=
  if 0 ≤ off ∧ off ≤ (s.len : Int) then some (s.content.drop off.toNat) else none

/-- The effect of `copy(s[off:], p)` on the backing array of `s`
    (for `0 ≤ off ≤ len(s)`). -/
def Slice.copyAt (s : Slice) (off : Nat) (p : List Byte) : Slice :=
  { s with arr := s.arr.take off ++ (copy (s.content.drop off) p).2 ++ s.arr.drop s.len }

/-- The re-slicing `s[0:k]`; `none` when Go panics (`k < 0` or `k > cap(s)`). -/
def Slice.reslice (s : Slice) (k : Int) : Option Slice :=
  if 0 ≤ k ∧ k ≤ (s.cap : Int) then some { s with len := k.toNat } else none

/-- The heap of `*[]byte` cells. -/
abbrev SliceHeap := List Slice

/-- Dereference of a `*[]byte`; `none` for nil (or an index that is not
    allocated). -/
def deref (h : SliceHeap) (ptr : Option Nat) : Option Slice :=
  match ptr with
  | none => none
  | some i => h[i]?

/-- The struct `memoryFile` of `file.go`. -/
structure memoryFile where
  name : String
  offset : Int
  data : Option Nat
  deriving DecidableEq, Repr

/-- The function `makeSlice`: `make([]byte, n)`, whose panic (a negative
    length, or one above `maxAlloc`) is recovered into `ErrTooLarge`.  Running
    out of memory below that bound ends the process in Go and is not modelled. -/
def makeSlice (n : Int) : Except Error Slice :=
  if 0 ≤ n ∧ n.toNat ≤ maxAlloc then
    .ok { arr := List.replicate n.toNat 0, len := n.toNat }
  else .error Error.ErrTooLarge

/-- The method `memoryFile.Name`. -/
def memoryFile.Name (f : memoryFile) : String := f.name

/-- The method `memoryFile.size`. -/
def memoryFile.size (h : SliceHeap) (f : memoryFile) : Option Int :=
  match deref h f.data with
  | none => none
  | some s => some (s.len : Int)

/-- The method `memoryFile.Read`.  The argument `p` holds the elements of
    the destination; the result is `(n, err)`, the new elements of `p` and
    the handle afterwards. -/
def memoryFile.Read (h : SliceHeap) (f : memoryFile) (p : List Byte) :
    Option (Int × Option Error × List Byte × memoryFile) :=
  match f.size h with
  | none => none
  | some sz =>
    if f.offset ≥ sz then some (0, some Error.EOF, p, f)
    else
      match deref h f.data with
      | none => none
      | some s =>
        match s.sliceFrom f.offset with
        | none => none
        | some src =>
          let r := copy p src
          some ((r.1 : Int), none, r.2, { f with offset := wrapInt64 (f.offset + (r.1 : Int)) })

/-- The method `memoryFile.grow`: the error (if any), the heap and the
    handle afterwards. -/
def memoryFile.grow (h : SliceHeap) (f : memoryFile) (n : Int) :
    Option (Option Error × SliceHeap × memoryFile) :=
  match deref h f.data with
  | none => none
  | some s =>
    let m : Int := (s.len : Int)
    if wrapInt64 (m + n) > (s.cap : Int) then
      let newCap := wrapInt64 (wrapInt64 (2 * (s.cap : Int)) + n)
      match makeSlice newCap with
      | .error e => some (some e, h, f)
      | .ok data =>
        let data1 : Slice := { data with arr := (copy data.content s.content).2 ++ data.arr.drop data.len }
        match data1.reslice (wrapInt64 (m + n)) with
        | none => none
        | some data2 => some (none, h ++ [data2], { f with data := some h.length })
    else
      match s.reslice (wrapInt64 (m + n)), f.data with
      | some s1, some ptr => some (none, h.set ptr s1, f)
      | _, _ => none

/-- The method `memoryFile.Write`: `(n, err)`, the heap and the handle
    afterwards. -/
def memoryFile.Write (h : SliceHeap) (f : memoryFile) (p : List Byte) :
    Option (Int × Option Error × SliceHeap × memoryFile) :=
  let n : Int := (p.length : Int)
  match f.size h with
  | none => none
  | some sz =>
    let grown : Option (Option Error × SliceHeap × memoryFile) :=
      if wrapInt64 (f.offset + n) > sz then f.grow h n else some (none, h, f)
    match grown with
    | none => none
    | some (some e, h1, f1) => some (0, some e, h1, f1)
    | some (none, h1, f1) =>
      match deref h1 f1.data, f1.data with
      | some s, some ptr =>
        if 0 ≤ f1.offset ∧ f1.offset ≤ (s.len : Int) then
          some (n, none, h1.set ptr (s.copyAt f1.offset.toNat p),
            { f1 with offset := wrapInt64 (f1.offset + n) })
        else none
      | _, _ => none

/-- The constants `os.SEEK_SET`, `os.SEEK_CUR`, `os.SEEK_END`. -/
def SEEK_SET : Int := 0
def SEEK_CUR : Int := 1
def SEEK_END : Int := 2

/-- The method `memoryFile.Seek`: `(offset, err)` and the handle afterwards. -/
def memoryFile.Seek (h : SliceHeap) (f : memoryFile) (offset : Int) (whence : Int) :
    Option (Int × Option Error × memoryFile) :=
  let newOffset : Option (Option Int) :=
    if whence = SEEK_SET then some (some offset)
    else if whence = SEEK_CUR then some (some (wrapInt64 (f.offset + offset)))
    else if whence = SEEK_END then
      match f.size h with
      | none => none
      | some sz => some (some (wrapInt64 (sz + offset)))
    else some none
  match newOffset with
  | none => none
  | some none => some (0, some Error.ErrInvalidWhence, f)
  | some (some c) =>
    if c < 0 then some (0, some Error.ErrNegativeSeek, f)
    else
      match f.size h with
      | none => none
      | some sz =>
        if c > sz then some (0, some Error.ErrTooFar, f)
        else some (c, none, { f with offset := c })

/-- The method `memoryFile.Close`. -/
def memoryFile.Close (_f : memoryFile) : Option Error := none

/-- The wrapper `readOnlyFile`, the wrapper `writeOnlyFile` and the bare
    `*memoryFile`: the three implementations of the interface `File`. -/
inductive File
  | mem (f : memoryFile)
  | readOnlyFile (inner : File)
  | writeOnlyFile (inner : File)
  deriving DecidableEq, Repr

/-- The bare handle underneath the wrappers. -/
def File.handle : File → memoryFile
  | .mem f => f
  | .readOnlyFile inner => inner.handle
  | .writeOnlyFile inner => inner.handle

/-- Method `Name` of the interface (promoted through the wrappers). -/
def File.Name : File → String
  | .mem f => f.Name
  | .readOnlyFile inner => inner.Name
  | .writeOnlyFile inner => inner.Name

/-- Method `Read` of the interface; `writeOnlyFile.Read` intercepts. -/
def File.Read (h : SliceHeap) : File → List Byte → Option (Int × Option Error × List Byte × File)
  | .mem f, p => (f.Read h p).map fun r => (r.1, r.2.1, r.2.2.1, File.mem r.2.2.2)
  | .readOnlyFile inner, p =>
    (File.Read h inner p).map fun r => (r.1, r.2.1, r.2.2.1, File.readOnlyFile r.2.2.2)
  | .writeOnlyFile inner, p => some (0, some Error.ErrWriteOnly, p, File.writeOnlyFile inner)

/-- Method `Write` of the interface; `readOnlyFile.Write` intercepts. -/
def File.Write (h : SliceHeap) : File → List Byte → Option (Int × Option Error × SliceHeap × File)
  | .mem f, p => (f.Write h p).map fun r => (r.1, r.2.1, r.2.2.1, File.mem r.2.2.2)
  | .readOnlyFile inner, _ => some (0, some Error.ErrReadOnly, h, File.readOnlyFile inner)
  | .writeOnlyFile inner, p =>
    (File.Write h inner p).map fun r => (r.1, r.2.1, r.2.2.1, File.writeOnlyFile r.2.2.2)

/-- Method `Seek` of the interface (promoted through the wrappers). -/
def File.Seek (h : SliceHeap) : File → Int → Int → Option (Int × Option Error × File)
  | .mem f, off, wh => (f.Seek h off wh).map fun r => (r.1, r.2.1, File.mem r.2.2)
  | .readOnlyFile inner, off, wh =>
    (File.Seek h inner off wh).map fun r => (r.1, r.2.1, File.readOnlyFile r.2.2)
  | .writeOnlyFile inner, off, wh =>
    (File.Seek h inner off wh).map fun r => (r.1, r.2.1, File.writeOnlyFile r.2.2)

/-- Method `Close` of the interface (promoted through the wrappers). -/
def File.Close : File → Option Error
  | .mem f => f.Close
  | .readOnlyFile inner => inner.Close
  | .writeOnlyFile inner => inner.Close

/-- The constant `InitialDataSize` of `fs.go`. -/
def InitialDataSize : Nat := 512

/-- The constant `CreateDefaultMode` of `fs.go` (octal 0666). -/
def CreateDefaultMode : Nat := 438

/-- The open flags of Go's package `os` (their values on Linux). -/
def O_RDONLY : Int := 0
def O_WRONLY : Int := 1
def O_RDWR : Int := 2
def O_CREATE : Int := 64
def O_TRUNC : Int := 512
def O_APPEND : Int := 1024

/-- The function `hasFlag`: `flag&target == target`. -/
def hasFlag (flag target : Int) : Bool := decide (Int.land flag target = target)

/-- The value of `make([]byte, 0, InitialDataSize)`: length 0 over a zeroed
    backing array of 512 bytes. -/
def emptyData : Slice := { arr := List.replicate InitialDataSize 0, len := 0 }

/-- The struct `fileInfo` of `fs.go`.  `children` is `none` for a nil map,
    `data` is `none` for a nil pointer. -/
structure fileInfo where
  name : String
  fullpath : String
  mode : Nat
  children : Option (List (String × Nat))
  data : Option Nat
  deriving DecidableEq, Repr

/-- The method `fileInfo.IsDir`: `f.children != nil`. -/
def fileInfo.IsDir (f : fileInfo) : Bool := f.children.isSome

/-- The method `fileInfo.Name`. -/
def fileInfo.Name (f : fileInfo) : String := f.name

/-- The method `fileInfo.Mode`. -/
def fileInfo.Mode (f : fileInfo) : Nat := f.mode

/-- The method `fileInfo.Size`; `none` when `*f.data` dereferences nil. -/
def fileInfo.Size (h : SliceHeap) (f : fileInfo) : Option Int :=
  if f.IsDir then some 0
  else
    match deref h f.data with
    | none => none
    | some s => some (s.len : Int)

/-- The whole mutable store: the `*[]byte` cells and the `*fileInfo` cells. -/
structure Heap where
  slices : SliceHeap
  nodes : List fileInfo
  deriving DecidableEq, Repr

/-- The struct `MemoryFilesystem`: a pointer to the root node. -/
structure MemoryFilesystem where
  root : Nat
  deriving DecidableEq, Repr

/-- Map read `m[k]` on a possibly nil map (the comma-ok form). -/
def mapGet (m : Option (List (String × Nat))) (k : String) : Option Nat :=
  match m with
  | none => none
  | some l => l.lookup k

/-- Map write `m[k] = v` on a non-nil map. -/
def mapSet (l : List (String × Nat)) (k : String) (v : Nat) : List (String × Nat) :=
  match l with
  | [] => [(k, v)]
  | (k1, v1) :: rest => if k1 = k then (k, v) :: rest else (k1, v1) :: mapSet rest k v

/-- Splitting at the separator `/`, as `strings.Split(name, "/")` does. -/
def splitSep : List Char → List (List Char)
  | [] => [[]]
  | c :: cs =>
    if c = '/' then [] :: splitSep cs
    else
      match splitSep cs with
      | [] => [[c]]
      | s :: ss => (c :: s) :: ss

/-- Go's `strings.Split(name, PathSeparator)`. -/
def Split (name : String) : List String := (splitSep name.data).map String.mk

/-- Go's `path.Base`: the last element of the path after removing trailing
    slashes; "." for the empty path and "/" for a path of slashes only. -/
def Base (path : String) : String :=
  if path.data = [] then "."
  else
    let stripped := (path.data.reverse.dropWhile (fun c => c = '/')).reverse
    let last := (stripped.reverse.takeWhile (fun c => c ≠ '/')).reverse
    if last = [] then "/" else String.mk last

/-- The function `NewFilesystem`: a root directory named "/" in a fresh store. -/
def NewFilesystem : Heap × MemoryFilesystem :=
  ({ slices := [],
     nodes := [{ name := "/", fullpath := "", mode := 0, children := some [], data := none }] },
   { root := 0 })

/-- The loop of `MemoryFilesystem.stat` over the inner segments: the parent
    reached (`some (some p)`), `os.ErrNotExist` (`some none`), or a panic. -/
def walk (nodes : List fileInfo) (parent : Nat) : List String → Option (Option Nat)
  | [] => some (some parent)
  | segment :: rest =>
    match nodes[parent]? with
    | none => none
    | some pn =>
      match mapGet pn.children segment with
      | none => some none
      | some entry =>
        match nodes[entry]? with
        | none => none
        | some en => if en.IsDir then walk nodes entry rest else some none

/-- The method `MemoryFilesystem.stat`: the triple `(parent, node, err)`;
    `none` when `segments[1 : len(segments)-1]` is out of range. -/
def MemoryFilesystem.stat (h : Heap) (fs : MemoryFilesystem) (name : String) :
    Option (Option Nat × Option Nat × Option Error) :=
  let segments := Split name
  if segments.length < 2 then none
  else
    match walk h.nodes fs.root ((segments.drop 1).take (segments.length - 2)) with
    | none => none
    | some none => some (none, none, some Error.ErrNotExist)
    | some (some parent) =>
      match h.nodes[parent]?, segments.getLast? with
      | some pn, some segment => some (some parent, mapGet pn.children segment, none)
      | _, _ => none

/-- The statement `parent.children[base] = node`; `none` when `parent` is nil
    or its map is nil. -/
def setChild (nodes : List fileInfo) (parent : Option Nat) (base : String) (node : Nat) :
    Option (List fileInfo) :=
  match parent with
  | none => none
  | some p =>
    match nodes[p]? with
    | none => none
    | some pn =>
      match pn.children with
      | none => none
      | some l => some (nodes.set p { pn with children := some (mapSet l base node) })

/-- The method `MemoryFilesystem.Mkdir`: the error (if any) and the store
    afterwards. -/
def MemoryFilesystem.Mkdir (h : Heap) (fs : MemoryFilesystem) (name : String) (perm : Nat) :
    Option (Option PathError × Heap) :=
  let base := Base name
  match fs.stat h name with
  | none => none
  | some (_, _, some err) => some (some { Op := "mkdir", Path := name, Err := err }, h)
  | some (_, some _, none) => some (some { Op := "mkdir", Path := name, Err := Error.ErrExist }, h)
  | some (parent, none, none) =>
    let node : fileInfo :=
      { name := base, fullpath := name, mode := perm, children := some [], data := none }
    match setChild (h.nodes ++ [node]) parent base h.nodes.length with
    | none => none
    | some nodes1 => some (none, { h with nodes := nodes1 })

/-- The method `fileInfo.openFile`; its error result is always nil and is
    left out. -/
def fileInfo.openFile (h : SliceHeap) (fi : fileInfo) (flag : Int) : Option File :=
  let file : memoryFile := { name := fi.fullpath, offset := 0, data := fi.data }
  let sought : Option memoryFile :=
    if hasFlag flag O_APPEND then (file.Seek h 0 SEEK_END).map fun r => r.2.2 else some file
  match sought with
  | none => none
  | some file1 =>
    if hasFlag flag O_RDWR then some (File.mem file1)
    else if hasFlag flag O_WRONLY then some (File.writeOnlyFile (File.mem file1))
    else some (File.readOnlyFile (File.mem file1))

/-- The method `MemoryFilesystem.OpenFile`: the handle (if any), the error
    (if any) and the store afterwards. -/
def MemoryFilesystem.OpenFile (h : Heap) (fs : MemoryFilesystem) (name : String) (flag : Int)
    (perm : Nat) : Option (Option File × Option PathError × Heap) :=
  let base := Base name
  match fs.stat h name with
  | none => none
  | some (_, _, some err) => some (none, some { Op := "open", Path := name, Err := err }, h)
  | some (parent, node, none) =>
    let isDir : Option Bool :=
      match node with
      | none => some false
      | some i => (h.nodes[i]?).map fileInfo.IsDir
    match isDir with
    | none => none
    | some true => some (none, some { Op := "open", Path := name, Err := Error.ErrDirectory }, h)
    | some false =>
      let created : Option (Except PathError (Option Nat × Heap)) :=
        if hasFlag flag O_CREATE then
          if node.isSome && !hasFlag flag O_TRUNC then
            some (.error { Op := "open", Path := name, Err := Error.ErrExist })
          else
            let data : Slice := emptyData
            let fi : fileInfo :=
              { name := base, fullpath := name, mode := perm, children := none,
                data := some h.slices.length }
            match setChild (h.nodes ++ [fi]) parent base h.nodes.length with
            | none => none
            | some nodes1 =>
              some (.ok (some h.nodes.length, { slices := h.slices ++ [data], nodes := nodes1 }))
        else some (.ok (node, h))
      match created with
      | none => none
      | some (.error e) => some (none, some e, h)
      | some (.ok (none, h1)) =>
        some (none, some { Op := "open", Path := name, Err := Error.ErrNotExist }, h1)
      | some (.ok (some i, h1)) =>
        match h1.nodes[i]? with
        | none => none
        | some fi =>
          match fi.openFile h1.slices flag with
          | none => none
          | some file => some (some file, none, h1)

/-- The method `MemoryFilesystem.Create`. -/
def MemoryFilesystem.Create (h : Heap) (fs : MemoryFilesystem) (name : String) :
    Option (Option File × Option PathError × Heap) :=
  fs.OpenFile h name (Int.lor (Int.lor O_RDWR O_CREATE) O_TRUNC) CreateDefaultMode

/-- The method `MemoryFilesystem.Open`. -/
def MemoryFilesystem.Open (h : Heap) (fs : MemoryFilesystem) (name : String) :
    Option (Option File × Option PathError × Heap) :=
  fs.OpenFile h name O_RDONLY 0

/-- The method `MemoryFilesystem.Stat`: a pointer to the node (the
    `os.FileInfo` descriptor) or the error. -/
def MemoryFilesystem.Stat (h : Heap) (fs : MemoryFilesystem) (name : String) :
    Option (Option Nat × Option PathError) :=
  match fs.stat h name with
  | none => none
  | some (_, _, some err) => some (none, some { Op := "stat", Path := name, Err := err })
  | some (_, none, none) => some (none, some { Op := "stat", Path := name, Err := Error.ErrNotExist })
  | some (_, some node, none) => some (some node, none)

/-- The slice a reallocating `grow(n)` installs: the old elements, zeroes up
    to the new capacity `2*cap + n`, and length `len + n`. -/
def grownSlice (s : Slice) (n : Nat) : Slice :=
  { arr := s.content ++ List.replicate (2 * s.cap + n - s.len) 0, len := s.len + n }

/-- Successive `Read` calls on one handle with fresh destinations of the
    given lengths: the bytes each call delivered (`p[:n]`) and the handle
    afterwards. -/
def readChunks (h : SliceHeap) (f : memoryFile) : List Nat → Option (List (List Byte) × memoryFile)
  | [] => some ([], f)
  | d :: ds =>
    match f.Read h (List.replicate d 0) with
    | none => none
    | some (n, _, p, f1) =>
      match readChunks h f1 ds with
      | none => none
      | some (cs, f2) => some (p.take n.toNat :: cs, f2)

/-- The candidate offset `newOffset` that `memoryFile.Seek` computes for a
    recognised whence, from the cursor `o` and the length `L`: `offset` for
    `SEEK_SET`, `o + offset` for `SEEK_CUR`, `L + offset` for `SEEK_END`, the
    sums being `int64` sums. -/
def seekCandidate (o L offset whence : Int) : Int :=
  if whence = SEEK_SET then offset
  else if whence = SEEK_CUR then wrapInt64 (o + offset)
  else wrapInt64 (L + offset)

/-- The candidate offset in the words of the specification, with exact
    (unbounded) sums: `Start`: offset; `Current`: cursor + offset; `End`:
    length + offset. -/
def specCandidate (o L offset whence : Int) : Int :=
  if whence = SEEK_SET then offset
  else if whence = SEEK_CUR then o + offset
  else L + offset

/-- The failure of `Seek` in the words of the specification, from the exact
    candidate `specCandidate`: `InvalidWhence` for an unrecognised whence;
    otherwise `NegativeSeek` when the candidate is negative; otherwise
    `TooFar` when the candidate exceeds the length; otherwise none. -/
def specSeekError (o L offset whence : Int) : Option Error :=
  if whence ≠ SEEK_SET ∧ whence ≠ SEEK_CUR ∧ whence ≠ SEEK_END then some Error.ErrInvalidWhence
  else if specCandidate o L offset whence < 0 then some Error.ErrNegativeSeek
  else if specCandidate o L offset whence > L then some Error.ErrTooFar
  else none

/-- Go's conversion `[]byte(s)`: the UTF-8 encoding of the string. -/
def bytes (s : String) : List Byte := (s.data.flatMap String.utf8EncodeChar).map (fun b => b.val)

/-- The helper `newFile` of `file_test.go`: a handle with offset 0 over the
    bytes of `content`, in a store of its own (the capacity of `[]byte(content)`
    is taken to be its length). -/
def newFile (name content : String) : SliceHeap × memoryFile :=
  ([{ arr := bytes content, len := (bytes content).length }],
   { name := name, offset := 0, data := some 0 })

/-- The test constants of `file_test.go`. -/
def hello : String := "Hello world!"
def bye : String := "Bye world"
def lorem : String := "Lorem ipsum dolor sit amet, consectetur adipiscing elit."

/-- Well-formedness of one `*fileInfo` cell: a directory (non-nil map) refers
    to allocated nodes only, and a regular file (nil map) has a non-nil
    pointer to an allocated buffer. -/
def wfNode (h : Heap) (n : fileInfo) : Bool :=
  match n.children with
  | some l => l.all (fun e => decide (e.2 < h.nodes.length))
  | none =>
    match n.data with
    | some p => decide (p < h.slices.length)
    | none => false

/-- Well-formedness of a filesystem state: the root is an allocated
    directory, every node is well formed, and every buffer has
    `len ≤ cap`.  `NewFilesystem` establishes it (`NewFilesystem_wf`) and
    `Mkdir`, `OpenFile` and `Write` keep it (`Mkdir_wf`, `OpenFile_wf`,
    `File_Write_wf`); the other operations do not change the state. -/
def Heap.wf (h : Heap) (fs : MemoryFilesystem) : Bool :=
  (match h.nodes[fs.root]? with
   | some r => r.IsDir
   | none => false) &&
  h.nodes.all (wfNode h) &&
  h.slices.all (fun s => decide (s.len ≤ s.cap))

/-- An absolute path: it starts with the separator. -/
def isAbsPath (name : String) : Bool :=
  match name.data with
  | c :: _ => c == '/'
  | [] => false

/-- The failure of `OpenFile` in the words of the specification, from the
    result of path resolution: (i) a non-final segment does not resolve to a
    directory (resolution reports an error, see `stat_error_iff` and
    `walk_notExist_iff`): `NotExist`; (ii) the leaf is a directory:
    `IsDirectory`; (iii) CREATE without TRUNC on an existing file: `Exist`;
    (iv) no CREATE and the leaf is absent: `NotExist`; otherwise none. -/
def specOpenFailure (h : Heap) (fs : MemoryFilesystem) (name : String) (flag : Int) : Option Error :=
  match fs.stat h name with
  | none => none
  | some (_, _, some _) => some Error.ErrNotExist
  | some (_, some i, none) =>
    match h.nodes[i]? with
    | none => none
    | some fi =>
      if fi.IsDir then some Error.ErrDirectory
      else if hasFlag flag O_CREATE && !hasFlag flag O_TRUNC then some Error.ErrExist
      else none
  | some (_, none, none) => if hasFlag flag O_CREATE then none else some Error.ErrNotExist

/-- The state of a fresh filesystem after a file node "/foo.txt" with mode
    `perm` has been created in the root: the root, the file node, and the
    empty buffer of capacity 512 in cell 0. -/
def fooState (perm : Nat) : Heap :=
  { slices := [emptyData],
    nodes := [⟨"/", "", 0, some [("foo.txt", 1)], none⟩, ⟨"foo.txt", "/foo.txt", perm, none, some 0⟩] }

/-- Successive `Mkdir` calls with one mode: the error of each call, in order,
    and the state after the last one. -/
def mkdirs (fs : MemoryFilesystem) (perm : Nat) : Heap → List String →
    Option (List (Option PathError) × Heap)
  | h, [] => some ([], h)
  | h, name :: rest =>
    match fs.Mkdir h name perm with
    | none => none
    | some (err, h1) =>
      match mkdirs fs perm h1 rest with
      | none => none
      | some (errs, h2) => some (err :: errs, h2)

/-- The state of a fresh filesystem after `Mkdir("/tmp", 0777)`. -/
def tmpState : Heap :=
  { slices := [],
    nodes := [⟨"/", "", 0, some [("tmp", 1)], none⟩, ⟨"tmp", "/tmp", 511, some [], none⟩] }

/-- The capacity after a reallocating `grow(n)` of a buffer of capacity `c`
    in the words of the specification: "max(2×capacity, capacity+n)". -/
def specGrowCap (c n : Nat) : Nat := max (2 * c) (c + n)

/-- The state of a fresh filesystem after `Mkdir("/tmp", 0777)` and
    `OpenFile("/tmp/", O_CREATE|O_RDWR, 0666)`: the second call has stored a
    file node with full path "/tmp/" under the key "tmp" of the directory
    "/tmp". -/
def tmpFileState : Heap :=
  { slices := [emptyData],
    nodes := [⟨"/", "", 0, some [("tmp", 1)], none⟩, ⟨"tmp", "/tmp", 511, some [("tmp", 2)], none⟩,
      ⟨"tmp", "/tmp/", 438, none, some 0⟩] }

/-- What `Stat` followed by `IsDir` on the descriptor reports: `none` for
    a panic, `some none` for an error, `some (some b)` for a descriptor. -/
def statIsDir (h : Heap) (fs : MemoryFilesystem) (name : String) : Option (Option Bool) :=
  match fs.Stat h name with
  | none => none
  | some (none, _) => some none
  | some (some i, _) => (h.nodes[i]?).map fun fi => some fi.IsDir

/-- A state in which the file "/foo.txt" holds the bytes of "Hello world!":
    the root, the file node, and its buffer in cell 0. -/
def helloState : Heap :=
  { slices := [⟨bytes hello, 12⟩],
    nodes := [⟨"/", "", 0, some [("foo.txt", 1)], none⟩, ⟨"foo.txt", "/foo.txt", 438, none, some 0⟩] }

/-- The elements of the backing array between `len` and `cap` are all zero.
    `make` returns zeroed arrays and `Write` stores below `len` only, so every
    buffer of the package has this property (`emptyData_spareZero`,
    `copyAt_fits`, `copyAt_grown`, `grownSlice_spareZero`). -/
def Slice.spareZero (s : Slice) : Bool :=
  decide (s.arr.drop s.len = List.replicate (s.cap - s.len) 0)

/-- A client's view of a filesystem: the state of the filesystem and the
    handles it has been given so far, in the order of the calls. -/
structure Sys where
  heap : Heap
  handles : List File

/-- One call of the public interface.  `Create` and `Open` are `OpenFile` with
    fixed flags; the handle a method is called on is named by its position. -/
inductive Op
  | mkdir (name : String) (perm : Nat)
  | openFile (name : String) (flag : Int) (perm : Nat)
  | stat (name : String)
  | read (i : Nat) (p : List Byte)
  | write (i : Nat) (p : List Byte)
  | seek (i : Nat) (offset whence : Int)
  | close (i : Nat)

/-- The effect of one call on the client's view; `none` when the call panics
    or names a handle that was never returned. -/
def step (fs : MemoryFilesystem) (s : Sys) : Op → Option Sys
  | .mkdir name perm => (fs.Mkdir s.heap name perm).map fun r => ⟨r.2, s.handles⟩
  | .openFile name flag perm =>
    (fs.OpenFile s.heap name flag perm).map fun r =>
      match r.1 with
      | some f => ⟨r.2.2, s.handles ++ [f]⟩
      | none => ⟨r.2.2, s.handles⟩
  | .stat name => (fs.Stat s.heap name).map fun _ => s
  | .read i p =>
    match s.handles[i]? with
    | none => none
    | some f => (f.Read s.heap.slices p).map fun r => ⟨s.heap, s.handles.set i r.2.2.2⟩
  | .write i p =>
    match s.handles[i]? with
    | none => none
    | some f =>
      (f.Write s.heap.slices p).map fun r => ⟨⟨r.2.2.1, s.heap.nodes⟩, s.handles.set i r.2.2.2⟩
  | .seek i offset whence =>
    match s.handles[i]? with
    | none => none
    | some f => (f.Seek s.heap.slices offset whence).map fun r => ⟨s.heap, s.handles.set i r.2.2⟩
  | .close i =>
    match s.handles[i]? with
    | none => none
    | some _ => some s

/-- A sequence of calls, from left to right. -/
def run (fs : MemoryFilesystem) : Sys → List Op → Option Sys
  | s, [] => some s
  | s, op :: ops =>
    match step fs s op with
    | none => none
    | some s1 => run fs s1 ops

/-- The source of a `Write` is a Go slice: its length is at most `maxAlloc`. -/
def Op.sized : Op → Bool
  | .write _ p => decide (p.length ≤ maxAlloc)
  | _ => true

/-- The cursor of a handle is within the buffer it refers to:
    `0 ≤ offset ≤ len(*f.data)`. -/
def handleOk (sl : SliceHeap) (f : memoryFile) : Bool :=
  match deref sl f.data with
  | none => false
  | some s => decide (0 ≤ f.offset ∧ f.offset ≤ (s.len : Int))

/-- A buffer of the package: its size is that of a Go slice and its spare
    elements are zero. -/
def bufOk (s : Slice) : Bool := decide (s.cap ≤ maxAlloc) && s.spareZero

/-- No key of a `children` map is the empty string (the keys are values of
    `path.Base`). -/
def keysOk (h : Heap) : Bool :=
  h.nodes.all fun nd =>
    match nd.children with
    | none => true
    | some l => l.all fun e => e.1 != ""

/-- The invariant of the client's view: the state is well formed, no key is
    empty, every buffer is a buffer of the package, and the cursor of every
    handle is within its buffer. -/
def Inv (fs : MemoryFilesystem) (s : Sys) : Bool :=
  s.heap.wf fs && keysOk s.heap && s.heap.slices.all bufOk &&
    s.handles.all fun f => handleOk s.heap.slices f.handle

/-- The client's view of a fresh filesystem. -/
def initSys : Sys := ⟨NewFilesystem.1, []⟩

/-- The store `sl1` extends the store `sl`: every cell of `sl` is a cell of
    `sl1` and its buffer is at least as long. -/
def grows (sl sl1 : SliceHeap) : Prop :=
  ∀ (q : Nat) (t : Slice), sl[q]? = some t → ∃ t1 : Slice, sl1[q]? = some t1 ∧ t.len ≤ t1.len

/-- Every buffer of the store is a buffer of the package with `len ≤ cap`. -/
def storeOk (sl : SliceHeap) : Prop :=
  ∀ b ∈ sl, b.len ≤ b.cap ∧ b.cap ≤ maxAlloc ∧ b.spareZero = true

/-! # Theorems -/

/-! ## Arithmetic and list facts used by the handle operations -/

theorem wrapInt64_eq (x : Int) :
    wrapInt64 x = (x + 9223372036854775808) % 18446744073709551616 - 9223372036854775808 := by
  unfold wrapInt64
  cases x with
  | ofNat n =>
    simp only
    split
    · have h0 : Int.ofNat n = (n : Int) := rfl
      rw [h0]
      omega
    · rfl
  | negSucc n =>
    simp only
    split
    · have h0 : Int.negSucc n = -((n : Int) + 1) := rfl
      rw [h0]
      omega
    · rfl

theorem wrapInt64_of_range (x : Int) (h1 : -9223372036854775808 ≤ x) (h2 : x < 9223372036854775808) :
    wrapInt64 x = x := by
  rw [wrapInt64_eq]
  omega

theorem maxAlloc_eq : maxAlloc = 281474976710656 := rfl

theorem copy_fst (dst src : List Byte) : (copy dst src).1 = min dst.length src.length := rfl

theorem copy_snd (dst src : List Byte) :
    (copy dst src).2 = src.take (min dst.length src.length) ++ dst.drop (min dst.length src.length) := rfl

theorem copy_snd_length (dst src : List Byte) : (copy dst src).2.length = dst.length := by
  simp [copy_snd]

theorem copy_snd_of_le (dst src : List Byte) (hle : src.length ≤ dst.length) :
    (copy dst src).2 = src ++ dst.drop src.length := by
  simp [copy_snd, Nat.min_eq_right hle]

theorem Slice.content_length (s : Slice) (hc : s.len ≤ s.cap) : s.content.length = s.len := by
  simp [Slice.content, Slice.cap] at *
  exact hc

theorem take_drop_append_drop (l : List Byte) (k n : Nat) (hk : k ≤ n) :
    (l.take n).drop k ++ l.drop n = l.drop k := by
  have h3 : l.drop k = (l.drop k).take (n - k) ++ (l.drop k).drop (n - k) :=
    (List.take_append_drop _ _).symm
  rw [List.drop_drop] at h3
  rw [List.drop_take]
  have h4 : k + (n - k) = n := by omega
  rw [h4] at h3
  exact h3.symm

/-- The backing array after `copy(s[off:], p)` when `p` fits below `len(s)`. -/
theorem Slice.copyAt_arr (s : Slice) (off : Nat) (p : List Byte) (hc : s.len ≤ s.cap)
    (hfit : off + p.length ≤ s.len) :
    (s.copyAt off p).arr = s.arr.take off ++ p ++ s.arr.drop (off + p.length) := by
  have hlen : p.length ≤ (s.content.drop off).length := by
    rw [List.length_drop, Slice.content_length s hc]; omega
  show s.arr.take off ++ (copy (s.content.drop off) p).2 ++ s.arr.drop s.len = _
  rw [copy_snd_of_le _ _ hlen]
  simp only [Slice.content, List.append_assoc, List.drop_drop]
  have h6 := take_drop_append_drop s.arr (off + p.length) s.len hfit
  rw [h6]

theorem Slice.copyAt_len (s : Slice) (off : Nat) (p : List Byte) : (s.copyAt off p).len = s.len := rfl

/-! ## The three paths of `memoryFile.Write` -/

theorem deref_some (h : SliceHeap) (ptr : Nat) : deref h (some ptr) = h[ptr]? := rfl

theorem get?_lt {α : Type} (l : List α) (i : Nat) (a : α) (hs : l[i]? = some a) : i < l.length := by
  by_contra hc
  have : l[i]? = none := List.getElem?_eq_none (by omega)
  rw [this] at hs
  cases hs

theorem get?_append_length {α : Type} (l : List α) (a : α) : (l ++ [a])[l.length]? = some a := by
  induction l with
  | nil => rfl
  | cons x xs ih => simp

theorem set_append_length {α : Type} (l : List α) (a b : α) :
    (l ++ [a]).set l.length b = l ++ [b] := by
  induction l with
  | nil => rfl
  | cons x xs ih => simp

theorem get?_append_lt {α : Type} (l : List α) (a : α) (i : Nat) (hi : i < l.length) :
    (l ++ [a])[i]? = l[i]? :=
  List.getElem?_append_left hi

/-- No growth: `offset + len(p) ≤ len(*f.data)`. -/
theorem Write_fits (h : SliceHeap) (f : memoryFile) (p : List Byte) (ptr o : Nat) (s : Slice)
    (hd : f.data = some ptr) (hs : h[ptr]? = some s) (ho : f.offset = (o : Int))
    (hfit : o + p.length ≤ s.len) (hb : s.len < 9223372036854775808) :
    f.Write h p = some ((p.length : Int), none, h.set ptr (s.copyAt o p),
      { f with offset := ((o + p.length : Nat) : Int) }) := by
  obtain ⟨name, off, data⟩ := f
  simp only at hd ho
  subst hd ho
  have hw : wrapInt64 ((o : Int) + (p.length : Int)) = ((o + p.length : Nat) : Int) := by
    rw [wrapInt64_of_range] <;> omega
  have h1 : ¬ (((o + p.length : Nat) : Int) > (s.len : Int)) := by omega
  have h2 : (0 : Int) ≤ (o : Int) ∧ (o : Int) ≤ (s.len : Int) := by omega
  simp only [memoryFile.Write, memoryFile.size, deref_some, hs, hw, h1, if_false, h2, and_self,
    if_true, Int.toNat_ofNat]

/-- Growth within the capacity: the length is raised by `len(p)` in place. -/
theorem Write_grow_inplace (h : SliceHeap) (f : memoryFile) (p : List Byte) (ptr o : Nat) (s : Slice)
    (hd : f.data = some ptr) (hs : h[ptr]? = some s) (ho : f.offset = (o : Int))
    (hol : o ≤ s.len) (hgrow : s.len < o + p.length) (hroom : s.len + p.length ≤ s.cap)
    (hb : s.cap < 9223372036854775808) :
    f.Write h p = some ((p.length : Int), none,
      h.set ptr (({ s with len := s.len + p.length } : Slice).copyAt o p),
      { f with offset := ((o + p.length : Nat) : Int) }) := by
  obtain ⟨name, off, data⟩ := f
  simp only at hd ho
  subst hd ho
  have hlt := get?_lt _ _ _ hs
  have hw : wrapInt64 ((o : Int) + (p.length : Int)) = ((o + p.length : Nat) : Int) := by
    rw [wrapInt64_of_range] <;> omega
  have hw2 : wrapInt64 ((s.len : Int) + (p.length : Int)) = ((s.len + p.length : Nat) : Int) := by
    rw [wrapInt64_of_range] <;> omega
  have h1 : (((o + p.length : Nat) : Int) > (s.len : Int)) := by omega
  have h3 : ¬ (((s.len + p.length : Nat) : Int) > (s.cap : Int)) := by omega
  have h4 : (0 : Int) ≤ ((s.len + p.length : Nat) : Int) ∧
      ((s.len + p.length : Nat) : Int) ≤ (s.cap : Int) := by omega
  have h2 : (0 : Int) ≤ (o : Int) ∧ (o : Int) ≤ ((s.len + p.length : Nat) : Int) := by omega
  have hget : (h.set ptr ({ s with len := s.len + p.length } : Slice))[ptr]? =
      some ({ s with len := s.len + p.length } : Slice) := by
    simp [List.getElem?_set, hlt]
  simp only [memoryFile.Write, memoryFile.size, memoryFile.grow, Slice.reslice, deref_some, hs, hw,
    hw2, h1, h3, h4, if_false, and_self, if_true, Int.toNat_ofNat, hget, h2, List.set_set]


/-- Growth beyond the capacity: `grow` allocates a new header and the handle
    alone is redirected to it; the old cell `ptr` keeps its old value. -/
theorem Write_grow_realloc (h : SliceHeap) (f : memoryFile) (p : List Byte) (ptr o : Nat) (s : Slice)
    (hd : f.data = some ptr) (hs : h[ptr]? = some s) (ho : f.offset = (o : Int))
    (hol : o ≤ s.len) (hc : s.len ≤ s.cap) (hgrow : s.len < o + p.length)
    (hroom : s.cap < s.len + p.length) (hb : 2 * s.cap + p.length ≤ maxAlloc) :
    f.Write h p = some ((p.length : Int), none,
      h ++ [(grownSlice s p.length).copyAt o p],
      { f with offset := ((o + p.length : Nat) : Int), data := some h.length }) := by
  obtain ⟨name, off, data⟩ := f
  simp only at hd ho
  subst hd ho
  have hm := maxAlloc_eq
  have hw : wrapInt64 ((o : Int) + (p.length : Int)) = ((o + p.length : Nat) : Int) := by
    rw [wrapInt64_of_range] <;> omega
  have hw2 : wrapInt64 ((s.len : Int) + (p.length : Int)) = ((s.len + p.length : Nat) : Int) := by
    rw [wrapInt64_of_range] <;> omega
  have hw3 : wrapInt64 (wrapInt64 (2 * (s.cap : Int)) + (p.length : Int)) =
      ((2 * s.cap + p.length : Nat) : Int) := by
    rw [wrapInt64_of_range (2 * (s.cap : Int)), wrapInt64_of_range] <;> omega
  have h1 : (((o + p.length : Nat) : Int) > (s.len : Int)) := by omega
  have h3 : (((s.len + p.length : Nat) : Int) > (s.cap : Int)) := by omega
  have h5 : (0 : Int) ≤ ((2 * s.cap + p.length : Nat) : Int) ∧
      2 * s.cap + p.length ≤ maxAlloc := ⟨by omega, hb⟩
  have hcl := Slice.content_length s hc
  have harr : (copy (List.replicate (2 * s.cap + p.length) (0 : Byte)) s.content).2 =
      s.content ++ List.replicate (2 * s.cap + p.length - s.len) 0 := by
    rw [copy_snd_of_le _ _ (by simp [hcl]; omega)]
    simp [hcl]
  have h4 : (0 : Int) ≤ ((s.len + p.length : Nat) : Int) ∧
      ((s.len + p.length : Nat) : Int) ≤ ((2 * s.cap + p.length : Nat) : Int) := by omega
  have h2 : (0 : Int) ≤ (o : Int) ∧ (o : Int) ≤ ((s.len + p.length : Nat) : Int) := by omega
  simp only [memoryFile.Write, memoryFile.size, memoryFile.grow, makeSlice, Slice.reslice,
    deref_some, hs, hw, hw2, hw3, h1, h3, h5, and_self, if_true, Int.toNat_ofNat]
  have hcont : ({ arr := List.replicate (2 * s.cap + p.length) 0, len := 2 * s.cap + p.length } :
      Slice).content = List.replicate (2 * s.cap + p.length) 0 := by
    simp [Slice.content]
  have hdrop : List.drop (2 * s.cap + p.length) (List.replicate (2 * s.cap + p.length) (0 : Byte)) = [] := by
    simp
  have hcap : ∀ k : Nat, (Slice.mk (s.content ++ List.replicate (2 * s.cap + p.length - s.len) 0) k).cap =
      2 * s.cap + p.length := by
    intro k
    show (s.content ++ List.replicate (2 * s.cap + p.length - s.len) 0).length = _
    rw [List.length_append, List.length_replicate, hcl]
    omega
  simp only [hcont, hdrop, harr, List.append_nil, hcap, h4, and_self, if_true, deref_some,
    get?_append_length, h2, set_append_length, Int.toNat_ofNat, hw, grownSlice]

/-! ## `memoryFile.Read` -/

/-- At or past the end of the data `Read` reports `io.EOF`. -/
theorem Read_eof (h : SliceHeap) (f : memoryFile) (p : List Byte) (s : Slice)
    (hs : deref h f.data = some s) (hge : (s.len : Int) ≤ f.offset) :
    f.Read h p = some (0, some Error.EOF, p, f) := by
  have h1 : f.offset ≥ (s.len : Int) := hge
  simp only [memoryFile.Read, memoryFile.size, hs, h1, if_true]

/-- Before the end of the data `Read` copies `min(len(p), len - offset)` bytes. -/
theorem Read_data (h : SliceHeap) (f : memoryFile) (p : List Byte) (o : Nat) (s : Slice)
    (hs : deref h f.data = some s) (ho : f.offset = (o : Int)) (hlt : o < s.len)
    (hc : s.len ≤ s.cap) (hb : s.len < 9223372036854775808) :
    f.Read h p = some (((min p.length (s.len - o) : Nat) : Int), none,
      (s.content.drop o).take (min p.length (s.len - o)) ++ p.drop (min p.length (s.len - o)),
      { f with offset := ((o + min p.length (s.len - o) : Nat) : Int) }) := by
  obtain ⟨name, off, data⟩ := f
  simp only at hs ho
  subst ho
  have hcl := Slice.content_length s hc
  have h1 : ¬ ((o : Int) ≥ (s.len : Int)) := by omega
  have h2 : (0 : Int) ≤ (o : Int) ∧ (o : Int) ≤ (s.len : Int) := by omega
  have hk : min p.length (s.len - o) ≤ s.len - o := Nat.min_le_right _ _
  have hw : wrapInt64 ((o : Int) + ((min p.length (s.len - o) : Nat) : Int)) =
      ((o + min p.length (s.len - o) : Nat) : Int) := by
    rw [wrapInt64_of_range] <;> omega
  have hl : (List.drop o s.content).length = s.len - o := by
    rw [List.length_drop, hcl]
  simp only [memoryFile.Read, memoryFile.size, hs, h1, if_false, Slice.sliceFrom, h2, and_self,
    if_true, Int.toNat_ofNat, copy_fst, copy_snd, hl, hw]

/-- Chunks delivered by successive reads, in one formula covering both the
    data and the end-of-data step. -/
theorem readChunks_spec (h : SliceHeap) (s : Slice) (hc : s.len ≤ s.cap)
    (hb : s.len < 9223372036854775808) (ds : List Nat) :
    ∀ (f : memoryFile) (o : Nat), deref h f.data = some s → f.offset = (o : Int) →
      ∃ cs, readChunks h f ds =
          some (cs, { f with offset := ((o + min ds.sum (s.len - o) : Nat) : Int) }) ∧
        cs.flatten = (s.content.drop o).take ds.sum := by
  induction ds with
  | nil =>
    intro f o _ ho
    refine ⟨[], ?_, by simp⟩
    obtain ⟨name, off, data⟩ := f
    simp only at ho
    subst ho
    simp [readChunks]
  | cons d ds ih =>
    intro f o hs ho
    have hcl := Slice.content_length s hc
    by_cases hlt : o < s.len
    · have hr := Read_data h f (List.replicate d 0) o s hs ho hlt hc hb
      simp only [List.length_replicate] at hr
      obtain ⟨cs, hcs, hj⟩ := ih { f with offset := ((o + min d (s.len - o) : Nat) : Int) }
        (o + min d (s.len - o)) hs rfl
      refine ⟨(s.content.drop o).take (min d (s.len - o)) :: cs, ?_, ?_⟩
      · have hk : ((s.content.drop o).take (min d (s.len - o))).length = min d (s.len - o) := by
          rw [List.length_take, List.length_drop, hcl]
          omega
        have hoff : o + min d (s.len - o) + min ds.sum (s.len - (o + min d (s.len - o))) =
            o + min (d + ds.sum) (s.len - o) := by
          omega
        simp only [readChunks, hr, hcs, Int.toNat_ofNat, List.sum_cons, hoff,
          List.take_append_of_le_length (Nat.le_of_eq hk.symm), List.take_take, Nat.min_self]
      · have hk : ((s.content.drop o).take (min d (s.len - o))).length = min d (s.len - o) := by
          rw [List.length_take, List.length_drop, hcl]
          omega
        rw [List.flatten_cons, hj, List.sum_cons, ← List.drop_drop]
        by_cases hd : d ≤ s.len - o
        · rw [Nat.min_eq_left hd, List.take_add]
        · have hm : min d (s.len - o) = s.len - o := Nat.min_eq_right (by omega)
          have hl : (s.content.drop o).length ≤ s.len - o := by
            rw [List.length_drop, hcl]
          rw [hm, List.take_of_length_le hl, List.drop_of_length_le hl, List.take_nil,
            List.append_nil, List.take_of_length_le (by omega)]
    · have hr := Read_eof h f (List.replicate d 0) s hs (by omega)
      obtain ⟨cs, hcs, hj⟩ := ih f o hs ho
      have h0 : s.len - o = 0 := by omega
      have hnil : s.content.drop o = [] := List.drop_of_length_le (by omega)
      refine ⟨[] :: cs, ?_, ?_⟩
      · simp only [readChunks, hr, hcs]
        simp [h0]
      · simp [hj, hnil]

/-! ## `memoryFile.Seek` -/

/-- `Seek` with an unrecognised whence. -/
theorem Seek_invalid (h : SliceHeap) (f : memoryFile) (offset whence : Int)
    (h0 : whence ≠ SEEK_SET) (h1 : whence ≠ SEEK_CUR) (h2 : whence ≠ SEEK_END) :
    f.Seek h offset whence = some (0, some Error.ErrInvalidWhence, f) := by
  simp only [memoryFile.Seek, h0, h1, h2, if_false]

/-- `Seek` with a recognised whence, in terms of the candidate offset. -/
theorem Seek_valid (h : SliceHeap) (f : memoryFile) (s : Slice) (offset whence : Int)
    (hs : deref h f.data = some s)
    (hw : whence = SEEK_SET ∨ whence = SEEK_CUR ∨ whence = SEEK_END) :
    f.Seek h offset whence =
      if seekCandidate f.offset s.len offset whence < 0 then
        some (0, some Error.ErrNegativeSeek, f)
      else if seekCandidate f.offset s.len offset whence > s.len then
        some (0, some Error.ErrTooFar, f)
      else some (seekCandidate f.offset s.len offset whence, none,
        { f with offset := seekCandidate f.offset s.len offset whence }) := by
  rcases hw with hw | hw | hw
  · subst hw
    simp only [memoryFile.Seek, memoryFile.size, hs, seekCandidate, if_true]
  · subst hw
    have h01 : SEEK_CUR ≠ SEEK_SET := by decide
    simp only [memoryFile.Seek, memoryFile.size, hs, seekCandidate, if_true, h01, if_false]
  · subst hw
    have h02 : SEEK_END ≠ SEEK_SET := by decide
    have h12 : SEEK_END ≠ SEEK_CUR := by decide
    simp only [memoryFile.Seek, memoryFile.size, hs, seekCandidate, if_true, h02, h12, if_false]

/-- The `int64` candidate is the exact one whenever the exact one is an `int64`. -/
theorem seekCandidate_eq_spec (o L offset whence : Int)
    (h1 : -9223372036854775808 ≤ specCandidate o L offset whence)
    (h2 : specCandidate o L offset whence < 9223372036854775808) :
    seekCandidate o L offset whence = specCandidate o L offset whence := by
  unfold seekCandidate specCandidate at *
  split
  · rfl
  · split
    · rename_i h3 h4
      simp only [h3, h4, if_false, if_true] at h1 h2
      exact wrapInt64_of_range _ h1 h2
    · rename_i h3 h4
      simp only [h3, h4, if_false] at h1 h2
      exact wrapInt64_of_range _ h1 h2

theorem wrapInt64_lower (x : Int) : -9223372036854775808 ≤ wrapInt64 x := by
  rw [wrapInt64_eq]
  omega

theorem wrapInt64_upper (x : Int) : wrapInt64 x < 9223372036854775808 := by
  rw [wrapInt64_eq]
  omega

/-- C5 as stated fails: on the handle over the lorem text (56 bytes) with the
    cursor at 10, `Seek(MaxInt64, SEEK_CUR)` has the candidate
    `10 + MaxInt64`, which is not negative and exceeds 56, so that the
    failure should be `TooFar`; the `int64` sum wraps around to a negative
    value and `Seek` reports `ErrNegativeSeek`. -/
theorem C5_counterexample :
    memoryFile.Seek (newFile "foo.txt" lorem).1 ⟨"foo.txt", 10, some 0⟩ 9223372036854775807
      SEEK_CUR = some (0, some Error.ErrNegativeSeek, ⟨"foo.txt", 10, some 0⟩) ∧
    deref (newFile "foo.txt" lorem).1 (some 0) = some ⟨bytes lorem, 56⟩ ∧
    specCandidate 10 56 9223372036854775807 SEEK_CUR = 9223372036854775817 ∧
    specSeekError 10 56 9223372036854775807 SEEK_CUR = some Error.ErrTooFar := by
  refine ⟨?_, by decide, by decide, by decide⟩
  rw [Seek_valid _ _ ⟨bytes lorem, 56⟩ _ _ (by decide) (Or.inr (Or.inl rfl))]
  have hc : seekCandidate (memoryFile.offset ⟨"foo.txt", 10, some 0⟩)
      ((⟨bytes lorem, 56⟩ : Slice).len : Int) 9223372036854775807 SEEK_CUR =
      -9223372036854775799 := by
    have h01 : SEEK_CUR ≠ SEEK_SET := by decide
    simp only [seekCandidate, h01, if_false, if_true]
    rw [wrapInt64_eq]
    omega
  rw [hc, if_pos (by omega)]

/-- C5 (amended): `Seek` fails with `ErrInvalidWhence` when whence is none of
    Start/Current/End; otherwise with `ErrNegativeSeek` when the candidate
    (Start: offset; Current: cursor + offset; End: length + offset, as the
    `int64` value the code computes) is negative; otherwise with `ErrTooFar`
    when the candidate exceeds the length.  In all three cases the returned
    offset is 0 and the handle (hence the cursor) is returned unchanged; `Seek`
    has no access to the store of buffers other than reading it.  In terms of
    the exact sum `c`, for a cursor `0 ≤ o`, a length and an offset that are
    `int64` values: the failure is `ErrNegativeSeek` when `c < 0` and also when
    `c > MaxInt64` (the sum wraps around), and it is `ErrTooFar` when
    `length < c ≤ MaxInt64`; the `int64` candidate is the exact sum whenever
    that sum is itself an `int64`. -/
theorem C5_seek_failures (h : SliceHeap) (f : memoryFile) (s : Slice) (offset whence : Int)
    (hs : deref h f.data = some s) :
    (whence ≠ SEEK_SET → whence ≠ SEEK_CUR → whence ≠ SEEK_END →
      f.Seek h offset whence = some (0, some Error.ErrInvalidWhence, f)) ∧
    (whence = SEEK_SET ∨ whence = SEEK_CUR ∨ whence = SEEK_END →
      (seekCandidate f.offset s.len offset whence < 0 →
        f.Seek h offset whence = some (0, some Error.ErrNegativeSeek, f)) ∧
      (0 ≤ seekCandidate f.offset s.len offset whence →
        seekCandidate f.offset s.len offset whence > s.len →
        f.Seek h offset whence = some (0, some Error.ErrTooFar, f))) ∧
    (-9223372036854775808 ≤ specCandidate f.offset s.len offset whence →
      specCandidate f.offset s.len offset whence < 9223372036854775808 →
      seekCandidate f.offset s.len offset whence = specCandidate f.offset s.len offset whence) ∧
    (whence = SEEK_SET ∨ whence = SEEK_CUR ∨ whence = SEEK_END →
      0 ≤ f.offset → f.offset < 9223372036854775808 → s.len < 9223372036854775808 →
      -9223372036854775808 ≤ offset → offset < 9223372036854775808 →
      (specCandidate f.offset s.len offset whence < 0 ∨
          9223372036854775807 < specCandidate f.offset s.len offset whence →
        f.Seek h offset whence = some (0, some Error.ErrNegativeSeek, f)) ∧
      ((s.len : Int) < specCandidate f.offset s.len offset whence →
        specCandidate f.offset s.len offset whence ≤ 9223372036854775807 →
        f.Seek h offset whence = some (0, some Error.ErrTooFar, f))) := by
  refine ⟨fun h0 h1 h2 => Seek_invalid h f offset whence h0 h1 h2, fun hw => ⟨?_, ?_⟩,
    seekCandidate_eq_spec _ _ _ _, ?_⟩
  · intro hneg
    rw [Seek_valid h f s offset whence hs hw, if_pos hneg]
  · intro hnn hfar
    rw [Seek_valid h f s offset whence hs hw, if_neg (by omega), if_pos hfar]
  · intro hw ho0 ho1 hb hoff0 hoff1
    have hsv := Seek_valid h f s offset whence hs hw
    constructor
    · intro hc
      have hneg : seekCandidate f.offset s.len offset whence < 0 := by
        unfold seekCandidate
        unfold specCandidate at hc
        rcases hw with hw | hw | hw
        · subst hw
          simp only [if_true] at hc ⊢
          omega
        · subst hw
          have h01 : SEEK_CUR ≠ SEEK_SET := by decide
          simp only [if_true, h01, if_false] at hc ⊢
          rw [wrapInt64_eq]
          omega
        · subst hw
          have h02 : SEEK_END ≠ SEEK_SET := by decide
          have h12 : SEEK_END ≠ SEEK_CUR := by decide
          simp only [h02, h12, if_false] at hc ⊢
          rw [wrapInt64_eq]
          omega
      rw [hsv, if_pos hneg]
    · intro hfar hle
      have he := seekCandidate_eq_spec f.offset s.len offset whence (by omega) (by omega)
      rw [hsv, he, if_neg (by omega), if_pos hfar]

/-- C6: for a handle with a valid cursor and a recognised whence, `Seek`
    succeeds if and only if the candidate `c` (Start: offset; Current: cursor +
    offset; End: length + offset, exact sums) satisfies `0 ≤ c ≤ length`; on
    success it returns `c` and sets the cursor to `c` (the store of buffers is
    not an output of `Seek`), and a following `Read` into a destination of
    length `k` delivers `buffer[c .. c + min(k, length - c))`. -/
theorem C6_seek_success (h : SliceHeap) (f : memoryFile) (s : Slice) (offset whence : Int)
    (hs : deref h f.data = some s)
    (hw : whence = SEEK_SET ∨ whence = SEEK_CUR ∨ whence = SEEK_END)
    (hc : s.len ≤ s.cap) (hb : s.len < 9223372036854775808)
    (ho0 : 0 ≤ f.offset) (ho1 : f.offset < 9223372036854775808)
    (hoff0 : -9223372036854775808 ≤ offset) (hoff1 : offset < 9223372036854775808) :
    ((∃ r f1, f.Seek h offset whence = some (r, none, f1)) ↔
      (0 ≤ specCandidate f.offset s.len offset whence ∧
        specCandidate f.offset s.len offset whence ≤ s.len)) ∧
    (0 ≤ specCandidate f.offset s.len offset whence →
      specCandidate f.offset s.len offset whence ≤ s.len →
      f.Seek h offset whence = some (specCandidate f.offset s.len offset whence, none,
        { f with offset := specCandidate f.offset s.len offset whence }) ∧
      ∀ p : List Byte, ∃ e p1 f2,
        memoryFile.Read h { f with offset := specCandidate f.offset s.len offset whence } p =
          some (((min p.length (s.len - (specCandidate f.offset s.len offset whence).toNat) : Nat) : Int),
            e, p1, f2) ∧
        p1.take (min p.length (s.len - (specCandidate f.offset s.len offset whence).toNat)) =
          (s.content.drop (specCandidate f.offset s.len offset whence).toNat).take
            (min p.length (s.len - (specCandidate f.offset s.len offset whence).toNat))) := by
  have hsv := Seek_valid h f s offset whence hs hw
  have key : 0 ≤ specCandidate f.offset s.len offset whence →
      specCandidate f.offset s.len offset whence ≤ s.len →
      f.Seek h offset whence = some (specCandidate f.offset s.len offset whence, none,
        { f with offset := specCandidate f.offset s.len offset whence }) := by
    intro h0 h1
    have he := seekCandidate_eq_spec f.offset s.len offset whence (by omega) (by omega)
    rw [hsv, he, if_neg (by omega), if_neg (by omega)]
  refine ⟨⟨?_, fun hr => ⟨_, _, key hr.1 hr.2⟩⟩, fun h0 h1 => ⟨key h0 h1, ?_⟩⟩
  · rintro ⟨r, f1, hr⟩
    rw [hsv] at hr
    have hlo := wrapInt64_lower (f.offset + offset)
    have hlo2 := wrapInt64_lower ((s.len : Int) + offset)
    by_cases hneg : seekCandidate f.offset s.len offset whence < 0
    · rw [if_pos hneg] at hr
      simp at hr
    · rw [if_neg hneg] at hr
      by_cases hfar : seekCandidate f.offset s.len offset whence > s.len
      · rw [if_pos hfar] at hr
        simp at hr
      · unfold seekCandidate at hneg hfar
        unfold specCandidate
        rcases hw with hw | hw | hw
        · subst hw
          simp only [if_true] at hneg hfar ⊢
          omega
        · subst hw
          have h01 : SEEK_CUR ≠ SEEK_SET := by decide
          simp only [if_true, h01, if_false] at hneg hfar ⊢
          rw [wrapInt64_eq] at hneg hfar
          omega
        · subst hw
          have h02 : SEEK_END ≠ SEEK_SET := by decide
          have h12 : SEEK_END ≠ SEEK_CUR := by decide
          simp only [h02, h12, if_false] at hneg hfar ⊢
          rw [wrapInt64_eq] at hneg hfar
          omega
  · intro p
    generalize hcv : specCandidate f.offset s.len offset whence = c at h0 h1 ⊢
    obtain ⟨k, rfl⟩ := Int.eq_ofNat_of_zero_le h0
    simp only [Int.toNat_ofNat]
    by_cases hlt : k < s.len
    · have hr := Read_data h { f with offset := (k : Int) } p k s hs rfl hlt hc hb
      refine ⟨_, _, _, hr, ?_⟩
      have hk : ((s.content.drop k).take (min p.length (s.len - k))).length =
          min p.length (s.len - k) := by
        rw [List.length_take, List.length_drop, Slice.content_length s hc]
        omega
      rw [List.take_append_of_le_length (Nat.le_of_eq hk.symm), List.take_take, Nat.min_self]
    · have hr := Read_eof h { f with offset := (k : Int) } p s hs (by simp only; omega)
      have hz : s.len - k = 0 := by omega
      refine ⟨some Error.EOF, p, { f with offset := (k : Int) }, ?_, ?_⟩
      · rw [hr, hz, Nat.min_zero]
        rfl
      · simp [hz]

/-! ## Writing at the end of the data -/

theorem take_append_exact (a b c : List Byte) (n : Nat) (hn : n = a.length + b.length) :
    (a ++ b ++ c).take n = a ++ b := by
  subst hn
  rw [← List.length_append]
  exact List.take_left' rfl

theorem grownSlice_cap (s : Slice) (n : Nat) (hc : s.len ≤ s.cap) :
    (grownSlice s n).cap = 2 * s.cap + n := by
  have hcl := Slice.content_length s hc
  show (s.content ++ List.replicate (2 * s.cap + n - s.len) 0).length = _
  rw [List.length_append, List.length_replicate, hcl]
  omega

theorem Slice.copyAt_cap (s : Slice) (off : Nat) (p : List Byte) (hc : s.len ≤ s.cap)
    (hfit : off + p.length ≤ s.len) : (s.copyAt off p).cap = s.cap := by
  show (s.copyAt off p).arr.length = s.arr.length
  rw [Slice.copyAt_arr s off p hc hfit]
  simp only [List.length_append, List.length_take, List.length_drop]
  have hc2 : s.len ≤ s.arr.length := hc
  omega

theorem Slice.copyAt_content_end (s : Slice) (k : Nat) (p : List Byte) (hk : k + p.length = s.len)
    (hc : s.len ≤ s.cap) : (s.copyAt k p).content = s.arr.take k ++ p := by
  have hc2 : s.len ≤ s.arr.length := hc
  show ((s.copyAt k p).arr).take (s.copyAt k p).len = _
  rw [Slice.copyAt_arr s k p hc (by omega), Slice.copyAt_len]
  refine take_append_exact _ _ _ _ ?_
  rw [List.length_take]
  omega

/-- A `Write` with the cursor at the end of the data appends: the handle's
    buffer afterwards holds the old content followed by `p`. -/
theorem Write_append (h : SliceHeap) (f : memoryFile) (p : List Byte) (ptr : Nat) (s : Slice)
    (hd : f.data = some ptr) (hs : h[ptr]? = some s) (ho : f.offset = (s.len : Int))
    (hc : s.len ≤ s.cap) (hb : 2 * s.cap + p.length ≤ maxAlloc) :
    ∃ (ptr1 : Nat) (s1 : Slice) (h1 : SliceHeap),
      f.Write h p = some ((p.length : Int), none, h1,
        { f with offset := ((s.len + p.length : Nat) : Int), data := some ptr1 }) ∧
      h1[ptr1]? = some s1 ∧ s1.content = s.content ++ p ∧ s1.len = s.len + p.length ∧
      s1.len ≤ s1.cap ∧ s1.cap ≤ 2 * s.cap + p.length := by
  have hm := maxAlloc_eq
  have hlt := get?_lt _ _ _ hs
  obtain ⟨name, off, data⟩ := f
  simp only at hd ho
  subst hd ho
  by_cases hfit : s.len + p.length ≤ s.len
  · have hw := Write_fits h ⟨name, (s.len : Int), some ptr⟩ p ptr s.len s rfl hs rfl hfit
      (by omega)
    have hp : p = [] := List.eq_nil_of_length_eq_zero (by omega)
    refine ⟨ptr, s.copyAt s.len p, h.set ptr (s.copyAt s.len p), hw, ?_, ?_, ?_, ?_, ?_⟩
    · simp [List.getElem?_set, hlt]
    · rw [Slice.copyAt_content_end s s.len p (by rw [hp]; rfl) hc]
      rfl
    · rw [Slice.copyAt_len, hp]
      rfl
    · rw [Slice.copyAt_len, Slice.copyAt_cap s s.len p hc hfit]
      exact hc
    · rw [Slice.copyAt_cap s s.len p hc hfit]
      omega
  · by_cases hroom : s.len + p.length ≤ s.cap
    · have hw := Write_grow_inplace h ⟨name, (s.len : Int), some ptr⟩ p ptr s.len s rfl hs rfl
        (Nat.le_refl _) (by omega) hroom (by omega)
      refine ⟨ptr, ({ s with len := s.len + p.length } : Slice).copyAt s.len p,
        h.set ptr (({ s with len := s.len + p.length } : Slice).copyAt s.len p), hw, ?_, ?_, rfl,
        ?_, ?_⟩
      · simp [List.getElem?_set, hlt]
      · exact Slice.copyAt_content_end ({ s with len := s.len + p.length } : Slice) s.len p rfl hroom
      · rw [Slice.copyAt_len,
          Slice.copyAt_cap ({ s with len := s.len + p.length } : Slice) s.len p hroom (Nat.le_refl _)]
        exact hroom
      · rw [Slice.copyAt_cap ({ s with len := s.len + p.length } : Slice) s.len p hroom
          (Nat.le_refl _)]
        show s.cap ≤ _
        omega
    · have hw := Write_grow_realloc h ⟨name, (s.len : Int), some ptr⟩ p ptr s.len s rfl hs rfl
        (Nat.le_refl _) hc (by omega) (by omega) hb
      have hgc := grownSlice_cap s p.length hc
      have hg : (grownSlice s p.length).len ≤ (grownSlice s p.length).cap := by
        rw [hgc]
        show s.len + p.length ≤ _
        omega
      have htk2 : (grownSlice s p.length).arr.take s.len = s.content :=
        List.take_left' (Slice.content_length s hc)
      refine ⟨h.length, (grownSlice s p.length).copyAt s.len p, _, hw, get?_append_length _ _, ?_,
        rfl, ?_, ?_⟩
      · rw [Slice.copyAt_content_end (grownSlice s p.length) s.len p rfl hg, htk2]
      · rw [Slice.copyAt_len, Slice.copyAt_cap (grownSlice s p.length) s.len p hg (Nat.le_refl _)]
        exact hg
      · rw [Slice.copyAt_cap (grownSlice s p.length) s.len p hg (Nat.le_refl _), hgc]

/-- C3: on a handle with offset 0 over an empty buffer, `Write(b1)` returns
    `(len(b1), nil)` and `Write(b2)` returns `(len(b2), nil)`; afterwards the
    handle's buffer holds exactly `b1 ++ b2`, and after `Seek(0, SEEK_SET)` a
    `Read` into a destination of length `len(b1) + len(b2)` fills it with
    exactly `b1 ++ b2`.  The hypothesis `halloc` says that the (at most two)
    reallocations stay within what `make` accepts. -/
theorem C3_write_read_roundtrip (h : SliceHeap) (f : memoryFile) (b1 b2 dest : List Byte)
    (ptr : Nat) (s : Slice)
    (hd : f.data = some ptr) (hs : h[ptr]? = some s) (hempty : s.len = 0)
    (ho : f.offset = 0) (halloc : 4 * s.cap + 2 * b1.length + b2.length ≤ maxAlloc)
    (hdest : dest.length = b1.length + b2.length) :
    ∃ (h1 h2 : SliceHeap) (f1 f2 f3 f4 : memoryFile) (s2 : Slice) (e : Option Error),
      f.Write h b1 = some ((b1.length : Int), none, h1, f1) ∧
      f1.Write h1 b2 = some ((b2.length : Int), none, h2, f2) ∧
      deref h2 f2.data = some s2 ∧ s2.content = b1 ++ b2 ∧ s2.len = b1.length + b2.length ∧
      f2.Seek h2 0 SEEK_SET = some (0, none, f3) ∧
      f3.Read h2 dest = some (((b1.length + b2.length : Nat) : Int), e, b1 ++ b2, f4) := by
  have hm := maxAlloc_eq
  have hc : s.len ≤ s.cap := by omega
  have hcont : s.content = [] := by
    simp [Slice.content, hempty]
  obtain ⟨p1, s1, h1, hw1, hg1, hc1, hl1, hle1, hcap1⟩ :=
    Write_append h f b1 ptr s hd hs (by rw [ho, hempty]; rfl) hc (by omega)
  rw [hempty, Nat.zero_add] at hw1 hl1
  rw [hcont, List.nil_append] at hc1
  obtain ⟨p2, s2, h2, hw2, hg2, hc2, hl2, hle2, hcap2⟩ :=
    Write_append h1 { f with offset := ((b1.length : Nat) : Int), data := some p1 } b2 p1 s1 rfl hg1
      (by rw [hl1]) hle1 (by omega)
  rw [hc1] at hc2
  rw [hl1] at hl2 hw2
  have hsk := Seek_valid h2
    { f with offset := ((b1.length + b2.length : Nat) : Int), data := some p2 } s2 0 SEEK_SET hg2
    (Or.inl rfl)
  have hcand : ∀ o L : Int, seekCandidate o L 0 SEEK_SET = 0 := fun o L => by
    simp [seekCandidate]
  simp only [hcand] at hsk
  rw [if_neg (by omega), if_neg (by omega)] at hsk
  by_cases hz : b1.length + b2.length = 0
  · have hd0 : dest = [] := List.eq_nil_of_length_eq_zero (by omega)
    have hb0 : b1 ++ b2 = [] := List.eq_nil_of_length_eq_zero (by rw [List.length_append]; exact hz)
    have hr := Read_eof h2 { f with offset := (0 : Int), data := some p2 } dest s2 hg2
      (by simp only; omega)
    refine ⟨h1, h2, _, _, _, { f with offset := (0 : Int), data := some p2 }, s2, some Error.EOF,
      hw1, hw2, hg2, hc2, hl2, hsk, ?_⟩
    rw [hr, hz, hd0, hb0]
    rfl
  · have hr := Read_data h2 { f with offset := (0 : Int), data := some p2 } dest 0 s2 hg2 rfl
      (by omega) hle2 (by omega)
    refine ⟨h1, h2, _, _, _,
      { f with offset := ((0 + min dest.length (s2.len - 0) : Nat) : Int), data := some p2 }, s2, none,
      hw1, hw2, hg2, hc2, hl2, hsk, ?_⟩
    rw [hr]
    have hk : min dest.length (s2.len - 0) = b1.length + b2.length := by
      rw [hdest, hl2]
      simp
    have hcl2 := Slice.content_length s2 hle2
    rw [hk, List.drop_zero, List.take_of_length_le (by rw [hcl2, hl2]), hc2,
      List.drop_of_length_le (by omega), List.append_nil, Nat.zero_add]

/-- C4: `Read` on a bare handle with cursor `o` over a buffer of length `L`
    and a destination `p` of length `d`.  If `o ≥ L` it returns `(0, io.EOF)`
    for every `p` and leaves the destination and the handle as they were;
    otherwise it returns `(k, nil)` with `k = min(d, L - o)`, the first `k`
    destination bytes are `buffer[o .. o+k)`, the rest of the destination is
    untouched and the cursor becomes `o + k`.  `Read` does not return a store:
    no buffer is changed.  Consequently successive reads with destinations of
    lengths `ds` deliver consecutive chunks whose concatenation is
    `buffer[o .. o + min(sum ds, L - o))`, and once the end is reached every
    further `Read` reports `io.EOF`. -/
theorem C4_read_postcondition (h : SliceHeap) (f : memoryFile) (s : Slice) (o : Nat)
    (hs : deref h f.data = some s) (ho : f.offset = (o : Int)) (hc : s.len ≤ s.cap)
    (hb : s.len < 9223372036854775808) :
    (s.len ≤ o → ∀ p : List Byte, f.Read h p = some (0, some Error.EOF, p, f)) ∧
    (o < s.len → ∀ p : List Byte, ∃ p1 : List Byte,
      f.Read h p = some (((min p.length (s.len - o) : Nat) : Int), none, p1,
        { f with offset := ((o + min p.length (s.len - o) : Nat) : Int) }) ∧
      p1.take (min p.length (s.len - o)) = (s.content.drop o).take (min p.length (s.len - o)) ∧
      p1.drop (min p.length (s.len - o)) = p.drop (min p.length (s.len - o)) ∧
      p1.length = p.length) ∧
    (∀ ds : List Nat, ∃ (cs : List (List Byte)) (f1 : memoryFile),
      readChunks h f ds = some (cs, f1) ∧
      cs.flatten = (s.content.drop o).take ds.sum ∧
      f1.offset = ((o + min ds.sum (s.len - o) : Nat) : Int) ∧
      (s.len ≤ o + ds.sum → ∀ p : List Byte, f1.Read h p = some (0, some Error.EOF, p, f1))) := by
  have hcl := Slice.content_length s hc
  refine ⟨fun hge p => Read_eof h f p s hs (by omega), fun hlt p => ?_, fun ds => ?_⟩
  · have hk : ((s.content.drop o).take (min p.length (s.len - o))).length =
        min p.length (s.len - o) := by
      rw [List.length_take, List.length_drop, hcl]
      omega
    refine ⟨_, Read_data h f p o s hs ho hlt hc hb, ?_, ?_, ?_⟩
    · rw [List.take_append_of_le_length (Nat.le_of_eq hk.symm), List.take_take, Nat.min_self]
    · rw [List.drop_append_of_le_length (Nat.le_of_eq hk.symm),
        List.drop_of_length_le (Nat.le_of_eq hk), List.nil_append]
    · rw [List.length_append, hk, List.length_drop]
      omega
  · obtain ⟨cs, hcs, hj⟩ := readChunks_spec h s hc hb ds f o hs ho
    refine ⟨cs, _, hcs, hj, rfl, fun hend p => ?_⟩
    exact Read_eof h _ p s hs (by simp only; omega)

/-- Witness for C4: the handle of `TestRead` over "Hello world!" at cursor 5. -/
theorem C4_read_postcondition_witness :
    deref (newFile "foo.txt" hello).1 (some 0) = some ⟨bytes hello, 12⟩ ∧
    ((12 ≤ 5 → ∀ p : List Byte, memoryFile.Read (newFile "foo.txt" hello).1 ⟨"foo.txt", 5, some 0⟩ p =
        some (0, some Error.EOF, p, ⟨"foo.txt", 5, some 0⟩)) ∧
    (5 < 12 → ∀ p : List Byte, ∃ p1 : List Byte,
      memoryFile.Read (newFile "foo.txt" hello).1 ⟨"foo.txt", 5, some 0⟩ p =
        some (((min p.length (12 - 5) : Nat) : Int), none, p1,
          ⟨"foo.txt", ((5 + min p.length (12 - 5) : Nat) : Int), some 0⟩) ∧
      p1.take (min p.length (12 - 5)) = ((bytes hello).take 12 |>.drop 5).take (min p.length (12 - 5)) ∧
      p1.drop (min p.length (12 - 5)) = p.drop (min p.length (12 - 5)) ∧
      p1.length = p.length) ∧
    (∀ ds : List Nat, ∃ (cs : List (List Byte)) (f1 : memoryFile),
      readChunks (newFile "foo.txt" hello).1 ⟨"foo.txt", 5, some 0⟩ ds = some (cs, f1) ∧
      cs.flatten = ((bytes hello).take 12 |>.drop 5).take ds.sum ∧
      f1.offset = ((5 + min ds.sum (12 - 5) : Nat) : Int) ∧
      (12 ≤ 5 + ds.sum → ∀ p : List Byte,
        f1.Read (newFile "foo.txt" hello).1 p = some (0, some Error.EOF, p, f1)))) :=
  ⟨by decide, C4_read_postcondition (newFile "foo.txt" hello).1 ⟨"foo.txt", 5, some 0⟩
    ⟨bytes hello, 12⟩ 5 (by decide) rfl (by decide) (by decide)⟩

/-- Witness for C3: the two writes of `TestWrite` on the empty file. -/
theorem C3_write_read_roundtrip_witness :
    (newFile "foo.txt" "").1[0]? = some ⟨[], 0⟩ ∧
    ∃ (h1 h2 : SliceHeap) (f1 f2 f3 f4 : memoryFile) (s2 : Slice) (e : Option Error),
      (newFile "foo.txt" "").2.Write (newFile "foo.txt" "").1 (bytes hello) =
        some (((bytes hello).length : Int), none, h1, f1) ∧
      f1.Write h1 (bytes bye) = some (((bytes bye).length : Int), none, h2, f2) ∧
      deref h2 f2.data = some s2 ∧ s2.content = bytes hello ++ bytes bye ∧
      s2.len = (bytes hello).length + (bytes bye).length ∧
      f2.Seek h2 0 SEEK_SET = some (0, none, f3) ∧
      f3.Read h2 (List.replicate 21 0) =
        some ((((bytes hello).length + (bytes bye).length : Nat) : Int), e,
          bytes hello ++ bytes bye, f4) :=
  ⟨by decide, C3_write_read_roundtrip (newFile "foo.txt" "").1 (newFile "foo.txt" "").2
    (bytes hello) (bytes bye) (List.replicate 21 0) 0 ⟨[], 0⟩ rfl (by decide) rfl rfl
    (by decide) (by decide)⟩

/-- Witness for C5: on the `TestSeek` file, `Seek(-1, SEEK_SET)` fails with
    `ErrNegativeSeek`, `Seek(57, SEEK_SET)` with `ErrTooFar`, a seek with
    whence 100 with `ErrInvalidWhence`, and `Seek(MaxInt64, SEEK_CUR)` from
    cursor 10 with `ErrNegativeSeek`. -/
theorem C5_seek_failures_witness :
    (newFile "foo.txt" lorem).2.Seek (newFile "foo.txt" lorem).1 (-1) SEEK_SET =
      some (0, some Error.ErrNegativeSeek, (newFile "foo.txt" lorem).2) ∧
    (newFile "foo.txt" lorem).2.Seek (newFile "foo.txt" lorem).1 57 SEEK_SET =
      some (0, some Error.ErrTooFar, (newFile "foo.txt" lorem).2) ∧
    (newFile "foo.txt" lorem).2.Seek (newFile "foo.txt" lorem).1 1 100 =
      some (0, some Error.ErrInvalidWhence, (newFile "foo.txt" lorem).2) ∧
    memoryFile.Seek (newFile "foo.txt" lorem).1 ⟨"foo.txt", 10, some 0⟩ 9223372036854775807
      SEEK_CUR = some (0, some Error.ErrNegativeSeek, ⟨"foo.txt", 10, some 0⟩) :=
  ⟨((C5_seek_failures (newFile "foo.txt" lorem).1 (newFile "foo.txt" lorem).2
      ⟨bytes lorem, 56⟩ (-1) SEEK_SET (by decide)).2.1 (Or.inl rfl)).1 (by decide),
   ((C5_seek_failures (newFile "foo.txt" lorem).1 (newFile "foo.txt" lorem).2
      ⟨bytes lorem, 56⟩ 57 SEEK_SET (by decide)).2.1 (Or.inl rfl)).2 (by decide) (by decide),
   (C5_seek_failures (newFile "foo.txt" lorem).1 (newFile "foo.txt" lorem).2
      ⟨bytes lorem, 56⟩ 1 100 (by decide)).1 (by decide) (by decide) (by decide),
   ((C5_seek_failures (newFile "foo.txt" lorem).1 ⟨"foo.txt", 10, some 0⟩
      ⟨bytes lorem, 56⟩ 9223372036854775807 SEEK_CUR (by decide)).2.2.2 (Or.inr (Or.inl rfl))
      (by decide) (by decide) (by decide) (by decide) (by decide)).1 (Or.inr (by decide))⟩

/-- Witness for C6: `Seek(-5, SEEK_END)` from cursor 15 of the `TestSeek` file. -/
theorem C6_seek_success_witness :
    memoryFile.Seek (newFile "foo.txt" lorem).1 ⟨"foo.txt", 15, some 0⟩ (-5) SEEK_END =
      some (51, none, ⟨"foo.txt", 51, some 0⟩) :=
  ((C6_seek_success (newFile "foo.txt" lorem).1 ⟨"foo.txt", 15, some 0⟩ ⟨bytes lorem, 56⟩ (-5)
    SEEK_END (by decide) (Or.inr (Or.inr rfl)) (by decide) (by decide) (by decide) (by decide)
    (by decide) (by decide)).2 (by decide) (by decide)).1

/-- C7 as stated fails: on the handle over the lorem text, `Seek(10, SEEK_SET)`
    followed by a `Read` of 5 bytes does not deliver "m ips". -/
theorem C7_counterexample :
    ∃ (f1 f2 : memoryFile) (p1 : List Byte),
      (newFile "foo.txt" lorem).2.Seek (newFile "foo.txt" lorem).1 10 SEEK_SET = some (10, none, f1) ∧
      f1.Read (newFile "foo.txt" lorem).1 (List.replicate 5 0) = some (5, none, p1, f2) ∧
      p1 ≠ bytes "m ips" :=
  ⟨⟨"foo.txt", 10, some 0⟩, ⟨"foo.txt", 15, some 0⟩, bytes "m dol", by decide, by decide, by decide⟩

/-- C7, amended: on the handle of `TestSeek` over the lorem text,
    `Seek(10, SEEK_SET)` followed by a `Read` of 5 bytes delivers bytes 10 to 15,
    "m dol"; then `Seek(5, SEEK_CUR)` and a `Read` of 5 bytes deliver bytes 20 to
    25, "t ame"; then `Seek(-5, SEEK_END)` and a `Read` of 5 bytes deliver the
    final 5 bytes, "elit.". -/
theorem C7_seek_read_lorem :
    ∃ (f1 f2 f3 f4 f5 f6 : memoryFile) (p1 p2 p3 : List Byte),
      (newFile "foo.txt" lorem).2.Seek (newFile "foo.txt" lorem).1 10 SEEK_SET = some (10, none, f1) ∧
      f1.Read (newFile "foo.txt" lorem).1 (List.replicate 5 0) = some (5, none, p1, f2) ∧
      p1 = bytes "m dol" ∧ p1 = ((bytes lorem).drop 10).take 5 ∧
      f2.Seek (newFile "foo.txt" lorem).1 5 SEEK_CUR = some (20, none, f3) ∧
      f3.Read (newFile "foo.txt" lorem).1 p1 = some (5, none, p2, f4) ∧
      p2 = bytes "t ame" ∧ p2 = ((bytes lorem).drop 20).take 5 ∧
      f4.Seek (newFile "foo.txt" lorem).1 (-5) SEEK_END = some (51, none, f5) ∧
      f5.Read (newFile "foo.txt" lorem).1 p2 = some (5, none, p3, f6) ∧
      p3 = bytes "elit." ∧ p3 = (bytes lorem).drop ((bytes lorem).length - 5) :=
  ⟨⟨"foo.txt", 10, some 0⟩, ⟨"foo.txt", 15, some 0⟩, ⟨"foo.txt", 20, some 0⟩,
    ⟨"foo.txt", 25, some 0⟩, ⟨"foo.txt", 51, some 0⟩, ⟨"foo.txt", 56, some 0⟩,
    bytes "m dol", bytes "t ame", bytes "elit.",
    by decide, by decide, rfl, by decide, by decide, by decide, rfl, by decide, by decide,
    by decide, rfl, by decide⟩

/-! ## Path resolution -/

theorem splitSep_ne_nil (cs : List Char) : splitSep cs ≠ [] := by
  induction cs with
  | nil => simp [splitSep]
  | cons c cs ih =>
    unfold splitSep
    split
    · simp
    · split <;> simp

theorem splitSep_length_pos (cs : List Char) : 1 ≤ (splitSep cs).length := by
  have := splitSep_ne_nil cs
  cases hs : splitSep cs with
  | nil => exact absurd hs this
  | cons a l => simp

/-- An absolute path splits into at least two segments. -/
theorem Split_length_of_abs (name : String) (habs : isAbsPath name = true) :
    2 ≤ (Split name).length := by
  unfold isAbsPath at habs
  unfold Split
  rw [List.length_map]
  cases hd : name.data with
  | nil => simp [hd] at habs
  | cons c cs =>
    simp only [hd, beq_iff_eq] at habs
    subst habs
    have := splitSep_length_pos cs
    simp only [splitSep, if_true, List.length_cons]
    omega

theorem lookup_mem (l : List (String × Nat)) (k : String) (v : Nat) (hl : l.lookup k = some v) :
    (k, v) ∈ l := by
  induction l with
  | nil => simp at hl
  | cons e rest ih =>
    obtain ⟨k1, v1⟩ := e
    rw [List.lookup_cons] at hl
    by_cases hk : k == k1
    · simp only [hk] at hl
      have hk2 : k = k1 := by simpa using hk
      cases hl
      subst hk2
      exact List.mem_cons_self _ _
    · simp only [hk] at hl
      exact List.mem_cons_of_mem _ (ih hl)

theorem wf_root (h : Heap) (fs : MemoryFilesystem) (hwf : h.wf fs = true) :
    ∃ r, h.nodes[fs.root]? = some r ∧ r.IsDir = true := by
  unfold Heap.wf at hwf
  cases hr : h.nodes[fs.root]? with
  | none =>
    rw [hr] at hwf
    simp at hwf
  | some r =>
    rw [hr] at hwf
    simp only [Bool.and_eq_true] at hwf
    exact ⟨r, rfl, hwf.1.1⟩

theorem wf_node (h : Heap) (fs : MemoryFilesystem) (hwf : h.wf fs = true) (i : Nat) (n : fileInfo)
    (hn : h.nodes[i]? = some n) : wfNode h n = true := by
  unfold Heap.wf at hwf
  simp only [Bool.and_eq_true, List.all_eq_true] at hwf
  exact hwf.1.2 n (List.getElem?_mem hn)

theorem wf_child (h : Heap) (fs : MemoryFilesystem) (hwf : h.wf fs = true) (i : Nat) (n : fileInfo)
    (hn : h.nodes[i]? = some n) (k : String) (j : Nat) (hj : mapGet n.children k = some j) :
    ∃ c, h.nodes[j]? = some c := by
  have hw := wf_node h fs hwf i n hn
  unfold wfNode at hw
  unfold mapGet at hj
  cases hc : n.children with
  | none => simp [hc] at hj
  | some l =>
    simp only [hc] at hj hw
    rw [List.all_eq_true] at hw
    have := hw (k, j) (lookup_mem l k j hj)
    simp only [decide_eq_true_eq] at this
    exact ⟨h.nodes[j], List.getElem?_eq_getElem this⟩

theorem wf_file_data (h : Heap) (fs : MemoryFilesystem) (hwf : h.wf fs = true) (i : Nat)
    (n : fileInfo) (hn : h.nodes[i]? = some n) (hfile : n.IsDir = false) :
    ∃ p s, n.data = some p ∧ h.slices[p]? = some s := by
  have hw := wf_node h fs hwf i n hn
  unfold wfNode at hw
  unfold fileInfo.IsDir at hfile
  cases hc : n.children with
  | some l => simp [hc] at hfile
  | none =>
    simp only [hc] at hw
    cases hd : n.data with
    | none => simp [hd] at hw
    | some p =>
      simp only [hd, decide_eq_true_eq] at hw
      exact ⟨p, h.slices[p], rfl, List.getElem?_eq_getElem hw⟩

/-- In a well-formed state the walk over the inner segments never panics,
    and the parent it reaches is an allocated directory. -/
theorem walk_wf (h : Heap) (fs : MemoryFilesystem) (hwf : h.wf fs = true) (segs : List String) :
    ∀ parent pn, h.nodes[parent]? = some pn → pn.IsDir = true →
      walk h.nodes parent segs = some none ∨
      ∃ p pn1, walk h.nodes parent segs = some (some p) ∧ h.nodes[p]? = some pn1 ∧
        pn1.IsDir = true := by
  induction segs with
  | nil =>
    intro parent pn hp hd
    exact Or.inr ⟨parent, pn, rfl, hp, hd⟩
  | cons seg rest ih =>
    intro parent pn hp hd
    unfold walk
    simp only [hp]
    cases hg : mapGet pn.children seg with
    | none => exact Or.inl rfl
    | some entry =>
      obtain ⟨en, hen⟩ := wf_child h fs hwf parent pn hp seg entry hg
      simp only [hen]
      by_cases hdir : en.IsDir = true
      · simp only [hdir, if_true]
        exact ih entry en hen hdir
      · simp only [hdir]
        exact Or.inl rfl

/-- Path resolution of an absolute path in a well-formed state: either
    `os.ErrNotExist` (no parent, no node), or an allocated parent directory
    with the leaf looked up in its map. -/
theorem stat_wf (h : Heap) (fs : MemoryFilesystem) (name : String) (hwf : h.wf fs = true)
    (habs : isAbsPath name = true) :
    fs.stat h name = some (none, none, some Error.ErrNotExist) ∨
    ∃ p pn seg, fs.stat h name = some (some p, mapGet pn.children seg, none) ∧
      h.nodes[p]? = some pn ∧ pn.IsDir = true ∧ (Split name).getLast? = some seg := by
  have hlen := Split_length_of_abs name habs
  obtain ⟨r, hr, hrd⟩ := wf_root h fs hwf
  have hnot : ¬ ((Split name).length < 2) := by omega
  unfold MemoryFilesystem.stat
  simp only [hnot, if_false]
  rcases walk_wf h fs hwf ((Split name).drop 1 |>.take ((Split name).length - 2)) fs.root r hr hrd
    with hw | ⟨p, pn, hw, hp, hpd⟩
  · left
    simp only [hw]
  · right
    cases hl : (Split name).getLast? with
    | none =>
      rw [List.getLast?_eq_none_iff] at hl
      rw [hl] at hlen
      simp at hlen
    | some seg =>
      refine ⟨p, pn, seg, ?_, hp, hpd, rfl⟩
      simp only [hw, hp]

/-! ## `OpenFile` -/

theorem Seek_total (h : SliceHeap) (f : memoryFile) (s : Slice) (offset whence : Int)
    (hs : deref h f.data = some s) : ∃ r, f.Seek h offset whence = some r := by
  by_cases hw : whence = SEEK_SET ∨ whence = SEEK_CUR ∨ whence = SEEK_END
  · rw [Seek_valid h f s offset whence hs hw]
    split
    · exact ⟨_, rfl⟩
    · split <;> exact ⟨_, rfl⟩
  · simp only [not_or] at hw
    exact ⟨_, Seek_invalid h f offset whence hw.1 hw.2.1 hw.2.2⟩

/-- The method `openFile` returns a handle whenever the node's buffer pointer
    is valid. -/
theorem openFile_total (h : SliceHeap) (fi : fileInfo) (flag : Int) (s : Slice)
    (hs : deref h fi.data = some s) : ∃ file, fi.openFile h flag = some file := by
  unfold fileInfo.openFile
  by_cases ha : hasFlag flag O_APPEND = true
  · obtain ⟨r, hr⟩ := Seek_total h { name := fi.fullpath, offset := 0, data := fi.data } s 0
      SEEK_END hs
    simp only [ha, if_true, hr, Option.map_some']
    by_cases hrw : hasFlag flag O_RDWR = true <;> by_cases hwo : hasFlag flag O_WRONLY = true <;>
      simp [hrw, hwo]
  · simp only [ha]
    by_cases hrw : hasFlag flag O_RDWR = true <;> by_cases hwo : hasFlag flag O_WRONLY = true <;>
      simp [hrw, hwo]

theorem get?_set_ne {α : Type} (l : List α) (i j : Nat) (a : α) (hij : i ≠ j) :
    (l.set i a)[j]? = l[j]? := by
  simp [List.getElem?_set, hij]

/-- The creating path of `OpenFile`: linking a fresh file node below an
    allocated directory succeeds, and the new node is the last cell. -/
theorem setChild_fresh (nodes : List fileInfo) (p : Nat) (pn fi : fileInfo) (base : String)
    (hp : nodes[p]? = some pn) (hd : pn.IsDir = true) :
    ∃ nodes1, setChild (nodes ++ [fi]) (some p) base nodes.length = some nodes1 ∧
      nodes1[nodes.length]? = some fi ∧ nodes1.length = nodes.length + 1 := by
  have hlt := get?_lt _ _ _ hp
  have hp2 : (nodes ++ [fi])[p]? = some pn := by
    rw [get?_append_lt nodes fi p hlt, hp]
  unfold fileInfo.IsDir at hd
  cases hc : pn.children with
  | none => simp [hc] at hd
  | some l =>
    refine ⟨(nodes ++ [fi]).set p { pn with children := some (mapSet l base nodes.length) },
      ?_, ?_, ?_⟩
    · unfold setChild
      simp only [hp2, hc]
    · rw [get?_set_ne _ _ _ _ (by omega), get?_append_length]
    · simp

/-- `OpenFile` when resolution fails. -/
theorem OpenFile_stat_error (h : Heap) (fs : MemoryFilesystem) (name : String) (flag : Int)
    (perm : Nat) (p n : Option Nat) (e : Error) (hst : fs.stat h name = some (p, n, some e)) :
    fs.OpenFile h name flag perm = some (none, some { Op := "open", Path := name, Err := e }, h) := by
  unfold MemoryFilesystem.OpenFile
  simp only [hst]

/-- `OpenFile` on an existing directory. -/
theorem OpenFile_directory (h : Heap) (fs : MemoryFilesystem) (name : String) (flag : Int)
    (perm : Nat) (p : Option Nat) (i : Nat) (fi : fileInfo)
    (hst : fs.stat h name = some (p, some i, none)) (hi : h.nodes[i]? = some fi)
    (hdir : fi.IsDir = true) :
    fs.OpenFile h name flag perm =
      some (none, some { Op := "open", Path := name, Err := Error.ErrDirectory }, h) := by
  unfold MemoryFilesystem.OpenFile
  simp only [hst, hi, Option.map_some', hdir]

/-- `OpenFile` with CREATE and without TRUNC on an existing file. -/
theorem OpenFile_exist (h : Heap) (fs : MemoryFilesystem) (name : String) (flag : Int)
    (perm : Nat) (p : Option Nat) (i : Nat) (fi : fileInfo)
    (hst : fs.stat h name = some (p, some i, none)) (hi : h.nodes[i]? = some fi)
    (hdir : fi.IsDir = false) (hcr : hasFlag flag O_CREATE = true)
    (htr : hasFlag flag O_TRUNC = false) :
    fs.OpenFile h name flag perm =
      some (none, some { Op := "open", Path := name, Err := Error.ErrExist }, h) := by
  unfold MemoryFilesystem.OpenFile
  simp [hst, hi, hdir, hcr, htr]

/-- `OpenFile` without CREATE on an absent leaf. -/
theorem OpenFile_absent (h : Heap) (fs : MemoryFilesystem) (name : String) (flag : Int)
    (perm : Nat) (p : Option Nat)
    (hst : fs.stat h name = some (p, none, none)) (hcr : hasFlag flag O_CREATE = false) :
    fs.OpenFile h name flag perm =
      some (none, some { Op := "open", Path := name, Err := Error.ErrNotExist }, h) := by
  unfold MemoryFilesystem.OpenFile
  simp [hst, hcr]

/-- `OpenFile` without CREATE on an existing file opens that file and leaves
    the state as it is. -/
theorem OpenFile_existing (h : Heap) (fs : MemoryFilesystem) (name : String) (flag : Int)
    (perm : Nat) (p : Option Nat) (i : Nat) (fi : fileInfo)
    (hst : fs.stat h name = some (p, some i, none)) (hi : h.nodes[i]? = some fi)
    (hdir : fi.IsDir = false) (hcr : hasFlag flag O_CREATE = false) :
    fs.OpenFile h name flag perm =
      match fi.openFile h.slices flag with
      | none => none
      | some file => some (some file, none, h) := by
  unfold MemoryFilesystem.OpenFile
  simp [hst, hi, hdir, hcr]

/-- `OpenFile` on the creating path (CREATE, and the leaf absent or a file
    with TRUNC): a fresh node with a fresh empty buffer of capacity 512
    replaces the entry `Base name` of the parent, and is opened. -/
theorem OpenFile_create (h : Heap) (fs : MemoryFilesystem) (name : String) (flag : Int)
    (perm : Nat) (p : Nat) (pn : fileInfo) (node : Option Nat)
    (hst : fs.stat h name = some (some p, node, none))
    (hp : h.nodes[p]? = some pn) (hpd : pn.IsDir = true)
    (hnode : ∀ i, node = some i → ∃ fi, h.nodes[i]? = some fi ∧ fi.IsDir = false)
    (hcr : hasFlag flag O_CREATE = true)
    (htr : node = none ∨ hasFlag flag O_TRUNC = true) :
    ∃ (file : File) (nodes1 : List fileInfo),
      fs.OpenFile h name flag perm =
        some (some file, none, { slices := h.slices ++ [emptyData], nodes := nodes1 }) ∧
      setChild (h.nodes ++ [⟨Base name, name, perm, none, some h.slices.length⟩]) (some p)
        (Base name) h.nodes.length = some nodes1 ∧
      fileInfo.openFile (h.slices ++ [emptyData])
        ⟨Base name, name, perm, none, some h.slices.length⟩ flag = some file := by
  obtain ⟨nodes1, hset, hget, _⟩ := setChild_fresh h.nodes p pn
    ⟨Base name, name, perm, none, some h.slices.length⟩ (Base name) hp hpd
  obtain ⟨file, hfile⟩ := openFile_total (h.slices ++ [emptyData])
    ⟨Base name, name, perm, none, some h.slices.length⟩ flag emptyData (get?_append_length _ _)
  refine ⟨file, nodes1, ?_, hset, hfile⟩
  cases node with
  | none =>
    unfold MemoryFilesystem.OpenFile
    simp [hst, hcr, hset, hget, hfile]
  | some i =>
    obtain ⟨fi, hfi, hfd⟩ := hnode i rfl
    have ht : hasFlag flag O_TRUNC = true := by
      rcases htr with hn | ht
      · cases hn
      · exact ht
    unfold MemoryFilesystem.OpenFile
    simp [hst, hcr, hset, hget, hfile, hfi, hfd, ht]

/-- What `Stat` returns on success is the leaf found by path resolution. -/
theorem Stat_some (h : Heap) (fs : MemoryFilesystem) (name : String) (i : Nat)
    (hS : fs.Stat h name = some (some i, none)) :
    ∃ p, fs.stat h name = some (p, some i, none) := by
  unfold MemoryFilesystem.Stat at hS
  cases hst : fs.stat h name with
  | none => simp [hst] at hS
  | some r =>
    obtain ⟨p, n, e⟩ := r
    cases e with
    | some err => simp [hst] at hS
    | none =>
      cases n with
      | none => simp [hst] at hS
      | some j =>
        simp only [hst, Option.some.injEq, Prod.mk.injEq, and_true] at hS
        cases hS
        exact ⟨p, rfl⟩

/-- C10: for a well-formed state and an absolute path, `OpenFile` fails
    exactly in the cases (i) to (iv) collected in `specOpenFailure`: a
    non-final segment does not resolve to a directory (`NotExist`); the leaf
    is a directory (`IsDirectory`, whatever the flags); CREATE without TRUNC on
    an existing file (`Exist`); no CREATE and no leaf (`NotExist`).  Each
    failure is the `PathError` with operation "open" and the given path,
    returns no handle and leaves the whole state (tree and buffers) as it was;
    in every other case `OpenFile` returns a handle and no error.  In
    particular `OpenFile` with any flags, `Create` and `Open` on a path that
    `Stat` reports as a directory fail with `IsDirectory`. -/
theorem C10_openFile_failures (h : Heap) (fs : MemoryFilesystem) (name : String) (flag : Int)
    (perm : Nat) (hwf : h.wf fs = true) (habs : isAbsPath name = true) :
    (match specOpenFailure h fs name flag with
      | some e =>
        fs.OpenFile h name flag perm = some (none, some { Op := "open", Path := name, Err := e }, h)
      | none => ∃ file h1, fs.OpenFile h name flag perm = some (some file, none, h1)) ∧
    (∀ i fi, fs.Stat h name = some (some i, none) → h.nodes[i]? = some fi → fi.IsDir = true →
      fs.OpenFile h name flag perm =
        some (none, some { Op := "open", Path := name, Err := Error.ErrDirectory }, h) ∧
      fs.Create h name =
        some (none, some { Op := "open", Path := name, Err := Error.ErrDirectory }, h) ∧
      fs.Open h name =
        some (none, some { Op := "open", Path := name, Err := Error.ErrDirectory }, h)) := by
  constructor
  · rcases stat_wf h fs name hwf habs with hst | ⟨p, pn, seg, hst, hp, hpd, _⟩
    · have hspec : specOpenFailure h fs name flag = some Error.ErrNotExist := by
        unfold specOpenFailure
        simp only [hst]
      rw [hspec]
      exact OpenFile_stat_error h fs name flag perm _ _ _ hst
    · cases hnode : mapGet pn.children seg with
      | none =>
        rw [hnode] at hst
        by_cases hcr : hasFlag flag O_CREATE = true
        · have hspec : specOpenFailure h fs name flag = none := by
            unfold specOpenFailure
            simp only [hst, hcr, if_true]
          rw [hspec]
          obtain ⟨file, nodes1, ho, _, _⟩ := OpenFile_create h fs name flag perm p pn none hst hp hpd
            (fun i hi => by cases hi) hcr (Or.inl rfl)
          exact ⟨file, _, ho⟩
        · have hcr2 : hasFlag flag O_CREATE = false := by simpa using hcr
          have hspec : specOpenFailure h fs name flag = some Error.ErrNotExist := by
            unfold specOpenFailure
            simp [hst, hcr2]
          rw [hspec]
          exact OpenFile_absent h fs name flag perm _ hst hcr2
      | some i =>
        rw [hnode] at hst
        obtain ⟨fi, hfi⟩ := wf_child h fs hwf p pn hp seg i hnode
        by_cases hdir : fi.IsDir = true
        · have hspec : specOpenFailure h fs name flag = some Error.ErrDirectory := by
            unfold specOpenFailure
            simp only [hst, hfi, hdir, if_true]
          rw [hspec]
          exact OpenFile_directory h fs name flag perm _ i fi hst hfi hdir
        · have hdir2 : fi.IsDir = false := by simpa using hdir
          by_cases hcr : hasFlag flag O_CREATE = true
          · by_cases htr : hasFlag flag O_TRUNC = true
            · have hspec : specOpenFailure h fs name flag = none := by
                unfold specOpenFailure
                simp only [hst, hfi]
                simp [hdir2, hcr, htr]
              rw [hspec]
              obtain ⟨file, nodes1, ho, _, _⟩ := OpenFile_create h fs name flag perm p pn (some i)
                hst hp hpd (fun j hj => by cases hj; exact ⟨fi, hfi, hdir2⟩) hcr (Or.inr htr)
              exact ⟨file, _, ho⟩
            · have htr2 : hasFlag flag O_TRUNC = false := by simpa using htr
              have hspec : specOpenFailure h fs name flag = some Error.ErrExist := by
                unfold specOpenFailure
                simp only [hst, hfi]
                simp [hdir2, hcr, htr2]
              rw [hspec]
              exact OpenFile_exist h fs name flag perm _ i fi hst hfi hdir2 hcr htr2
          · have hcr2 : hasFlag flag O_CREATE = false := by simpa using hcr
            have hspec : specOpenFailure h fs name flag = none := by
              unfold specOpenFailure
              simp only [hst, hfi]
              simp [hdir2, hcr2]
            rw [hspec]
            obtain ⟨ptr, s, hdata, hsl⟩ := wf_file_data h fs hwf i fi hfi hdir2
            obtain ⟨file, hfile⟩ := openFile_total h.slices fi flag s (by rw [hdata]; exact hsl)
            refine ⟨file, h, ?_⟩
            rw [OpenFile_existing h fs name flag perm _ i fi hst hfi hdir2 hcr2, hfile]
  · intro i fi hS hfi hdir
    obtain ⟨p, hst⟩ := Stat_some h fs name i hS
    exact ⟨OpenFile_directory h fs name flag perm p i fi hst hfi hdir,
      OpenFile_directory h fs name _ _ p i fi hst hfi hdir,
      OpenFile_directory h fs name _ _ p i fi hst hfi hdir⟩

/-! ## A write that reallocates is not seen through the node -/

theorem OpenFile_create_foo :
    NewFilesystem.2.OpenFile NewFilesystem.1 "/foo.txt" (Int.lor O_CREATE O_WRONLY) 511 =
      some (some (File.writeOnlyFile (File.mem ⟨"/foo.txt", 0, some 0⟩)), none, fooState 511) := by
  rfl

theorem Create_foo :
    NewFilesystem.2.Create NewFilesystem.1 "/foo.txt" =
      some (some (File.mem ⟨"/foo.txt", 0, some 0⟩), none, fooState CreateDefaultMode) := by
  rfl

/-- A first `Write` of more than 512 bytes on the handle of a freshly created
    file reallocates: the handle moves to the new cell 1 and cell 0, the
    buffer of the node, stays empty. -/
theorem Write_fresh_big (name : String) (b : List Byte) (hlen : 512 < b.length)
    (hmax : 1024 + b.length ≤ maxAlloc) :
    memoryFile.Write [emptyData] ⟨name, 0, some 0⟩ b =
      some ((b.length : Int), none, [emptyData, (grownSlice emptyData b.length).copyAt 0 b],
        ⟨name, ((0 + b.length : Nat) : Int), some 1⟩) := by
  have hcap : emptyData.cap = 512 := by
    show (List.replicate InitialDataSize (0 : Byte)).length = 512
    rw [List.length_replicate]
    rfl
  have hl : emptyData.len = 0 := rfl
  exact Write_grow_realloc [emptyData] ⟨name, 0, some 0⟩ b 0 0 emptyData rfl rfl rfl
    (Nat.zero_le _) (by rw [hl]; exact Nat.zero_le _) (by rw [hl]; omega) (by rw [hcap, hl]; omega)
    (by rw [hcap]; omega)

/-- C1 fails on the code for a write longer than the initial capacity: on a
    fresh filesystem, after `OpenFile("/foo.txt", O_CREATE|O_WRONLY, 0777)` and
    a successful `Write` of 513 bytes, a fresh `OpenFile("/foo.txt", O_RDONLY, 0)`
    followed by a `Read` into 513 bytes returns `(0, io.EOF)` and delivers
    nothing: `grow` redirected the writing handle to a new buffer and left the
    buffer of the node empty. -/
theorem C1_reallocating_write_not_visible :
    ∃ (w1 : File) (sl : SliceHeap),
      NewFilesystem.2.OpenFile NewFilesystem.1 "/foo.txt" (Int.lor O_CREATE O_WRONLY) 511 =
        some (some (File.writeOnlyFile (File.mem ⟨"/foo.txt", 0, some 0⟩)), none, fooState 511) ∧
      File.Write (fooState 511).slices (File.writeOnlyFile (File.mem ⟨"/foo.txt", 0, some 0⟩))
        (List.replicate 513 7) = some (513, none, sl, w1) ∧
      NewFilesystem.2.OpenFile ⟨sl, (fooState 511).nodes⟩ "/foo.txt" O_RDONLY 0 =
        some (some (File.readOnlyFile (File.mem ⟨"/foo.txt", 0, some 0⟩)), none,
          ⟨sl, (fooState 511).nodes⟩) ∧
      File.Read sl (File.readOnlyFile (File.mem ⟨"/foo.txt", 0, some 0⟩)) (List.replicate 513 0) =
        some (0, some Error.EOF, List.replicate 513 0,
          File.readOnlyFile (File.mem ⟨"/foo.txt", 0, some 0⟩)) := by
  have hlen : (List.replicate 513 (7 : Byte)).length = 513 := List.length_replicate _ _
  have hw := Write_fresh_big "/foo.txt" (List.replicate 513 7) (by rw [hlen]; decide)
    (by rw [hlen]; decide)
  rw [hlen] at hw
  refine ⟨File.writeOnlyFile (File.mem ⟨"/foo.txt", ((0 + 513 : Nat) : Int), some 1⟩),
    [emptyData, (grownSlice emptyData 513).copyAt 0 (List.replicate 513 7)],
    OpenFile_create_foo, ?_, ?_, ?_⟩
  · show Option.map _ (Option.map _ (memoryFile.Write [emptyData] ⟨"/foo.txt", 0, some 0⟩
      (List.replicate 513 7))) = _
    rw [hw]
    rfl
  · rw [OpenFile_existing
      ⟨[emptyData, (grownSlice emptyData 513).copyAt 0 (List.replicate 513 7)], (fooState 511).nodes⟩
      NewFilesystem.2 "/foo.txt" O_RDONLY 0 (some 0) 1
      ⟨"foo.txt", "/foo.txt", 511, none, some 0⟩ rfl rfl rfl (by decide)]
    rfl
  · show Option.map _ (Option.map _ (memoryFile.Read _ ⟨"/foo.txt", 0, some 0⟩ _)) = _
    rw [Read_eof [emptyData, (grownSlice emptyData 513).copyAt 0 (List.replicate 513 7)]
      ⟨"/foo.txt", 0, some 0⟩ (List.replicate 513 0) emptyData rfl (by decide)]
    rfl

/-- C2 fails on the code for a write longer than the initial capacity: on a
    fresh filesystem, after `Create("/foo.txt")` and a successful `Write` of 513
    bytes on the returned handle, `Stat("/foo.txt")` succeeds with a descriptor
    that is not a directory and whose `Size()` is 0, not 513 (same defect as
    for C1: the reallocating `grow` leaves the buffer of the node untouched). -/
theorem C2_stat_size_after_reallocating_write :
    ∃ (w1 : File) (sl : SliceHeap) (fi : fileInfo),
      NewFilesystem.2.Create NewFilesystem.1 "/foo.txt" =
        some (some (File.mem ⟨"/foo.txt", 0, some 0⟩), none, fooState CreateDefaultMode) ∧
      File.Write (fooState CreateDefaultMode).slices (File.mem ⟨"/foo.txt", 0, some 0⟩)
        (List.replicate 513 7) = some (513, none, sl, w1) ∧
      NewFilesystem.2.Stat ⟨sl, (fooState CreateDefaultMode).nodes⟩ "/foo.txt" =
        some (some 1, none) ∧
      (fooState CreateDefaultMode).nodes[1]? = some fi ∧
      fi.IsDir = false ∧ fi.Size sl = some 0 := by
  have hlen : (List.replicate 513 (7 : Byte)).length = 513 := List.length_replicate _ _
  have hw := Write_fresh_big "/foo.txt" (List.replicate 513 7) (by rw [hlen]; decide)
    (by rw [hlen]; decide)
  rw [hlen] at hw
  refine ⟨File.mem ⟨"/foo.txt", ((0 + 513 : Nat) : Int), some 1⟩,
    [emptyData, (grownSlice emptyData 513).copyAt 0 (List.replicate 513 7)],
    ⟨"foo.txt", "/foo.txt", CreateDefaultMode, none, some 0⟩, Create_foo, ?_, rfl, rfl, rfl, rfl⟩
  show Option.map _ (memoryFile.Write [emptyData] ⟨"/foo.txt", 0, some 0⟩
    (List.replicate 513 7)) = _
  rw [hw]
  rfl

/-! ## `Mkdir` -/

/-- `Mkdir` when resolution fails. -/
theorem Mkdir_stat_error (h : Heap) (fs : MemoryFilesystem) (name : String) (perm : Nat)
    (p n : Option Nat) (e : Error) (hst : fs.stat h name = some (p, n, some e)) :
    fs.Mkdir h name perm = some (some { Op := "mkdir", Path := name, Err := e }, h) := by
  unfold MemoryFilesystem.Mkdir
  simp only [hst]

/-- `Mkdir` when the leaf position is occupied, by a directory or by a file. -/
theorem Mkdir_exist (h : Heap) (fs : MemoryFilesystem) (name : String) (perm : Nat)
    (p : Option Nat) (i : Nat) (hst : fs.stat h name = some (p, some i, none)) :
    fs.Mkdir h name perm = some (some { Op := "mkdir", Path := name, Err := Error.ErrExist }, h) := by
  unfold MemoryFilesystem.Mkdir
  simp only [hst]

/-- `Mkdir` when the leaf position is free: a fresh directory node is linked
    under the key `Base name` of the parent. -/
theorem Mkdir_fresh (h : Heap) (fs : MemoryFilesystem) (name : String) (perm : Nat)
    (p : Option Nat) (hst : fs.stat h name = some (p, none, none)) :
    fs.Mkdir h name perm =
      match setChild (h.nodes ++ [⟨Base name, name, perm, some [], none⟩]) p (Base name)
          h.nodes.length with
      | none => none
      | some nodes1 => some (none, { h with nodes := nodes1 }) := by
  unfold MemoryFilesystem.Mkdir
  simp only [hst]

/-- C8 fails on the code for a path with a trailing separator: on a fresh
    filesystem `Mkdir("/tmp")`, `Mkdir("/tmp/")` and `Mkdir("/tmp/")` again all
    return no error; the third call does not fail with `Exist`.  The leaf is
    looked up under the last split segment (the empty string) but stored under
    `path.Base(name)` ("tmp"). -/
theorem C8_mkdir_again_trailing_separator :
    (mkdirs NewFilesystem.2 511 NewFilesystem.1 ["/tmp", "/tmp/", "/tmp/"]).map Prod.fst =
      some [none, none, none] := by
  decide

/-- C9 fails on the code for a path with a trailing separator: on a fresh
    filesystem, after `Mkdir("/tmp")`, the call `Mkdir("/tmp/")` returns no
    error, and `Stat("/tmp/")` then fails with `NotExist` (the new directory was
    stored as "/tmp/tmp": same defect as for C8). -/
theorem C9_mkdir_then_stat_trailing_separator :
    (mkdirs NewFilesystem.2 511 NewFilesystem.1 ["/tmp", "/tmp/"]).map
        (fun r => (r.1, NewFilesystem.2.Stat r.2 "/tmp/", NewFilesystem.2.Stat r.2 "/tmp/tmp")) =
      some ([none, none],
        some (none, some { Op := "stat", Path := "/tmp/", Err := Error.ErrNotExist }),
        some (some 2, none)) := by
  rfl

/-- The fresh filesystem is well formed. -/
theorem NewFilesystem_wf : NewFilesystem.1.wf NewFilesystem.2 = true := by
  decide

/-- Witness for C10: after `Mkdir("/tmp")` on a fresh filesystem the state is
    well formed, and `Create("/tmp")` (CREATE and TRUNC set) fails with
    `IsDirectory` and leaves the state as it was. -/
theorem C10_openFile_failures_witness :
    NewFilesystem.2.Mkdir NewFilesystem.1 "/tmp" 511 = some (none, tmpState) ∧
    tmpState.wf NewFilesystem.2 = true ∧ isAbsPath "/tmp" = true ∧
    NewFilesystem.2.Create tmpState "/tmp" =
      some (none, some { Op := "open", Path := "/tmp", Err := Error.ErrDirectory }, tmpState) :=
  ⟨by decide, by decide, by decide,
    ((C10_openFile_failures tmpState NewFilesystem.2 "/tmp" O_RDONLY 0 (by decide) (by decide)).2 1
      ⟨"tmp", "/tmp", 511, some [], none⟩ (by decide) (by decide) (by decide)).2.1⟩

/-! ## A write within the initial capacity is seen through the node -/

/-- A first `Write` of at most 512 bytes on the handle of a freshly created
    file stays in cell 0, the buffer of the node. -/
theorem Write_fresh_small (name : String) (b : List Byte) (hlen : b.length ≤ 512) :
    ∃ s1 : Slice, memoryFile.Write [emptyData] ⟨name, 0, some 0⟩ b =
        some ((b.length : Int), none, [s1], ⟨name, ((0 + b.length : Nat) : Int), some 0⟩) ∧
      s1.content = b ∧ s1.len = b.length ∧ s1.len ≤ s1.cap := by
  have hcap : emptyData.cap = 512 := by
    show (List.replicate InitialDataSize (0 : Byte)).length = 512
    rw [List.length_replicate]
    rfl
  have hl : emptyData.len = 0 := rfl
  have hc : emptyData.len ≤ emptyData.cap := by rw [hl]; exact Nat.zero_le _
  by_cases hb : b.length = 0
  · have hfit : 0 + b.length ≤ emptyData.len := by rw [hl]; omega
    refine ⟨emptyData.copyAt 0 b, ?_, ?_, ?_, ?_⟩
    · exact Write_fits [emptyData] ⟨name, 0, some 0⟩ b 0 0 emptyData rfl rfl rfl hfit
        (by rw [hl]; decide)
    · rw [Slice.copyAt_content_end emptyData 0 b (by rw [hl]; omega) hc]
      rfl
    · rw [Slice.copyAt_len, hl, hb]
    · rw [Slice.copyAt_len, Slice.copyAt_cap emptyData 0 b hc hfit]
      exact hc
  · have hroom : emptyData.len + b.length ≤ emptyData.cap := by rw [hl, hcap]; omega
    have hc2 : ({ emptyData with len := emptyData.len + b.length } : Slice).len ≤
        ({ emptyData with len := emptyData.len + b.length } : Slice).cap := hroom
    have hfit : 0 + b.length ≤ ({ emptyData with len := emptyData.len + b.length } : Slice).len := by
      show 0 + b.length ≤ emptyData.len + b.length
      rw [hl]
    refine ⟨({ emptyData with len := emptyData.len + b.length } : Slice).copyAt 0 b, ?_, ?_, ?_, ?_⟩
    · exact Write_grow_inplace [emptyData] ⟨name, 0, some 0⟩ b 0 0 emptyData rfl rfl rfl
        (Nat.zero_le _) (by rw [hl]; omega) hroom (by rw [hcap]; decide)
    · rw [Slice.copyAt_content_end _ 0 b (by show 0 + b.length = emptyData.len + b.length; rw [hl])
        hc2]
      rfl
    · rw [Slice.copyAt_len]
      show emptyData.len + b.length = b.length
      rw [hl, Nat.zero_add]
    · rw [Slice.copyAt_len, Slice.copyAt_cap _ 0 b hc2 hfit]
      exact hc2

/-- The behaviour C1 and C2 describe, for writes that fit the initial
    capacity: on a fresh filesystem, after creating "/foo.txt" write-only and
    writing at most 512 bytes `b`, a fresh read-only open reads back exactly
    `b`, and `Stat` reports the size `len(b)`. -/
theorem small_write_visible (b : List Byte) (hlen : b.length ≤ 512) :
    ∃ (w1 : File) (s1 : Slice) (e : Option Error) (r1 : File),
      NewFilesystem.2.OpenFile NewFilesystem.1 "/foo.txt" (Int.lor O_CREATE O_WRONLY) 511 =
        some (some (File.writeOnlyFile (File.mem ⟨"/foo.txt", 0, some 0⟩)), none, fooState 511) ∧
      File.Write (fooState 511).slices (File.writeOnlyFile (File.mem ⟨"/foo.txt", 0, some 0⟩)) b =
        some ((b.length : Int), none, [s1], w1) ∧
      NewFilesystem.2.OpenFile ⟨[s1], (fooState 511).nodes⟩ "/foo.txt" O_RDONLY 0 =
        some (some (File.readOnlyFile (File.mem ⟨"/foo.txt", 0, some 0⟩)), none,
          ⟨[s1], (fooState 511).nodes⟩) ∧
      File.Read [s1] (File.readOnlyFile (File.mem ⟨"/foo.txt", 0, some 0⟩))
        (List.replicate b.length 0) = some ((b.length : Int), e, b, r1) ∧
      NewFilesystem.2.Stat ⟨[s1], (fooState 511).nodes⟩ "/foo.txt" = some (some 1, none) ∧
      fileInfo.Size [s1] ⟨"foo.txt", "/foo.txt", 511, none, some 0⟩ = some (b.length : Int) := by
  obtain ⟨s1, hw, hcont, hl1, hc1⟩ := Write_fresh_small "/foo.txt" b hlen
  have hopen : NewFilesystem.2.OpenFile ⟨[s1], (fooState 511).nodes⟩ "/foo.txt" O_RDONLY 0 =
      some (some (File.readOnlyFile (File.mem ⟨"/foo.txt", 0, some 0⟩)), none,
        ⟨[s1], (fooState 511).nodes⟩) := by
    rw [OpenFile_existing ⟨[s1], (fooState 511).nodes⟩ NewFilesystem.2 "/foo.txt" O_RDONLY 0
      (some 0) 1 ⟨"foo.txt", "/foo.txt", 511, none, some 0⟩ rfl rfl rfl (by decide)]
    rfl
  have hwrite : File.Write (fooState 511).slices
      (File.writeOnlyFile (File.mem ⟨"/foo.txt", 0, some 0⟩)) b =
      some ((b.length : Int), none, [s1],
        File.writeOnlyFile (File.mem ⟨"/foo.txt", ((0 + b.length : Nat) : Int), some 0⟩)) := by
    show Option.map _ (Option.map _ (memoryFile.Write [emptyData] ⟨"/foo.txt", 0, some 0⟩ b)) = _
    rw [hw]
    rfl
  have hsize : fileInfo.Size [s1] ⟨"foo.txt", "/foo.txt", 511, none, some 0⟩ =
      some (b.length : Int) := by
    show some (s1.len : Int) = _
    rw [hl1]
  by_cases hz : b.length = 0
  · have hb0 : b = [] := List.eq_nil_of_length_eq_zero hz
    have hr := Read_eof [s1] ⟨"/foo.txt", 0, some 0⟩ (List.replicate b.length 0) s1 rfl
      (by simp only; omega)
    refine ⟨_, s1, some Error.EOF, File.readOnlyFile (File.mem ⟨"/foo.txt", 0, some 0⟩),
      OpenFile_create_foo, hwrite, hopen, ?_, rfl, hsize⟩
    show Option.map _ (Option.map _ (memoryFile.Read [s1] ⟨"/foo.txt", 0, some 0⟩ _)) = _
    rw [hr, hb0]
    rfl
  · have hr := Read_data [s1] ⟨"/foo.txt", 0, some 0⟩ (List.replicate b.length 0) 0 s1 rfl rfl
      (by omega) hc1 (by omega)
    have hk : min (List.replicate b.length (0 : Byte)).length (s1.len - 0) = b.length := by
      rw [List.length_replicate, hl1]
      simp
    have hcl := Slice.content_length s1 hc1
    rw [hk, List.drop_zero, List.take_of_length_le (by rw [hcl, hl1]), hcont,
      List.drop_of_length_le (by rw [List.length_replicate]), List.append_nil] at hr
    refine ⟨_, s1, none,
      File.readOnlyFile (File.mem ⟨"/foo.txt", ((0 + b.length : Nat) : Int), some 0⟩),
      OpenFile_create_foo, hwrite, hopen, ?_, rfl, hsize⟩
    show Option.map _ (Option.map _ (memoryFile.Read [s1] ⟨"/foo.txt", 0, some 0⟩ _)) = _
    rw [hr]
    rfl

/-! ## Linking a new node does not disturb successful resolutions -/

theorem mapSet_lookup_self (l : List (String × Nat)) (k : String) (v : Nat) :
    (mapSet l k v).lookup k = some v := by
  induction l with
  | nil => simp [mapSet, List.lookup]
  | cons e rest ih =>
    obtain ⟨k1, v1⟩ := e
    unfold mapSet
    by_cases hk : k1 = k
    · simp [hk, List.lookup]
    · have hk2 : (k == k1) = false := by
        simp only [beq_eq_false_iff_ne, ne_eq]
        exact fun hh => hk hh.symm
      simp only [hk, if_false, List.lookup, hk2, ih]

theorem mapSet_lookup_ne (l : List (String × Nat)) (k k1 : String) (v : Nat) (hne : k1 ≠ k) :
    (mapSet l k v).lookup k1 = l.lookup k1 := by
  induction l with
  | nil =>
    have hk2 : (k1 == k) = false := by simpa using hne
    simp [mapSet, List.lookup, hk2]
  | cons e rest ih =>
    obtain ⟨k2, v2⟩ := e
    unfold mapSet
    by_cases hk : k2 = k
    · subst hk
      have hk2 : (k1 == k2) = false := by simpa using hne
      simp [List.lookup, hk2]
    · simp only [hk, if_false, List.lookup, ih]

/-- The parts of a successful resolution. -/
theorem stat_parts (h : Heap) (fs : MemoryFilesystem) (name : String) (p : Nat) (n : Option Nat)
    (hst : fs.stat h name = some (some p, n, none)) :
    ∃ pn seg, walk h.nodes fs.root (((Split name).drop 1).take ((Split name).length - 2)) =
        some (some p) ∧
      h.nodes[p]? = some pn ∧ (Split name).getLast? = some seg ∧
      n = mapGet pn.children seg ∧ ¬ ((Split name).length < 2) := by
  unfold MemoryFilesystem.stat at hst
  by_cases hlen : (Split name).length < 2
  · rw [if_pos hlen] at hst
    cases hst
  · rw [if_neg hlen] at hst
    cases hw : walk h.nodes fs.root (((Split name).drop 1).take ((Split name).length - 2)) with
    | none =>
      rw [hw] at hst
      cases hst
    | some r =>
      cases r with
      | none =>
        rw [hw] at hst
        cases hst
      | some q =>
        rw [hw] at hst
        dsimp only at hst
        cases hq : h.nodes[q]? with
        | none =>
          rw [hq] at hst
          cases hst
        | some pn =>
          cases hl : (Split name).getLast? with
          | none =>
            rw [hq, hl] at hst
            cases hst
          | some seg =>
            rw [hq, hl] at hst
            simp only [Option.some.injEq, Prod.mk.injEq, and_true] at hst
            obtain ⟨hp, hn⟩ := hst
            subst hp
            exact ⟨pn, seg, rfl, hq, rfl, hn.symm, hlen⟩

/-- Linking a new node `k` (the next free cell) under the key `base` of the
    directory `p`, where `base` was absent or named a regular file: every walk
    that reached a parent before reaches the same parent afterwards. -/
theorem walk_link (nodes : List fileInfo) (p : Nat) (pn nd : fileInfo) (l : List (String × Nat))
    (base : String) (hp : nodes[p]? = some pn) (hl : pn.children = some l)
    (hfree : ∀ e en, l.lookup base = some e → nodes[e]? = some en → en.IsDir = false)
    (segs : List String) :
    ∀ start q, walk nodes start segs = some (some q) →
      walk ((nodes ++ [nd]).set p { pn with children := some (mapSet l base nodes.length) })
        start segs = some (some q) := by
  have hplt := get?_lt _ _ _ hp
  have hnewp : ((nodes ++ [nd]).set p
      { pn with children := some (mapSet l base nodes.length) })[p]? =
      some { pn with children := some (mapSet l base nodes.length) } := by
    exact List.getElem?_set_self (by rw [List.length_append]; omega)
  have hother : ∀ i x, i ≠ p → nodes[i]? = some x →
      ((nodes ++ [nd]).set p { pn with children := some (mapSet l base nodes.length) })[i]? =
        some x := by
    intro i x hip hi
    rw [get?_set_ne _ _ _ _ (fun hh => hip hh.symm), get?_append_lt _ _ _ (get?_lt _ _ _ hi), hi]
  induction segs with
  | nil =>
    intro start q hw
    exact hw
  | cons seg rest ih =>
    intro start q hw
    unfold walk at hw ⊢
    cases hs : nodes[start]? with
    | none =>
      rw [hs] at hw
      cases hw
    | some sn =>
      rw [hs] at hw
      dsimp only at hw
      cases hg : mapGet sn.children seg with
      | none =>
        rw [hg] at hw
        cases hw
      | some entry =>
        rw [hg] at hw
        dsimp only at hw
        cases he : nodes[entry]? with
        | none =>
          rw [he] at hw
          cases hw
        | some en =>
          rw [he] at hw
          dsimp only at hw
          by_cases hdir : en.IsDir = true
          · rw [if_pos hdir] at hw
            have hen : ∃ en1, ((nodes ++ [nd]).set p
                { pn with children := some (mapSet l base nodes.length) })[entry]? = some en1 ∧
                en1.IsDir = true := by
              by_cases hep : entry = p
              · subst hep
                exact ⟨_, hnewp, rfl⟩
              · exact ⟨en, hother entry en hep he, hdir⟩
            obtain ⟨en1, hen1, hen1d⟩ := hen
            by_cases hsp : start = p
            · subst hsp
              have hsn : sn = pn := by
                rw [hp] at hs
                cases hs
                rfl
              subst hsn
              have hg2 : l.lookup seg = some entry := by
                simpa [mapGet, hl] using hg
              have hseg : seg ≠ base := by
                intro hsb
                subst hsb
                rw [hfree entry en hg2 he] at hdir
                cases hdir
              rw [hnewp]
              dsimp only [mapGet]
              rw [mapSet_lookup_ne l base seg nodes.length hseg, hg2]
              dsimp only
              rw [hen1]
              dsimp only
              rw [if_pos hen1d]
              exact ih entry q hw
            · rw [hother start sn hsp hs]
              dsimp only
              rw [hg]
              dsimp only
              rw [hen1]
              dsimp only
              rw [if_pos hen1d]
              exact ih entry q hw
          · rw [if_neg hdir] at hw
            cases hw

/-- For a path whose last segment is `path.Base` of the path (no trailing
    separator, not "/"), a successful `Mkdir` makes the path resolve to the
    new directory node: `Stat` finds it, it is a directory with the given
    mode, an empty map and size 0, no buffer is touched, and `Mkdir` of the
    same path again fails with `Exist` and changes nothing. -/
theorem Mkdir_then_stat (h h1 : Heap) (fs : MemoryFilesystem) (name : String) (perm : Nat)
    (hnorm : (Split name).getLast? = some (Base name))
    (hmk : fs.Mkdir h name perm = some (none, h1)) :
    fs.Stat h1 name = some (some h.nodes.length, none) ∧
    h1.nodes[h.nodes.length]? = some ⟨Base name, name, perm, some [], none⟩ ∧
    fileInfo.IsDir ⟨Base name, name, perm, some [], none⟩ = true ∧
    fileInfo.Size h1.slices ⟨Base name, name, perm, some [], none⟩ = some 0 ∧
    h1.slices = h.slices ∧
    fs.Mkdir h1 name perm =
      some (some { Op := "mkdir", Path := name, Err := Error.ErrExist }, h1) := by
  cases hst : fs.stat h name with
  | none =>
    unfold MemoryFilesystem.Mkdir at hmk
    rw [hst] at hmk
    cases hmk
  | some r =>
    obtain ⟨parent, node, err⟩ := r
    cases err with
    | some e =>
      rw [Mkdir_stat_error h fs name perm parent node e hst] at hmk
      cases hmk
    | none =>
      cases node with
      | some i =>
        rw [Mkdir_exist h fs name perm parent i hst] at hmk
        cases hmk
      | none =>
        rw [Mkdir_fresh h fs name perm parent hst] at hmk
        cases parent with
        | none =>
          simp [setChild] at hmk
        | some p =>
          obtain ⟨pn, seg, hwalk, hp, hlast, hnode, hlen⟩ := stat_parts h fs name p none hst
          rw [hnorm] at hlast
          cases hlast
          have hplt := get?_lt _ _ _ hp
          have hp2 : (h.nodes ++ [(⟨Base name, name, perm, some [], none⟩ : fileInfo)])[p]? =
              some pn := by
            rw [get?_append_lt _ _ _ hplt, hp]
          cases hl : pn.children with
          | none =>
            simp [setChild, hp2, hl] at hmk
          | some l =>
            have hfree : l.lookup (Base name) = none := by
              simpa [mapGet, hl] using hnode.symm
            obtain ⟨N, hN⟩ : ∃ N, N =
                (h.nodes ++ [(⟨Base name, name, perm, some [], none⟩ : fileInfo)]).set p
                  { pn with children := some (mapSet l (Base name) h.nodes.length) } := ⟨_, rfl⟩
            simp only [setChild, hp2, hl, Option.some.injEq, Prod.mk.injEq, true_and] at hmk
            rw [← hN] at hmk
            subst hmk
            have hnewp : N[p]? =
                some { pn with children := some (mapSet l (Base name) h.nodes.length) } := by
              rw [hN]
              exact List.getElem?_set_self (by rw [List.length_append]; omega)
            have hnewk : N[h.nodes.length]? = some ⟨Base name, name, perm, some [], none⟩ := by
              rw [hN, get?_set_ne _ _ _ _ (by omega), get?_append_length]
            have hwalk1 : walk N fs.root (((Split name).drop 1).take ((Split name).length - 2)) =
                some (some p) := by
              rw [hN]
              exact walk_link h.nodes p pn _ l (Base name) hp hl
                (fun e en he _ => by rw [hfree] at he; cases he) _ fs.root p hwalk
            have hst1 : fs.stat ⟨h.slices, N⟩ name = some (some p, some h.nodes.length, none) := by
              unfold MemoryFilesystem.stat
              rw [if_neg hlen]
              dsimp only
              rw [hwalk1]
              dsimp only
              rw [hnewp, hnorm]
              dsimp only [mapGet]
              rw [mapSet_lookup_self]
            refine ⟨?_, hnewk, rfl, rfl, rfl, Mkdir_exist _ fs name perm _ _ hst1⟩
            unfold MemoryFilesystem.Stat
            rw [hst1]

/-! ## Well-formedness is kept by the operations -/

theorem wf_intro (h : Heap) (fs : MemoryFilesystem)
    (hroot : ∃ r, h.nodes[fs.root]? = some r ∧ r.IsDir = true)
    (hnodes : ∀ x ∈ h.nodes, wfNode h x = true)
    (hslices : ∀ s ∈ h.slices, s.len ≤ s.cap) : h.wf fs = true := by
  obtain ⟨r, hr, hrd⟩ := hroot
  unfold Heap.wf
  rw [hr]
  simp only [Bool.and_eq_true, List.all_eq_true, decide_eq_true_eq]
  exact ⟨⟨hrd, hnodes⟩, hslices⟩

theorem wf_slices (h : Heap) (fs : MemoryFilesystem) (hwf : h.wf fs = true) :
    ∀ s ∈ h.slices, s.len ≤ s.cap := by
  unfold Heap.wf at hwf
  simp only [Bool.and_eq_true, List.all_eq_true, decide_eq_true_eq] at hwf
  exact hwf.2

theorem wf_nodes (h : Heap) (fs : MemoryFilesystem) (hwf : h.wf fs = true) :
    ∀ x ∈ h.nodes, wfNode h x = true := by
  unfold Heap.wf at hwf
  simp only [Bool.and_eq_true, List.all_eq_true] at hwf
  exact hwf.1.2

/-- A well-formed node stays well formed when the heaps grow. -/
theorem wfNode_mono (h h1 : Heap) (n : fileInfo) (hn : h.nodes.length ≤ h1.nodes.length)
    (hs : h.slices.length ≤ h1.slices.length) (hw : wfNode h n = true) : wfNode h1 n = true := by
  unfold wfNode at hw ⊢
  cases hc : n.children with
  | some l =>
    rw [hc] at hw
    simp only [List.all_eq_true, decide_eq_true_eq] at hw ⊢
    exact fun e he => Nat.lt_of_lt_of_le (hw e he) hn
  | none =>
    rw [hc] at hw
    cases hd : n.data with
    | none =>
      rw [hd] at hw
      cases hw
    | some p =>
      rw [hd] at hw
      simp only [decide_eq_true_eq] at hw ⊢
      exact Nat.lt_of_lt_of_le hw hs

theorem mem_mapSet (l : List (String × Nat)) (k : String) (v : Nat) (e : String × Nat)
    (he : e ∈ mapSet l k v) : e ∈ l ∨ e = (k, v) := by
  induction l with
  | nil =>
    simp only [mapSet, List.mem_singleton] at he
    exact Or.inr he
  | cons x rest ih =>
    obtain ⟨k1, v1⟩ := x
    unfold mapSet at he
    by_cases hk : k1 = k
    · rw [if_pos hk] at he
      rcases List.mem_cons.mp he with h1 | h1
      · exact Or.inr h1
      · exact Or.inl (List.mem_cons_of_mem _ h1)
    · rw [if_neg hk] at he
      rcases List.mem_cons.mp he with h1 | h1
      · exact Or.inl (h1 ▸ List.mem_cons_self _ _)
      · rcases ih h1 with h2 | h2
        · exact Or.inl (List.mem_cons_of_mem _ h2)
        · exact Or.inr h2

/-- Linking a well-formed new node (the next free cell) into a directory of a
    well-formed state, with the buffers kept or extended, gives a well-formed
    state. -/
theorem link_wf (h : Heap) (fs : MemoryFilesystem) (p : Nat) (pn nd : fileInfo)
    (l : List (String × Nat)) (base : String) (sl : SliceHeap)
    (hwf : h.wf fs = true) (hp : h.nodes[p]? = some pn) (hl : pn.children = some l)
    (hsl : h.slices.length ≤ sl.length) (hslok : ∀ s ∈ sl, s.len ≤ s.cap)
    (hnd : wfNode ⟨sl, (h.nodes ++ [nd]).set p
      { pn with children := some (mapSet l base h.nodes.length) }⟩ nd = true) :
    Heap.wf ⟨sl, (h.nodes ++ [nd]).set p
      { pn with children := some (mapSet l base h.nodes.length) }⟩ fs = true := by
  have hplt := get?_lt _ _ _ hp
  have hlen : ((h.nodes ++ [nd]).set p
      { pn with children := some (mapSet l base h.nodes.length) }).length = h.nodes.length + 1 := by
    simp
  have hnewp : ((h.nodes ++ [nd]).set p
      { pn with children := some (mapSet l base h.nodes.length) })[p]? =
      some { pn with children := some (mapSet l base h.nodes.length) } :=
    List.getElem?_set_self (by rw [List.length_append]; omega)
  obtain ⟨r, hr, hrd⟩ := wf_root h fs hwf
  refine wf_intro _ fs ?_ ?_ hslok
  · by_cases hrp : fs.root = p
    · rw [hrp]
      exact ⟨_, hnewp, rfl⟩
    · refine ⟨r, ?_, hrd⟩
      show ((h.nodes ++ [nd]).set p _)[fs.root]? = some r
      rw [get?_set_ne _ _ _ _ (fun hh => hrp hh.symm), get?_append_lt _ _ _ (get?_lt _ _ _ hr), hr]
  · intro x hx
    show wfNode ⟨sl, (h.nodes ++ [nd]).set p _⟩ x = true
    rcases List.mem_or_eq_of_mem_set hx with hx1 | hx1
    · rcases List.mem_append.mp hx1 with hx2 | hx2
      · exact wfNode_mono h _ x (by simp) hsl (wf_nodes h fs hwf x hx2)
      · rw [List.mem_singleton] at hx2
        rw [hx2]
        exact hnd
    · rw [hx1]
      have hpn := wf_node h fs hwf p pn hp
      unfold wfNode at hpn ⊢
      rw [hl] at hpn
      simp only [List.all_eq_true, decide_eq_true_eq] at hpn ⊢
      intro e he
      rw [hlen]
      rcases mem_mapSet l base h.nodes.length e he with h1 | h1
      · exact Nat.lt_succ_of_lt (hpn e h1)
      · rw [h1]
        exact Nat.lt_succ_self _

/-- `Mkdir` keeps the state well formed. -/
theorem Mkdir_wf (h h1 : Heap) (fs : MemoryFilesystem) (name : String) (perm : Nat)
    (err : Option PathError) (hwf : h.wf fs = true)
    (hmk : fs.Mkdir h name perm = some (err, h1)) : h1.wf fs = true := by
  cases hst : fs.stat h name with
  | none =>
    unfold MemoryFilesystem.Mkdir at hmk
    rw [hst] at hmk
    cases hmk
  | some r =>
    obtain ⟨parent, node, e⟩ := r
    cases e with
    | some e =>
      rw [Mkdir_stat_error h fs name perm parent node e hst] at hmk
      cases hmk
      exact hwf
    | none =>
      cases node with
      | some i =>
        rw [Mkdir_exist h fs name perm parent i hst] at hmk
        cases hmk
        exact hwf
      | none =>
        rw [Mkdir_fresh h fs name perm parent hst] at hmk
        cases parent with
        | none => simp [setChild] at hmk
        | some p =>
          cases hp2 : (h.nodes ++ [(⟨Base name, name, perm, some [], none⟩ : fileInfo)])[p]? with
          | none => simp [setChild, hp2] at hmk
          | some pn =>
            cases hl : pn.children with
            | none => simp [setChild, hp2, hl] at hmk
            | some l =>
              simp only [setChild, hp2, hl, Option.some.injEq, Prod.mk.injEq] at hmk
              obtain ⟨_, hh⟩ := hmk
              subst hh
              obtain ⟨pn0, seg, _, hp, _, _, _⟩ := stat_parts h fs name p none hst
              have hpn : pn0 = pn := by
                rw [get?_append_lt _ _ _ (get?_lt _ _ _ hp), hp] at hp2
                cases hp2
                rfl
              subst hpn
              exact link_wf h fs p pn0 _ l (Base name) h.slices hwf hp hl (Nat.le_refl _)
                (wf_slices h fs hwf) (by simp [wfNode])

/-- A resolution without error names a parent. -/
theorem stat_ok_parent (h : Heap) (fs : MemoryFilesystem) (name : String)
    (parent node : Option Nat) (hst : fs.stat h name = some (parent, node, none)) :
    ∃ p, parent = some p := by
  unfold MemoryFilesystem.stat at hst
  dsimp only at hst
  split at hst
  · cases hst
  · split at hst
    · cases hst
    · cases hst
    · split at hst
      · simp only [Option.some.injEq, Prod.mk.injEq, and_true] at hst
        exact ⟨_, hst.1.symm⟩
      · cases hst

/-- `OpenFile` keeps the state well formed. -/
theorem OpenFile_wf (h h1 : Heap) (fs : MemoryFilesystem) (name : String) (flag : Int)
    (perm : Nat) (file : Option File) (err : Option PathError) (hwf : h.wf fs = true)
    (hop : fs.OpenFile h name flag perm = some (file, err, h1)) : h1.wf fs = true := by
  cases hst : fs.stat h name with
  | none =>
    unfold MemoryFilesystem.OpenFile at hop
    rw [hst] at hop
    cases hop
  | some r =>
    obtain ⟨parent, node, e⟩ := r
    cases e with
    | some e =>
      rw [OpenFile_stat_error h fs name flag perm parent node e hst] at hop
      cases hop
      exact hwf
    | none =>
      obtain ⟨p, hpar⟩ := stat_ok_parent h fs name parent node hst
      subst hpar
      obtain ⟨pn, seg, _, hp, _, hnode, _⟩ := stat_parts h fs name p node hst
      -- the leaf, when present, is an allocated node
      have hleaf : ∀ i, node = some i → ∃ fi, h.nodes[i]? = some fi := by
        intro i hi
        rw [hi] at hnode
        exact wf_child h fs hwf p pn hp seg i hnode.symm
      -- the creating path
      have hcreate : (∀ i, node = some i → ∃ fi, h.nodes[i]? = some fi ∧ fi.IsDir = false) →
          hasFlag flag O_CREATE = true → (node = none ∨ hasFlag flag O_TRUNC = true) →
          h1.wf fs = true := by
        intro hfile hcr htr
        cases hl : pn.children with
        | none =>
          unfold MemoryFilesystem.OpenFile at hop
          have hp2 : (h.nodes ++ [(⟨Base name, name, perm, none, some h.slices.length⟩ :
              fileInfo)])[p]? = some pn := by
            rw [get?_append_lt _ _ _ (get?_lt _ _ _ hp), hp]
          cases node with
          | none => simp [hst, hcr, setChild, hp2, hl] at hop
          | some i =>
            obtain ⟨fi, hfi, hfd⟩ := hfile i rfl
            have ht : hasFlag flag O_TRUNC = true := by
              rcases htr with hn | ht
              · cases hn
              · exact ht
            simp [hst, hcr, setChild, hp2, hl, hfi, hfd, ht] at hop
        | some l =>
          have hpd : pn.IsDir = true := by
            unfold fileInfo.IsDir
            rw [hl]
            rfl
          obtain ⟨f1, nodes1, ho, hset, _⟩ := OpenFile_create h fs name flag perm p pn node hst hp
            hpd hfile hcr htr
          rw [ho] at hop
          simp only [Option.some.injEq, Prod.mk.injEq] at hop
          obtain ⟨_, _, hh⟩ := hop
          subst hh
          have hp2 : (h.nodes ++ [(⟨Base name, name, perm, none, some h.slices.length⟩ :
              fileInfo)])[p]? = some pn := by
            rw [get?_append_lt _ _ _ (get?_lt _ _ _ hp), hp]
          simp only [setChild, hp2, hl, Option.some.injEq] at hset
          subst hset
          refine link_wf h fs p pn _ l (Base name) (h.slices ++ [emptyData]) hwf hp hl (by simp)
            ?_ (by simp [wfNode])
          intro s hs
          rcases List.mem_append.mp hs with h2 | h2
          · exact wf_slices h fs hwf s h2
          · rw [List.mem_singleton] at h2
            rw [h2]
            exact Nat.zero_le _
      cases node with
      | none =>
        by_cases hcr : hasFlag flag O_CREATE = true
        · exact hcreate (fun i hi => by cases hi) hcr (Or.inl rfl)
        · have hcr2 : hasFlag flag O_CREATE = false := by simpa using hcr
          rw [OpenFile_absent h fs name flag perm _ hst hcr2] at hop
          cases hop
          exact hwf
      | some i =>
        obtain ⟨fi, hfi⟩ := hleaf i rfl
        by_cases hdir : fi.IsDir = true
        · rw [OpenFile_directory h fs name flag perm _ i fi hst hfi hdir] at hop
          cases hop
          exact hwf
        · have hdir2 : fi.IsDir = false := by simpa using hdir
          by_cases hcr : hasFlag flag O_CREATE = true
          · by_cases htr : hasFlag flag O_TRUNC = true
            · exact hcreate (fun j hj => by cases hj; exact ⟨fi, hfi, hdir2⟩) hcr (Or.inr htr)
            · have htr2 : hasFlag flag O_TRUNC = false := by simpa using htr
              rw [OpenFile_exist h fs name flag perm _ i fi hst hfi hdir2 hcr htr2] at hop
              cases hop
              exact hwf
          · have hcr2 : hasFlag flag O_CREATE = false := by simpa using hcr
            rw [OpenFile_existing h fs name flag perm _ i fi hst hfi hdir2 hcr2] at hop
            cases hof : fi.openFile h.slices flag with
            | none =>
              rw [hof] at hop
              cases hop
            | some f1 =>
              rw [hof] at hop
              cases hop
              exact hwf

theorem Slice.copyAt_cap_le (s : Slice) (off : Nat) (p : List Byte) (hc : s.len ≤ s.cap)
    (hoff : off ≤ s.len) : (s.copyAt off p).cap = s.cap := by
  have hc2 : s.len ≤ s.arr.length := hc
  show (s.arr.take off ++ (copy (s.content.drop off) p).2 ++ s.arr.drop s.len).length = s.arr.length
  rw [List.length_append, List.length_append, copy_snd_length, List.length_drop,
    Slice.content_length s hc, List.length_take, List.length_drop]
  omega

/-- The effect of `grow` on the store, whenever it returns: all buffers keep
    `len ≤ cap`, the store does not shrink, and the handle points to an
    allocated buffer. -/
theorem grow_slices (h h1 : SliceHeap) (f f1 : memoryFile) (n : Int) (e : Option Error)
    (hok : ∀ s ∈ h, s.len ≤ s.cap)
    (hg : f.grow h n = some (e, h1, f1)) :
    (∀ s ∈ h1, s.len ≤ s.cap) ∧ h.length ≤ h1.length ∧ f1.offset = f.offset ∧
      ∃ s1, deref h1 f1.data = some s1 := by
  unfold memoryFile.grow at hg
  cases hd : deref h f.data with
  | none =>
    rw [hd] at hg
    cases hg
  | some s =>
    rw [hd] at hg
    dsimp only at hg
    have hsm : s ∈ h := by
      unfold deref at hd
      cases hp : f.data with
      | none =>
        rw [hp] at hd
        cases hd
      | some ptr =>
        rw [hp] at hd
        exact List.getElem?_mem hd
    split at hg
    · -- reallocation
      cases hm : makeSlice (wrapInt64 (wrapInt64 (2 * (s.cap : Int)) + n)) with
      | error err =>
        rw [hm] at hg
        cases hg
        exact ⟨hok, Nat.le_refl _, rfl, s, hd⟩
      | ok data =>
        rw [hm] at hg
        dsimp only at hg
        split at hg
        · cases hg
        · rename_i data2 hr
          cases hg
          unfold Slice.reslice at hr
          split at hr
          · rename_i hk
            cases hr
            refine ⟨?_, by simp, rfl, _, get?_append_length _ _⟩
            intro x hx
            rcases List.mem_append.mp hx with h2 | h2
            · exact hok x h2
            · rw [List.mem_singleton] at h2
              rw [h2]
              have h1 : wrapInt64 ((s.len : Int) + n) ≤
                  ((((copy data.content s.content).2 ++ data.arr.drop data.len).length : Nat) :
                    Int) := hk.2
              have h0 := hk.1
              show (wrapInt64 ((s.len : Int) + n)).toNat ≤
                ((copy data.content s.content).2 ++ data.arr.drop data.len).length
              omega
          · cases hr
    · -- growth in place
      split at hg
      · rename_i s1 ptr hr hp
        cases hg
        unfold Slice.reslice at hr
        split at hr
        · rename_i hk
          cases hr
          have hlt : ptr < h.length := by
            rw [hp] at hd
            exact get?_lt _ _ _ hd
          refine ⟨?_, by simp, rfl, { s with len := (wrapInt64 ((s.len : Int) + n)).toNat }, ?_⟩
          · intro x hx
            rcases List.mem_or_eq_of_mem_set hx with h2 | h2
            · exact hok x h2
            · rw [h2]
              show (wrapInt64 ((s.len : Int) + n)).toNat ≤ s.cap
              have := hk.2
              have h0 := hk.1
              omega
          · rw [hp]
            exact List.getElem?_set_self hlt
        · cases hr
      · cases hg

/-- The effect of `Write` on the store, whenever it returns: all buffers keep
    `len ≤ cap` and the store does not shrink. -/
theorem Write_slices (h h1 : SliceHeap) (f f1 : memoryFile) (p : List Byte) (n : Int)
    (e : Option Error) (hok : ∀ s ∈ h, s.len ≤ s.cap)
    (hw : f.Write h p = some (n, e, h1, f1)) :
    (∀ s ∈ h1, s.len ≤ s.cap) ∧ h.length ≤ h1.length := by
  unfold memoryFile.Write at hw
  cases hsz : f.size h with
  | none =>
    rw [hsz] at hw
    cases hw
  | some sz =>
    rw [hsz] at hw
    dsimp only at hw
    -- the store after the optional `grow`
    have key : ∀ (e0 : Option Error) (h0 : SliceHeap) (f0 : memoryFile),
        (∀ s ∈ h0, s.len ≤ s.cap) → h.length ≤ h0.length →
        (match (some (e0, h0, f0) : Option (Option Error × SliceHeap × memoryFile)) with
          | none => none
          | some (some e, h1, f1) => some (0, some e, h1, f1)
          | some (none, h1, f1) =>
            match deref h1 f1.data, f1.data with
            | some s, some ptr =>
              if 0 ≤ f1.offset ∧ f1.offset ≤ (s.len : Int) then
                some ((p.length : Int), none, h1.set ptr (s.copyAt f1.offset.toNat p),
                  { f1 with offset := wrapInt64 (f1.offset + (p.length : Int)) })
              else none
            | _, _ => none) = some (n, e, h1, f1) →
        (∀ s ∈ h1, s.len ≤ s.cap) ∧ h.length ≤ h1.length := by
      intro e0 h0 f0 hok0 hlen0 hres
      cases e0 with
      | some err =>
        cases hres
        exact ⟨hok0, hlen0⟩
      | none =>
        dsimp only at hres
        split at hres
        · rename_i s ptr hd hp
          split at hres
          · rename_i hb
            cases hres
            have hsm : s ∈ h0 := by
              rw [hp] at hd
              exact List.getElem?_mem hd
            refine ⟨?_, by simpa using hlen0⟩
            intro x hx
            rcases List.mem_or_eq_of_mem_set hx with h2 | h2
            · exact hok0 x h2
            · rw [h2, Slice.copyAt_len, Slice.copyAt_cap_le s _ p (hok0 s hsm) (by omega)]
              exact hok0 s hsm
          · cases hres
        · cases hres
    by_cases hc : wrapInt64 (f.offset + (p.length : Int)) > sz
    · rw [if_pos hc] at hw
      cases hg : f.grow h (p.length : Int) with
      | none =>
        rw [hg] at hw
        cases hw
      | some r =>
        obtain ⟨e0, h0, f0⟩ := r
        rw [hg] at hw
        obtain ⟨hok0, hlen0, _, _⟩ := grow_slices h h0 f f0 _ e0 hok hg
        exact key e0 h0 f0 hok0 hlen0 hw
    · rw [if_neg hc] at hw
      exact key none h f hok (Nat.le_refl _) hw

/-- `Write` through any handle keeps the state well formed. -/
theorem File_Write_wf (h : Heap) (fs : MemoryFilesystem) (hwf : h.wf fs = true) :
    ∀ (file file1 : File) (p : List Byte) (n : Int) (e : Option Error) (sl : SliceHeap),
      file.Write h.slices p = some (n, e, sl, file1) → Heap.wf ⟨sl, h.nodes⟩ fs = true := by
  have hmem : ∀ (f f1 : memoryFile) (p : List Byte) (n : Int) (e : Option Error) (sl : SliceHeap),
      f.Write h.slices p = some (n, e, sl, f1) → Heap.wf ⟨sl, h.nodes⟩ fs = true := by
    intro f f1 p n e sl hw
    obtain ⟨hok, hlen⟩ := Write_slices h.slices sl f f1 p n e (wf_slices h fs hwf) hw
    obtain ⟨r, hr, hrd⟩ := wf_root h fs hwf
    exact wf_intro _ fs ⟨r, hr, hrd⟩
      (fun x hx => wfNode_mono h _ x (Nat.le_refl _) hlen (wf_nodes h fs hwf x hx)) hok
  intro file
  induction file with
  | mem f =>
    intro file1 p n e sl hw
    unfold File.Write at hw
    cases hm : f.Write h.slices p with
    | none =>
      rw [hm] at hw
      cases hw
    | some r =>
      obtain ⟨n0, e0, sl0, f0⟩ := r
      rw [hm] at hw
      simp only [Option.map_some', Option.some.injEq, Prod.mk.injEq] at hw
      obtain ⟨h1, h2, h3, _⟩ := hw
      subst h1 h2 h3
      exact hmem f f0 p _ _ _ hm
  | readOnlyFile inner _ =>
    intro file1 p n e sl hw
    unfold File.Write at hw
    cases hw
    exact hwf
  | writeOnlyFile inner ih =>
    intro file1 p n e sl hw
    unfold File.Write at hw
    cases hm : File.Write h.slices inner p with
    | none =>
      rw [hm] at hw
      cases hw
    | some r =>
      obtain ⟨n0, e0, sl0, f0⟩ := r
      rw [hm] at hw
      simp only [Option.map_some', Option.some.injEq, Prod.mk.injEq] at hw
      obtain ⟨h1, h2, h3, _⟩ := hw
      subst h1 h2 h3
      exact ih f0 p _ _ _ hm

/-! ## What a failed walk means -/

/-- A successful walk over `s :: pre` passes through a directory entry `s`. -/
theorem walk_cons_some (nodes : List fileInfo) (start d : Nat) (s : String) (pre : List String)
    (hw : walk nodes start (s :: pre) = some (some d)) :
    ∃ sn e en, nodes[start]? = some sn ∧ mapGet sn.children s = some e ∧ nodes[e]? = some en ∧
      en.IsDir = true ∧ walk nodes e pre = some (some d) := by
  unfold walk at hw
  cases hs : nodes[start]? with
  | none =>
    rw [hs] at hw
    cases hw
  | some sn =>
    rw [hs] at hw
    dsimp only at hw
    cases hg : mapGet sn.children s with
    | none =>
      rw [hg] at hw
      cases hw
    | some e =>
      rw [hg] at hw
      dsimp only at hw
      cases he : nodes[e]? with
      | none =>
        rw [he] at hw
        cases hw
      | some en =>
        rw [he] at hw
        dsimp only at hw
        by_cases hdir : en.IsDir = true
        · rw [if_pos hdir] at hw
          exact ⟨sn, e, en, rfl, hg, he, hdir, hw⟩
        · rw [if_neg hdir] at hw
          cases hw

/-- The walk over the inner segments reports `os.ErrNotExist` exactly when
    some segment does not resolve to an existing directory: the segments
    before it lead through directories to a directory `d`, and in `d` the
    segment is missing or names a regular file. -/
theorem walk_notExist_iff (nodes : List fileInfo) (segs : List String) :
    ∀ start, walk nodes start segs = some none ↔
      ∃ pre seg post d dn, segs = pre ++ seg :: post ∧ walk nodes start pre = some (some d) ∧
        nodes[d]? = some dn ∧
        (mapGet dn.children seg = none ∨
          ∃ e en, mapGet dn.children seg = some e ∧ nodes[e]? = some en ∧ en.IsDir = false) := by
  induction segs with
  | nil =>
    intro start
    constructor
    · intro hw
      cases hw
    · rintro ⟨pre, seg, post, d, dn, hsplit, _⟩
      cases pre <;> cases hsplit
  | cons s rest ih =>
    intro start
    constructor
    · intro hw
      unfold walk at hw
      cases hs : nodes[start]? with
      | none =>
        rw [hs] at hw
        cases hw
      | some sn =>
        rw [hs] at hw
        dsimp only at hw
        cases hg : mapGet sn.children s with
        | none => exact ⟨[], s, rest, start, sn, rfl, rfl, hs, Or.inl hg⟩
        | some e =>
          rw [hg] at hw
          dsimp only at hw
          cases he : nodes[e]? with
          | none =>
            rw [he] at hw
            cases hw
          | some en =>
            rw [he] at hw
            dsimp only at hw
            by_cases hdir : en.IsDir = true
            · rw [if_pos hdir] at hw
              obtain ⟨pre, seg, post, d, dn, hsplit, hpre, hd, hfail⟩ := (ih e).mp hw
              refine ⟨s :: pre, seg, post, d, dn, by rw [hsplit]; rfl, ?_, hd, hfail⟩
              unfold walk
              rw [hs]
              dsimp only
              rw [hg]
              dsimp only
              rw [he]
              dsimp only
              rw [if_pos hdir]
              exact hpre
            · exact ⟨[], s, rest, start, sn, rfl, rfl, hs,
                Or.inr ⟨e, en, hg, he, by simpa using hdir⟩⟩
    · rintro ⟨pre, seg, post, d, dn, hsplit, hpre, hd, hfail⟩
      cases pre with
      | nil =>
        simp only [List.nil_append, List.cons.injEq] at hsplit
        obtain ⟨h1, h2⟩ := hsplit
        subst h1 h2
        have hds : d = start := by
          unfold walk at hpre
          cases hpre
          rfl
        subst hds
        unfold walk
        rw [hd]
        dsimp only
        rcases hfail with hnone | ⟨e, en, hg, he, hfile⟩
        · rw [hnone]
        · rw [hg]
          dsimp only
          rw [he]
          dsimp only
          rw [if_neg (by rw [hfile]; decide)]
      | cons s1 pre1 =>
        simp only [List.cons_append, List.cons.injEq] at hsplit
        obtain ⟨h1, h2⟩ := hsplit
        subst h1
        obtain ⟨sn, e, en, hs, hg, he, hdir, hw1⟩ := walk_cons_some nodes start d s pre1 hpre
        unfold walk
        rw [hs]
        dsimp only
        rw [hg]
        dsimp only
        rw [he]
        dsimp only
        rw [if_pos hdir]
        exact (ih e).mpr ⟨pre1, seg, post, d, dn, h2, hw1, hd, hfail⟩

/-- Path resolution reports an error exactly when the walk over the non-final
    segments fails, and the error is then `os.ErrNotExist` with no parent and
    no node. -/
theorem stat_error_iff (h : Heap) (fs : MemoryFilesystem) (name : String)
    (hlen : 2 ≤ (Split name).length) (p n : Option Nat) (e : Error) :
    fs.stat h name = some (p, n, some e) ↔
      (walk h.nodes fs.root (((Split name).drop 1).take ((Split name).length - 2)) = some none ∧
        p = none ∧ n = none ∧ e = Error.ErrNotExist) := by
  have hnot : ¬ ((Split name).length < 2) := by omega
  unfold MemoryFilesystem.stat
  dsimp only
  rw [if_neg hnot]
  cases hw : walk h.nodes fs.root (((Split name).drop 1).take ((Split name).length - 2)) with
  | none => simp
  | some r =>
    cases r with
    | none =>
      simp only [Option.some.injEq, Prod.mk.injEq, true_and]
      constructor
      · rintro ⟨h1, h2, h3⟩
        exact ⟨h1.symm, h2.symm, h3.symm⟩
      · rintro ⟨h1, h2, h3⟩
        exact ⟨h1.symm, h2.symm, h3.symm⟩
    | some q =>
      dsimp only
      constructor
      · intro hst
        split at hst
        · cases hst
        · cases hst
      · rintro ⟨h1, _⟩
        cases h1

/-! ## The permission wrappers and the frame of `OpenFile` -/

/-- Without the CREATE flag `OpenFile` returns the store it was given. -/
theorem OpenFile_frame (h h1 : Heap) (fs : MemoryFilesystem) (name : String) (flag : Int)
    (perm : Nat) (file : Option File) (err : Option PathError)
    (hcr : hasFlag flag O_CREATE = false)
    (hop : fs.OpenFile h name flag perm = some (file, err, h1)) : h1 = h := by
  unfold MemoryFilesystem.OpenFile at hop
  simp only [hcr] at hop
  repeat' split at hop
  all_goals try (cases hop <;> first | rfl | skip)
  all_goals simp_all

/-- A handle returned by `OpenFile` is the one `openFile` builds from a node
    of the resulting state, and no error comes with it. -/
theorem OpenFile_handle (h h1 : Heap) (fs : MemoryFilesystem) (name : String) (flag : Int)
    (perm : Nat) (file : File) (err : Option PathError)
    (hop : fs.OpenFile h name flag perm = some (some file, err, h1)) :
    err = none ∧ ∃ (i : Nat) (fi : fileInfo),
      h1.nodes[i]? = some fi ∧ fi.openFile h1.slices flag = some file := by
  unfold MemoryFilesystem.OpenFile at hop
  dsimp only at hop
  split at hop
  · cases hop
  · cases hop
  · split at hop
    · cases hop
    · cases hop
    · split at hop
      · cases hop
      · cases hop
      · cases hop
      · split at hop
        · cases hop
        · split at hop
          · cases hop
          · simp only [Option.some.injEq, Prod.mk.injEq] at hop
            obtain ⟨h3, h4, h5⟩ := hop
            subst h3 h4 h5
            exact ⟨rfl, _, _, by assumption, by assumption⟩

/-- What `Seek` returns: the name and the buffer pointer of the handle are
    kept, and the cursor is either kept or set to a value within the bounds
    of the buffer. -/
theorem Seek_result (sl : SliceHeap) (f f1 : memoryFile) (offset whence n : Int)
    (e : Option Error) (hk : f.Seek sl offset whence = some (n, e, f1)) :
    f1.name = f.name ∧ f1.data = f.data ∧
      (f1.offset = f.offset ∨
        ∃ s, deref sl f.data = some s ∧ 0 ≤ f1.offset ∧ f1.offset ≤ (s.len : Int)) := by
  by_cases hw : whence = SEEK_SET ∨ whence = SEEK_CUR ∨ whence = SEEK_END
  · cases hd : deref sl f.data with
    | none =>
      have hsz : f.size sl = none := by
        unfold memoryFile.size
        rw [hd]
      unfold memoryFile.Seek at hk
      simp only [hsz] at hk
      repeat' split at hk
      all_goals first
        | (cases hk; done)
        | (simp only [Option.some.injEq, Prod.mk.injEq] at hk
           obtain ⟨_, _, h3⟩ := hk
           subst h3
           exact ⟨rfl, rfl, Or.inl rfl⟩)
    | some s =>
      rw [Seek_valid sl f s offset whence hd hw] at hk
      split at hk
      · cases hk
        exact ⟨rfl, rfl, Or.inl rfl⟩
      · split at hk
        · cases hk
          exact ⟨rfl, rfl, Or.inl rfl⟩
        · rename_i h1 h2
          simp only [Option.some.injEq, Prod.mk.injEq] at hk
          obtain ⟨_, _, h3⟩ := hk
          subst h3
          exact ⟨rfl, rfl, Or.inr ⟨s, rfl, by simpa using h1, by simpa using h2⟩⟩
  · simp only [not_or] at hw
    rw [Seek_invalid sl f offset whence hw.1 hw.2.1 hw.2.2] at hk
    cases hk
    exact ⟨rfl, rfl, Or.inl rfl⟩

theorem ite_some_eq (c1 c2 : Bool) (a b c x : File)
    (hx : (if c1 = true then some a else if c2 = true then some b else some c) = some x) :
    x = if c1 = true then a else if c2 = true then b else c := by
  cases c1 <;> cases c2 <;> simp at hx ⊢ <;> exact hx.symm

/-- The shape of the handle `openFile` builds: a bare handle over the buffer
    of the node, named by the node's full path, wrapped according to the
    access bits; its cursor is 0 unless APPEND is set, and then it is the
    length of the buffer. -/
theorem openFile_shape (sl : SliceHeap) (fi : fileInfo) (flag : Int) (file : File)
    (hof : fi.openFile sl flag = some file) :
    ∃ f : memoryFile, f.name = fi.fullpath ∧ f.data = fi.data ∧
      (hasFlag flag O_APPEND = false → f.offset = 0) ∧
      (hasFlag flag O_APPEND = true → ∃ s, deref sl fi.data = some s ∧
        (s.len < 9223372036854775808 → f.offset = (s.len : Int)) ∧
        0 ≤ f.offset ∧ f.offset ≤ (s.len : Int)) ∧
      file = (if hasFlag flag O_RDWR then File.mem f
        else if hasFlag flag O_WRONLY then File.writeOnlyFile (File.mem f)
        else File.readOnlyFile (File.mem f)) := by
  unfold fileInfo.openFile at hof
  dsimp only at hof
  by_cases hap : hasFlag flag O_APPEND = true
  · rw [if_pos hap] at hof
    cases hd : deref sl fi.data with
    | none =>
      have hsz : memoryFile.size sl ⟨fi.fullpath, 0, fi.data⟩ = none := by
        unfold memoryFile.size
        rw [hd]
      simp [memoryFile.Seek, SEEK_END, SEEK_SET, SEEK_CUR, hsz] at hof
    | some s =>
      have hd2 : deref sl (memoryFile.data ⟨fi.fullpath, 0, fi.data⟩) = some s := hd
      have hv := Seek_valid sl ⟨fi.fullpath, 0, fi.data⟩ s 0 SEEK_END hd2 (Or.inr (Or.inr rfl))
      have hcand : seekCandidate (0 : Int) s.len 0 SEEK_END = wrapInt64 (s.len : Int) := by
        simp [seekCandidate, SEEK_END, SEEK_SET, SEEK_CUR]
      obtain ⟨r, hr⟩ := Seek_total sl ⟨fi.fullpath, 0, fi.data⟩ s 0 SEEK_END hd2
      obtain ⟨n, e, f1⟩ := r
      obtain ⟨hn, hdat, hoff⟩ := Seek_result sl _ f1 0 SEEK_END n e hr
      rw [hr] at hof
      simp only [Option.map_some'] at hof
      refine ⟨f1, hn, hdat, fun h => absurd hap (by simp [h]), fun _ => ⟨s, rfl, ?_, ?_, ?_⟩, ?_⟩
      · intro hb
        rw [hv] at hr
        dsimp only at hr
        rw [hcand, wrapInt64_of_range _ (by omega) (by omega)] at hr
        rw [if_neg (by omega), if_neg (by omega)] at hr
        cases hr
        rfl
      · rcases hoff with h1 | ⟨s2, hs2, h1, h2⟩
        · rw [h1]
        · exact h1
      · rcases hoff with h1 | ⟨s2, hs2, h1, h2⟩
        · rw [h1]
          exact Int.natCast_nonneg _
        · rw [hd2] at hs2
          cases hs2
          exact h2
      · exact ite_some_eq _ _ _ _ _ _ hof
  · have hap2 : hasFlag flag O_APPEND = false := by simpa using hap
    rw [if_neg hap] at hof
    refine ⟨⟨fi.fullpath, 0, fi.data⟩, rfl, rfl, fun _ => rfl, fun h => absurd h hap, ?_⟩
    exact ite_some_eq _ _ _ _ _ _ hof

/-- The only error a bare `Read` reports is `EOF`. -/
theorem Read_error (sl : SliceHeap) (f f1 : memoryFile) (p p1 : List Byte) (n : Int)
    (e : Option Error) (hr : f.Read sl p = some (n, e, p1, f1)) :
    e = none ∨ e = some Error.EOF := by
  unfold memoryFile.Read at hr
  repeat' split at hr
  all_goals first
    | (cases hr; done)
    | (simp only [Option.some.injEq, Prod.mk.injEq] at hr
       obtain ⟨_, h2, _⟩ := hr
       subst h2
       simp)

/-- The only error `grow` reports is `ErrTooLarge`. -/
theorem grow_error (sl sl1 : SliceHeap) (f f1 : memoryFile) (n : Int) (e : Option Error)
    (hg : f.grow sl n = some (e, sl1, f1)) : e = none ∨ e = some Error.ErrTooLarge := by
  unfold memoryFile.grow at hg
  cases hd : deref sl f.data with
  | none =>
    rw [hd] at hg
    cases hg
  | some s =>
    rw [hd] at hg
    dsimp only at hg
    split at hg
    · cases hm : makeSlice (wrapInt64 (wrapInt64 (2 * (s.cap : Int)) + n)) with
      | error err =>
        rw [hm] at hg
        cases hg
        unfold makeSlice at hm
        split at hm
        · cases hm
        · cases hm
          exact Or.inr rfl
      | ok data =>
        rw [hm] at hg
        dsimp only at hg
        split at hg
        · cases hg
        · cases hg
          exact Or.inl rfl
    · split at hg
      · cases hg
        exact Or.inl rfl
      · cases hg

/-- The only error a bare `Write` reports is `ErrTooLarge`. -/
theorem Write_error (sl sl1 : SliceHeap) (f f1 : memoryFile) (p : List Byte) (n : Int)
    (e : Option Error) (hw : f.Write sl p = some (n, e, sl1, f1)) :
    e = none ∨ e = some Error.ErrTooLarge := by
  unfold memoryFile.Write at hw
  dsimp only at hw
  split at hw
  · cases hw
  · split at hw
    · cases hw
    · rename_i hgr
      simp only [Option.some.injEq, Prod.mk.injEq] at hw
      obtain ⟨_, h2, _⟩ := hw
      subst h2
      split at hgr
      · exact grow_error _ _ _ _ _ _ hgr
      · cases hgr
    · split at hw
      · split at hw
        · simp only [Option.some.injEq, Prod.mk.injEq] at hw
          obtain ⟨_, h2, _⟩ := hw
          subst h2
          exact Or.inl rfl
        · cases hw
      · cases hw

/-- On a well-formed state and an absolute path `OpenFile` returns. -/
theorem OpenFile_total (h : Heap) (fs : MemoryFilesystem) (name : String) (flag : Int)
    (perm : Nat) (hwf : h.wf fs = true) (habs : isAbsPath name = true) :
    ∃ file err h1, fs.OpenFile h name flag perm = some (file, err, h1) := by
  rcases stat_wf h fs name hwf habs with hst | ⟨p, pn, seg, hst, hp, hpd, _⟩
  · exact ⟨_, _, _, OpenFile_stat_error h fs name flag perm _ _ _ hst⟩
  · cases hnode : mapGet pn.children seg with
    | none =>
      rw [hnode] at hst
      by_cases hcr : hasFlag flag O_CREATE = true
      · obtain ⟨file, nodes1, ho, _, _⟩ := OpenFile_create h fs name flag perm p pn none hst hp hpd
          (fun i hi => by cases hi) hcr (Or.inl rfl)
        exact ⟨_, _, _, ho⟩
      · have hcr2 : hasFlag flag O_CREATE = false := by simpa using hcr
        exact ⟨_, _, _, OpenFile_absent h fs name flag perm _ hst hcr2⟩
    | some i =>
      rw [hnode] at hst
      obtain ⟨fi, hfi⟩ := wf_child h fs hwf p pn hp seg i hnode
      by_cases hdir : fi.IsDir = true
      · exact ⟨_, _, _, OpenFile_directory h fs name flag perm _ i fi hst hfi hdir⟩
      · have hdir2 : fi.IsDir = false := by simpa using hdir
        by_cases hcr : hasFlag flag O_CREATE = true
        · by_cases htr : hasFlag flag O_TRUNC = true
          · obtain ⟨file, nodes1, ho, _, _⟩ := OpenFile_create h fs name flag perm p pn (some i)
              hst hp hpd (fun j hj => by cases hj; exact ⟨fi, hfi, hdir2⟩) hcr (Or.inr htr)
            exact ⟨_, _, _, ho⟩
          · have htr2 : hasFlag flag O_TRUNC = false := by simpa using htr
            exact ⟨_, _, _, OpenFile_exist h fs name flag perm _ i fi hst hfi hdir2 hcr htr2⟩
        · have hcr2 : hasFlag flag O_CREATE = false := by simpa using hcr
          obtain ⟨ptr, s, hptr, hs⟩ := wf_file_data h fs hwf i fi hfi hdir2
          have hde : deref h.slices fi.data = some s := by
            rw [hptr]
            exact hs
          obtain ⟨file, hfile⟩ := openFile_total h.slices fi flag s hde
          refine ⟨some file, none, h, ?_⟩
          rw [OpenFile_existing h fs name flag perm _ i fi hst hfi hdir2 hcr2, hfile]

/-- C12 — permission wrappers.  Let `OpenFile` return a handle `file`, and
    let `file.handle` be the bare handle inside it.  If the flags have the
    `O_WRONLY` bit and not `O_RDWR`, the handle is the write-only wrapper of
    the bare handle: every `Read`, for every destination and whatever the
    buffers are, returns `(0, ErrWriteOnly)` and leaves the destination and
    the handle (hence the cursor) as they were, `Read` having no access to
    the store; `Write` and `Seek` are those of the bare handle.  If the flags
    have neither bit, the handle is the read-only wrapper: every `Write`
    returns `(0, ErrReadOnly)` and leaves the store and the handle as they
    were; `Read` and `Seek` are those of the bare handle.  If the flags have
    `O_RDWR`, the handle is the bare handle itself, whose `Read` never reports
    `ErrWriteOnly` and whose `Write` never reports `ErrReadOnly`. -/
theorem C12_permission_wrappers (h h1 : Heap) (fs : MemoryFilesystem) (name : String)
    (flag : Int) (perm : Nat) (file : File) (err : Option PathError)
    (hop : fs.OpenFile h name flag perm = some (some file, err, h1)) :
    (hasFlag flag O_RDWR = false → hasFlag flag O_WRONLY = true →
      file = File.writeOnlyFile (File.mem file.handle) ∧
      (∀ sl p, file.Read sl p = some (0, some Error.ErrWriteOnly, p, file)) ∧
      (∀ sl p, file.Write sl p = (file.handle.Write sl p).map fun r =>
        (r.1, r.2.1, r.2.2.1, File.writeOnlyFile (File.mem r.2.2.2))) ∧
      (∀ sl off wh, file.Seek sl off wh = (file.handle.Seek sl off wh).map fun r =>
        (r.1, r.2.1, File.writeOnlyFile (File.mem r.2.2)))) ∧
    (hasFlag flag O_RDWR = false → hasFlag flag O_WRONLY = false →
      file = File.readOnlyFile (File.mem file.handle) ∧
      (∀ sl p, file.Write sl p = some (0, some Error.ErrReadOnly, sl, file)) ∧
      (∀ sl p, file.Read sl p = (file.handle.Read sl p).map fun r =>
        (r.1, r.2.1, r.2.2.1, File.readOnlyFile (File.mem r.2.2.2))) ∧
      (∀ sl off wh, file.Seek sl off wh = (file.handle.Seek sl off wh).map fun r =>
        (r.1, r.2.1, File.readOnlyFile (File.mem r.2.2)))) ∧
    (hasFlag flag O_RDWR = true →
      file = File.mem file.handle ∧
      (∀ sl p n e p1 f1, file.Read sl p = some (n, e, p1, f1) →
        e ≠ some Error.ErrWriteOnly ∧
        ∃ g, f1 = File.mem g ∧ file.handle.Read sl p = some (n, e, p1, g)) ∧
      (∀ sl p n e sl1 f1, file.Write sl p = some (n, e, sl1, f1) →
        e ≠ some Error.ErrReadOnly ∧
        ∃ g, f1 = File.mem g ∧ file.handle.Write sl p = some (n, e, sl1, g))) := by
  obtain ⟨_, i, fi, _, hof⟩ := OpenFile_handle h h1 fs name flag perm file err hop
  obtain ⟨f, _, _, _, _, hfile⟩ := openFile_shape h1.slices fi flag file hof
  refine ⟨?_, ?_, ?_⟩
  · intro hrw hwo
    rw [hrw, hwo] at hfile
    simp only [Bool.false_eq_true, if_false, if_true] at hfile
    subst hfile
    exact ⟨rfl, fun _ _ => rfl, fun _ _ => by simp only [File.Write, File.handle, Option.map_map]; rfl,
      fun _ _ _ => by simp only [File.Seek, File.handle, Option.map_map]; rfl⟩
  · intro hrw hwo
    rw [hrw, hwo] at hfile
    simp only [Bool.false_eq_true, if_false] at hfile
    subst hfile
    exact ⟨rfl, fun _ _ => rfl, fun _ _ => by simp only [File.Read, File.handle, Option.map_map]; rfl,
      fun _ _ _ => by simp only [File.Seek, File.handle, Option.map_map]; rfl⟩
  · intro hrw
    rw [hrw] at hfile
    simp only [if_true] at hfile
    subst hfile
    refine ⟨rfl, ?_, ?_⟩
    · intro sl p n e p1 f1 hr
      simp only [File.Read, File.handle, Option.map_eq_some'] at hr
      obtain ⟨r, hr1, hr2⟩ := hr
      obtain ⟨a, b, c, g⟩ := r
      simp only [Prod.mk.injEq] at hr2
      obtain ⟨h1, h2, h3, h4⟩ := hr2
      subst h1 h2 h3 h4
      refine ⟨?_, g, rfl, hr1⟩
      rcases Read_error sl f g p c a b hr1 with he | he <;> rw [he] <;> simp
    · intro sl p n e sl1 f1 hw
      simp only [File.Write, File.handle, Option.map_eq_some'] at hw
      obtain ⟨r, hr1, hr2⟩ := hw
      obtain ⟨a, b, c, g⟩ := r
      simp only [Prod.mk.injEq] at hr2
      obtain ⟨h1, h2, h3, h4⟩ := hr2
      subst h1 h2 h3 h4
      refine ⟨?_, g, rfl, hr1⟩
      rcases Write_error sl c f g p a b hr1 with he | he <;> rw [he] <;> simp

/-- Witness for C12: `OpenFile("/foo.txt", O_WRONLY, 0)` on the state holding
    that file returns a handle whose `Read` fails with `ErrWriteOnly`. -/
theorem C12_permission_wrappers_witness :
    NewFilesystem.2.OpenFile (fooState 511) "/foo.txt" O_WRONLY 0 =
      some (some (File.writeOnlyFile (File.mem ⟨"/foo.txt", 0, some 0⟩)), none, fooState 511) ∧
    ∀ sl p, File.Read sl (File.writeOnlyFile (File.mem ⟨"/foo.txt", 0, some 0⟩)) p =
      some (0, some Error.ErrWriteOnly, p, File.writeOnlyFile (File.mem ⟨"/foo.txt", 0, some 0⟩)) :=
  ⟨by rfl, ((C12_permission_wrappers (fooState 511) (fooState 511) NewFilesystem.2 "/foo.txt"
    O_WRONLY 0 (File.writeOnlyFile (File.mem ⟨"/foo.txt", 0, some 0⟩)) none (by rfl)).1
    (by decide) (by decide)).2.1⟩

/-- C19 — `OpenFile` without `O_CREATE` is a pure observer: whatever the
    state, the path, the mode and the other flags (`O_TRUNC` and `O_APPEND`
    included), and whether it returns a handle or an error, the state it
    returns is the state it was given: the node store (the directory tree)
    and the buffer store (content, length and capacity of every buffer) are
    unchanged; and on a well-formed state and an absolute path the call does
    return.  The cursor that `O_APPEND` moves lives in the new handle,
    outside the state. -/
theorem C19_openFile_without_create_frame (h : Heap) (fs : MemoryFilesystem) (name : String)
    (flag : Int) (perm : Nat) (hcr : hasFlag flag O_CREATE = false) :
    (∀ file err h1, fs.OpenFile h name flag perm = some (file, err, h1) → h1 = h) ∧
    (h.wf fs = true → isAbsPath name = true →
      ∃ file err, fs.OpenFile h name flag perm = some (file, err, h)) := by
  refine ⟨fun file err h1 hop => OpenFile_frame h h1 fs name flag perm file err hcr hop, ?_⟩
  intro hwf habs
  obtain ⟨file, err, h1, hop⟩ := OpenFile_total h fs name flag perm hwf habs
  have := OpenFile_frame h h1 fs name flag perm file err hcr hop
  subst this
  exact ⟨file, err, hop⟩

/-- Witness for C19: `OpenFile("/foo.txt", O_TRUNC|O_APPEND|O_RDWR, 0)` on the
    state holding that file returns a handle and the same state. -/
theorem C19_openFile_without_create_frame_witness :
    hasFlag (Int.lor (Int.lor O_TRUNC O_APPEND) O_RDWR) O_CREATE = false ∧
    NewFilesystem.2.OpenFile (fooState 511) "/foo.txt" (Int.lor (Int.lor O_TRUNC O_APPEND) O_RDWR) 0
      = some (some (File.mem ⟨"/foo.txt", 0, some 0⟩), none, fooState 511) ∧
    fooState 511 = fooState 511 :=
  ⟨by decide, by rfl,
    (C19_openFile_without_create_frame (fooState 511) NewFilesystem.2 "/foo.txt"
      (Int.lor (Int.lor O_TRUNC O_APPEND) O_RDWR) 0 (by decide)).1 _ _ _ (by rfl)⟩

/-! ## `memoryFile.grow` -/

/-- Growth within the capacity: `grow` reslices the header in place. -/
theorem grow_inplace (sl : SliceHeap) (f : memoryFile) (n ptr : Nat) (s : Slice)
    (hd : f.data = some ptr) (hs : sl[ptr]? = some s) (hroom : s.len + n ≤ s.cap)
    (hb : s.cap < 9223372036854775808) :
    f.grow sl (n : Int) = some (none, sl.set ptr { s with len := s.len + n }, f) := by
  have hw2 : wrapInt64 ((s.len : Int) + (n : Int)) = ((s.len + n : Nat) : Int) := by
    rw [wrapInt64_of_range] <;> omega
  have h3 : ¬ (((s.len + n : Nat) : Int) > (s.cap : Int)) := by omega
  have h4 : (0 : Int) ≤ ((s.len + n : Nat) : Int) ∧
      ((s.len + n : Nat) : Int) ≤ (s.cap : Int) := by omega
  simp only [memoryFile.grow, Slice.reslice, hd, deref_some, hs, hw2, h3, h4, if_false, and_self,
    if_true, Int.toNat_ofNat]

/-- Growth beyond the capacity: `grow` allocates `2*cap + n` elements, copies
    the content and redirects the handle to the new header. -/
theorem grow_realloc (sl : SliceHeap) (f : memoryFile) (n ptr : Nat) (s : Slice)
    (hd : f.data = some ptr) (hs : sl[ptr]? = some s) (hc : s.len ≤ s.cap)
    (hroom : s.cap < s.len + n) (hb : 2 * s.cap + n ≤ maxAlloc) :
    f.grow sl (n : Int) =
      some (none, sl ++ [grownSlice s n], { f with data := some sl.length }) := by
  have hm := maxAlloc_eq
  have hw2 : wrapInt64 ((s.len : Int) + (n : Int)) = ((s.len + n : Nat) : Int) := by
    rw [wrapInt64_of_range] <;> omega
  have hw3 : wrapInt64 (wrapInt64 (2 * (s.cap : Int)) + (n : Int)) =
      ((2 * s.cap + n : Nat) : Int) := by
    rw [wrapInt64_of_range (2 * (s.cap : Int)), wrapInt64_of_range] <;> omega
  have h3 : (((s.len + n : Nat) : Int) > (s.cap : Int)) := by omega
  have h5 : (0 : Int) ≤ ((2 * s.cap + n : Nat) : Int) ∧
      2 * s.cap + n ≤ maxAlloc := ⟨by omega, hb⟩
  have hcl := Slice.content_length s hc
  have harr : (copy (List.replicate (2 * s.cap + n) (0 : Byte)) s.content).2 =
      s.content ++ List.replicate (2 * s.cap + n - s.len) 0 := by
    rw [copy_snd_of_le _ _ (by simp [hcl]; omega)]
    simp [hcl]
  have h4 : (0 : Int) ≤ ((s.len + n : Nat) : Int) ∧
      ((s.len + n : Nat) : Int) ≤ ((2 * s.cap + n : Nat) : Int) := by omega
  simp only [memoryFile.grow, makeSlice, Slice.reslice, hd, deref_some, hs, hw2, hw3, h3, h5,
    and_self, if_true, Int.toNat_ofNat]
  have hcont : ({ arr := List.replicate (2 * s.cap + n) 0, len := 2 * s.cap + n } :
      Slice).content = List.replicate (2 * s.cap + n) 0 := by
    simp [Slice.content]
  have hdrop : List.drop (2 * s.cap + n) (List.replicate (2 * s.cap + n) (0 : Byte)) = [] := by
    simp
  have hcap : ∀ k : Nat, (Slice.mk (s.content ++ List.replicate (2 * s.cap + n - s.len) 0) k).cap =
      2 * s.cap + n := by
    intro k
    show (s.content ++ List.replicate (2 * s.cap + n - s.len) 0).length = _
    rw [List.length_append, List.length_replicate, hcl]
    omega
  simp only [hcont, hdrop, harr, List.append_nil, hcap, h4, and_self, if_true, Int.toNat_ofNat,
    grownSlice]

/-- Growth beyond the capacity and beyond what can be allocated: `grow`
    reports `ErrTooLarge` and changes nothing. -/
theorem grow_too_large (sl : SliceHeap) (f : memoryFile) (n ptr : Nat) (s : Slice)
    (hd : f.data = some ptr) (hs : sl[ptr]? = some s)
    (hroom : s.cap < s.len + n) (hlen : s.len + n < 9223372036854775808)
    (hcap : 2 * s.cap + n < 9223372036854775808) (hb : maxAlloc < 2 * s.cap + n) :
    f.grow sl (n : Int) = some (some Error.ErrTooLarge, sl, f) := by
  have hw2 : wrapInt64 ((s.len : Int) + (n : Int)) = ((s.len + n : Nat) : Int) := by
    rw [wrapInt64_of_range] <;> omega
  have hw3 : wrapInt64 (wrapInt64 (2 * (s.cap : Int)) + (n : Int)) =
      ((2 * s.cap + n : Nat) : Int) := by
    rw [wrapInt64_of_range (2 * (s.cap : Int)), wrapInt64_of_range] <;> omega
  have h3 : (((s.len + n : Nat) : Int) > (s.cap : Int)) := by omega
  have h5 : ¬ ((0 : Int) ≤ ((2 * s.cap + n : Nat) : Int) ∧ 2 * s.cap + n ≤ maxAlloc) := by
    omega
  simp only [memoryFile.grow, makeSlice, hd, deref_some, hs, hw2, hw3, h3, h5,
    if_true, if_false, Int.toNat_ofNat]

theorem grownSlice_content_take (s : Slice) (n : Nat) (hc : s.len ≤ s.cap) :
    (grownSlice s n).content.take s.len = s.content ∧ (grownSlice s n).len = s.len + n := by
  have hcl := Slice.content_length s hc
  refine ⟨?_, rfl⟩
  show ((s.content ++ List.replicate (2 * s.cap + n - s.len) 0).take (s.len + n)).take s.len = _
  rw [List.take_take, Nat.min_eq_left (by omega)]
  rw [← hcl]
  exact List.take_left' rfl

theorem emptyData_cap : emptyData.cap = 512 := by
  show (List.replicate InitialDataSize (0 : Byte)).length = 512
  rw [List.length_replicate]
  rfl

/-- C20, counterexample: `grow(513)` on the empty buffer of capacity 512 that
    `OpenFile` gives a new file (length 0, so the request does not fit)
    allocates a buffer of capacity `2*512 + 513 = 1537`, whereas
    `max(2*512, 512 + 513)` is 1025. -/
theorem C20_counterexample :
    memoryFile.grow [emptyData] ⟨"/foo.txt", 0, some 0⟩ 513 =
      some (none, [emptyData, grownSlice emptyData 513], ⟨"/foo.txt", 0, some 1⟩) ∧
    (grownSlice emptyData 513).cap = 1537 ∧ (grownSlice emptyData 513).len = 513 ∧
    emptyData.cap = 512 ∧ emptyData.len = 0 ∧ specGrowCap 512 513 = 1025 := by
  have hc : emptyData.len ≤ emptyData.cap := Nat.zero_le _
  have hcap := emptyData_cap
  have hm := maxAlloc_eq
  refine ⟨?_, ?_, ?_, hcap, rfl, by decide⟩
  · exact grow_realloc [emptyData] ⟨"/foo.txt", 0, some 0⟩ 513 0 emptyData rfl rfl hc
      (by rw [hcap]; show 512 < 0 + 513; omega) (by rw [hcap]; omega)
  · rw [grownSlice_cap emptyData 513 hc, hcap]
  · show 0 + 513 = 513
    rfl

/-- C20 (amended) — buffer growth.  Let the handle refer to a buffer of
    length `m` and capacity `c` with `m ≤ c`, and let `n ≥ 0`, all sizes
    being sizes of Go slices (at most `maxAlloc`).  When `m + n ≤ c`,
    `grow(n)` reslices the buffer in place: same backing array, hence same
    capacity.  Otherwise it allocates a buffer of capacity exactly
    `2*c + n` and redirects the handle to it, provided `2*c + n` elements can
    be allocated; if they cannot, it reports `ErrTooLarge` and changes
    nothing.  In both successful cases the handle's buffer afterwards has
    length `m + n`, its first `m` bytes are the old content, and its length
    is at most its capacity. -/
theorem C20_grow (sl : SliceHeap) (f : memoryFile) (ptr n : Nat) (s : Slice)
    (hd : f.data = some ptr) (hs : sl[ptr]? = some s) (hc : s.len ≤ s.cap)
    (hcap : s.cap ≤ maxAlloc) (hn : n ≤ maxAlloc) :
    (s.len + n ≤ s.cap →
      ∃ s1, f.grow sl (n : Int) = some (none, sl.set ptr s1, f) ∧
        (sl.set ptr s1)[ptr]? = some s1 ∧ s1.arr = s.arr ∧ s1.cap = s.cap ∧
        s1.len = s.len + n ∧ s1.content.take s.len = s.content ∧ s1.len ≤ s1.cap) ∧
    (s.cap < s.len + n → 2 * s.cap + n ≤ maxAlloc →
      ∃ s1, f.grow sl (n : Int) = some (none, sl ++ [s1], { f with data := some sl.length }) ∧
        (sl ++ [s1])[sl.length]? = some s1 ∧ s1.cap = 2 * s.cap + n ∧
        s1.len = s.len + n ∧ s1.content.take s.len = s.content ∧ s1.len ≤ s1.cap) ∧
    (s.cap < s.len + n → maxAlloc < 2 * s.cap + n →
      f.grow sl (n : Int) = some (some Error.ErrTooLarge, sl, f)) := by
  have hm := maxAlloc_eq
  have hlt := get?_lt _ _ _ hs
  refine ⟨?_, ?_, ?_⟩
  · intro hroom
    refine ⟨{ s with len := s.len + n }, grow_inplace sl f n ptr s hd hs hroom (by omega),
      List.getElem?_set_self hlt, rfl, rfl, rfl, ?_, hroom⟩
    show ((s.arr.take (s.len + n)).take s.len) = s.arr.take s.len
    rw [List.take_take, Nat.min_eq_left (by omega)]
  · intro hroom hb
    refine ⟨grownSlice s n, grow_realloc sl f n ptr s hd hs hc hroom hb,
      get?_append_length _ _, grownSlice_cap s n hc, rfl,
      (grownSlice_content_take s n hc).1, ?_⟩
    rw [grownSlice_cap s n hc]
    show s.len + n ≤ 2 * s.cap + n
    omega
  · intro hroom hb
    exact grow_too_large sl f n ptr s hd hs hroom (by omega) (by omega) hb

/-- Witness for C20: a buffer of length 1 and capacity 1 grown by 1 is
    reallocated with capacity 3. -/
theorem C20_grow_witness :
    ∃ s1, memoryFile.grow [⟨[7], 1⟩] ⟨"f", 1, some 0⟩ ((1 : Nat) : Int) =
        some (none, [⟨[7], 1⟩] ++ [s1], ⟨"f", 1, some 1⟩) ∧
      ([(⟨[7], 1⟩ : Slice)] ++ [s1])[1]? = some s1 ∧ s1.cap = 2 * 1 + 1 ∧
      s1.len = 1 + 1 ∧ s1.content.take 1 = [7] ∧ s1.len ≤ s1.cap :=
  (C20_grow [⟨[7], 1⟩] ⟨"f", 1, some 0⟩ 0 1 ⟨[7], 1⟩ rfl rfl (by decide) (by decide)
    (by decide)).2.1 (by decide) (by decide)

/-! ## Paths without a separator, and paths that end in one -/

/-- C16 — on a path that holds no separator (the empty path included)
    `strings.Split` returns a single segment and path resolution evaluates
    `segments[1:0]`, which is out of range: `Stat`, `Mkdir`, `Open`, `Create`
    and `OpenFile` panic (the model returns `none`) instead of returning a
    result or an error. -/
theorem C16_panic_on_path_without_separator :
    NewFilesystem.2.Stat NewFilesystem.1 "foo" = none ∧
    NewFilesystem.2.Stat NewFilesystem.1 "" = none ∧
    NewFilesystem.2.Mkdir NewFilesystem.1 "foo" 511 = none ∧
    NewFilesystem.2.Create NewFilesystem.1 "foo" = none ∧
    NewFilesystem.2.Open NewFilesystem.1 "foo" = none ∧
    NewFilesystem.2.OpenFile NewFilesystem.1 "" (Int.lor O_CREATE O_WRONLY) 438 = none ∧
    Split "foo" = ["foo"] ∧ Split "" = [""] :=
  ⟨by decide, by decide, by decide, by decide, by decide, by decide, by decide, by decide⟩

/-- C14 — after `Mkdir("/tmp")`, `OpenFile("/tmp/", O_CREATE|O_RDWR, 0666)`
    creates the file "/tmp/tmp" and records "/tmp/" as its full path; a later
    `Open("/tmp/tmp")` succeeds and the handle it returns is named "/tmp/",
    not "/tmp/tmp".  Likewise `Create("x/foo.txt")` creates "/foo.txt" with the
    full path "x/foo.txt", which is the name of the handle `Open("/foo.txt")`
    returns. -/
theorem C14_name_of_reopened_handle :
    NewFilesystem.2.Mkdir NewFilesystem.1 "/tmp" 511 = some (none, tmpState) ∧
    NewFilesystem.2.OpenFile tmpState "/tmp/" (Int.lor O_CREATE O_RDWR) 438 =
      some (some (File.mem ⟨"/tmp/", 0, some 0⟩), none, tmpFileState) ∧
    NewFilesystem.2.Open tmpFileState "/tmp/tmp" =
      some (some (File.readOnlyFile (File.mem ⟨"/tmp/", 0, some 0⟩)), none, tmpFileState) ∧
    File.Name (File.readOnlyFile (File.mem ⟨"/tmp/", 0, some 0⟩)) = "/tmp/" ∧
    ((NewFilesystem.2.Create NewFilesystem.1 "x/foo.txt").bind fun r =>
      (NewFilesystem.2.Open r.2.2 "/foo.txt").map fun r1 => r1.1.map File.Name) =
      some (some "x/foo.txt") :=
  ⟨by decide, by rfl, by rfl, by rfl, by rfl⟩

/-- C15 — after `Mkdir("/tmp")` and `Mkdir("/tmp/tmp")` the path "/tmp/tmp" is
    a directory; `OpenFile("/tmp/", O_CREATE|O_WRONLY, 0666)` then succeeds and
    stores a file node under the key "tmp" of "/tmp", so that "/tmp/tmp" is no
    longer a directory.  And after `Mkdir("/tmp/tmp/x")` in addition, `Stat`
    succeeds on "/tmp/tmp/x"; `Mkdir("/tmp/", 0777)` then succeeds and puts a
    fresh empty directory in the place of "/tmp/tmp", after which `Stat` on
    "/tmp/tmp/x" fails. -/
theorem C15_directory_replaced :
    ((mkdirs NewFilesystem.2 511 NewFilesystem.1 ["/tmp", "/tmp/tmp"]).bind fun r =>
      (NewFilesystem.2.OpenFile r.2 "/tmp/" (Int.lor O_CREATE O_WRONLY) 438).map fun r1 =>
        (r.1, statIsDir r.2 NewFilesystem.2 "/tmp/tmp", r1.1.map File.Name, r1.2.1,
          statIsDir r1.2.2 NewFilesystem.2 "/tmp/tmp")) =
      some ([none, none], some (some true), some "/tmp/", none, some (some false)) ∧
    ((mkdirs NewFilesystem.2 511 NewFilesystem.1 ["/tmp", "/tmp/tmp", "/tmp/tmp/x"]).bind fun r =>
      (NewFilesystem.2.Mkdir r.2 "/tmp/" 511).map fun r1 =>
        (r.1, statIsDir r.2 NewFilesystem.2 "/tmp/tmp/x", r1.1,
          statIsDir r1.2 NewFilesystem.2 "/tmp/tmp/x", statIsDir r1.2 NewFilesystem.2 "/tmp/tmp")) =
      some ([none, none, none], some (some true), none, some none, some (some true)) :=
  ⟨by rfl, by rfl⟩

/-! ## Opening with `O_APPEND` -/

/-- A `Write` of `b` with the cursor at the end of the data, then
    `Seek(0, SEEK_SET)`, then a `Read` into a destination as long as the
    whole data: the destination holds the old content followed by `b`. -/
theorem append_read (sl : SliceHeap) (f : memoryFile) (b dest : List Byte) (ptr : Nat)
    (s : Slice) (hd : f.data = some ptr) (hs : sl[ptr]? = some s)
    (ho : f.offset = (s.len : Int)) (hc : s.len ≤ s.cap)
    (halloc : 2 * s.cap + b.length ≤ maxAlloc) (hdest : dest.length = s.len + b.length) :
    ∃ (sl1 : SliceHeap) (f1 f2 f3 : memoryFile) (e : Option Error),
      f.Write sl b = some ((b.length : Int), none, sl1, f1) ∧
      f1.Seek sl1 0 SEEK_SET = some (0, none, f2) ∧
      f2.Read sl1 dest = some (((s.len + b.length : Nat) : Int), e, s.content ++ b, f3) ∧
      (e = none ∨ (e = some Error.EOF ∧ s.len + b.length = 0)) := by
  have hm := maxAlloc_eq
  obtain ⟨p2, s2, sl1, hw, hg2, hc2, hl2, hle2, _⟩ := Write_append sl f b ptr s hd hs ho hc halloc
  have hg3 : deref sl1 (some p2) = some s2 := hg2
  have hsk := Seek_valid sl1
    { f with offset := ((s.len + b.length : Nat) : Int), data := some p2 } s2 0 SEEK_SET hg3
    (Or.inl rfl)
  have hcand : ∀ o L : Int, seekCandidate o L 0 SEEK_SET = 0 := fun o L => by
    simp [seekCandidate]
  simp only [hcand] at hsk
  rw [if_neg (by omega), if_neg (by omega)] at hsk
  have hcl := Slice.content_length s hc
  by_cases hz : s.len + b.length = 0
  · have hd0 : dest = [] := List.eq_nil_of_length_eq_zero (by omega)
    have hb0 : s.content ++ b = [] :=
      List.eq_nil_of_length_eq_zero (by rw [List.length_append, hcl]; exact hz)
    have hr := Read_eof sl1 { f with offset := (0 : Int), data := some p2 } dest s2 hg3
      (by simp only; omega)
    refine ⟨sl1, _, _, { f with offset := (0 : Int), data := some p2 }, some Error.EOF,
      hw, hsk, ?_, Or.inr ⟨rfl, hz⟩⟩
    rw [hr, hz, hd0, hb0]
    rfl
  · have hr := Read_data sl1 { f with offset := (0 : Int), data := some p2 } dest 0 s2 hg3 rfl
      (by omega) hle2 (by omega)
    refine ⟨sl1, _, _,
      { f with offset := ((0 + min dest.length (s2.len - 0) : Nat) : Int), data := some p2 }, none,
      hw, hsk, ?_, Or.inl rfl⟩
    rw [hr]
    have hk : min dest.length (s2.len - 0) = s.len + b.length := by
      rw [hdest, hl2]
      simp
    have hcl2 := Slice.content_length s2 hle2
    rw [hk, List.drop_zero, List.take_of_length_le (by rw [hcl2, hl2]), hc2,
      List.drop_of_length_le (by omega), List.append_nil]

/-- C13 — append.  Let `Stat` resolve `name` to a regular file whose buffer
    holds the content `c` (`s.content`, of length `s.len`), and let the flags
    hold `O_APPEND` and `O_RDWR` and not `O_CREATE` (as `O_APPEND|O_RDWR`
    does).  Then `OpenFile` returns, without error and without changing the
    state, the bare handle over that buffer whose cursor is `len(c)`;
    `Write(b)` on it returns `(len(b), nil)`, `Seek(0, SEEK_SET)` returns
    `(0, nil)`, and a `Read` into a destination of length `len(c) + len(b)`
    then returns `len(c) + len(b)` and fills the destination with `c ++ b`
    (its error is nil, or `io.EOF` in the one case that `c ++ b` is empty).
    The hypothesis `halloc` says that the reallocation, if any, stays within
    what `make` accepts. -/
theorem C13_append (h : Heap) (fs : MemoryFilesystem) (name : String) (flag : Int) (perm : Nat)
    (i ptr : Nat) (fi : fileInfo) (s : Slice) (b dest : List Byte)
    (hS : fs.Stat h name = some (some i, none)) (hi : h.nodes[i]? = some fi)
    (hfile : fi.IsDir = false) (hdat : fi.data = some ptr) (hs : h.slices[ptr]? = some s)
    (hc : s.len ≤ s.cap) (halloc : 2 * s.cap + b.length ≤ maxAlloc)
    (hap : hasFlag flag O_APPEND = true) (hrw : hasFlag flag O_RDWR = true)
    (hcr : hasFlag flag O_CREATE = false) (hdest : dest.length = s.len + b.length) :
    fs.OpenFile h name flag perm =
      some (some (File.mem ⟨fi.fullpath, (s.len : Int), some ptr⟩), none, h) ∧
    ∃ (sl1 : SliceHeap) (f1 f2 f3 : File) (e : Option Error),
      File.Write h.slices (File.mem ⟨fi.fullpath, (s.len : Int), some ptr⟩) b =
        some ((b.length : Int), none, sl1, f1) ∧
      f1.Seek sl1 0 SEEK_SET = some (0, none, f2) ∧
      f2.Read sl1 dest = some (((s.len + b.length : Nat) : Int), e, s.content ++ b, f3) ∧
      (e = none ∨ (e = some Error.EOF ∧ s.len + b.length = 0)) := by
  have hm := maxAlloc_eq
  obtain ⟨p, hst⟩ := Stat_some h fs name i hS
  have hde : deref h.slices fi.data = some s := by
    rw [hdat]
    exact hs
  obtain ⟨file, hof⟩ := openFile_total h.slices fi flag s hde
  obtain ⟨f, hn, hfd, _, hoff, hfile2⟩ := openFile_shape h.slices fi flag file hof
  obtain ⟨s2, hs2, hlen, _, _⟩ := hoff hap
  rw [hde] at hs2
  cases hs2
  have ho := hlen (by omega)
  rw [hrw] at hfile2
  simp only [if_true] at hfile2
  obtain ⟨fname, foff, fdata⟩ := f
  simp only at hn hfd ho
  subst hn ho
  rw [hdat] at hfd
  subst hfd hfile2
  refine ⟨?_, ?_⟩
  · rw [OpenFile_existing h fs name flag perm p i fi hst hi hfile hcr, hof]
  · obtain ⟨sl1, f1, f2, f3, e, hw, hk, hr, he⟩ := append_read h.slices
      ⟨fi.fullpath, (s.len : Int), some ptr⟩ b dest ptr s rfl hs rfl hc halloc hdest
    refine ⟨sl1, File.mem f1, File.mem f2, File.mem f3, e, ?_, ?_, ?_, he⟩
    · simp only [File.Write, hw, Option.map_some']
    · simp only [File.Seek, hk, Option.map_some']
    · simp only [File.Read, hr, Option.map_some']

/-- Witness for C13: on a state whose file "/foo.txt" holds "Hello world!",
    `OpenFile("/foo.txt", O_APPEND|O_RDWR, 0)` returns a handle with cursor
    12, and writing "Bye world", seeking to 0 and reading 21 bytes yields
    "Hello world!Bye world". -/
theorem C13_append_witness :
    NewFilesystem.2.Stat helloState "/foo.txt" = some (some 1, none) ∧
    hasFlag (Int.lor O_APPEND O_RDWR) O_APPEND = true ∧
    hasFlag (Int.lor O_APPEND O_RDWR) O_RDWR = true ∧
    hasFlag (Int.lor O_APPEND O_RDWR) O_CREATE = false ∧
    NewFilesystem.2.OpenFile helloState "/foo.txt" (Int.lor O_APPEND O_RDWR) 0 =
      some (some (File.mem ⟨"/foo.txt", 12, some 0⟩), none, helloState) ∧
    ∃ (sl1 : SliceHeap) (f1 f2 f3 : File) (e : Option Error),
      File.Write helloState.slices (File.mem ⟨"/foo.txt", 12, some 0⟩) (bytes bye) =
        some (9, none, sl1, f1) ∧
      f1.Seek sl1 0 SEEK_SET = some (0, none, f2) ∧
      f2.Read sl1 (List.replicate 21 0) = some (21, e, bytes hello ++ bytes bye, f3) ∧
      (e = none ∨ (e = some Error.EOF ∧ 12 + 9 = 0)) :=
  ⟨by decide, by decide, by decide, by decide,
    C13_append helloState NewFilesystem.2 "/foo.txt" (Int.lor O_APPEND O_RDWR) 0 1 0
      ⟨"foo.txt", "/foo.txt", 438, none, some 0⟩ ⟨bytes hello, 12⟩ (bytes bye)
      (List.replicate 21 0) (by decide) (by decide) (by decide) rfl (by decide) (by decide)
      (by decide) (by decide) (by decide) (by decide) (by decide)⟩

/-! ## The content of the buffer after `Write` -/

theorem spareZero_iff (s : Slice) :
    s.spareZero = true ↔ s.arr.drop s.len = List.replicate (s.cap - s.len) 0 := by
  simp [Slice.spareZero]

theorem emptyData_spareZero : emptyData.spareZero = true := by
  rw [spareZero_iff, emptyData_cap]
  show List.drop 0 (List.replicate InitialDataSize (0 : Byte)) = List.replicate (512 - 0) 0
  rfl

/-- A write that fits below `len`: the content is overwritten in place, the
    length and the spare elements stay. -/
theorem copyAt_fits (s : Slice) (o : Nat) (p : List Byte) (hc : s.len ≤ s.cap)
    (hfit : o + p.length ≤ s.len) :
    (s.copyAt o p).content = s.content.take o ++ p ++ s.content.drop (o + p.length) ∧
    (s.copyAt o p).len = s.len ∧ (s.copyAt o p).cap = s.cap ∧
    (s.copyAt o p).arr.drop s.len = s.arr.drop s.len := by
  have hc2 : s.len ≤ s.arr.length := hc
  have harr := Slice.copyAt_arr s o p hc hfit
  have hl1 : (s.arr.take o ++ p).length = o + p.length := by
    rw [List.length_append, List.length_take]
    omega
  refine ⟨?_, rfl, Slice.copyAt_cap s o p hc hfit, ?_⟩
  · show (s.copyAt o p).arr.take s.len = _
    rw [harr, List.take_append_eq_append_take, hl1, List.take_of_length_le (by omega)]
    simp only [Slice.content, List.take_take, List.drop_take]
    rw [Nat.min_eq_left (by omega)]
  · rw [harr, List.drop_append_eq_append_drop, hl1, List.drop_of_length_le (by omega),
      List.nil_append, List.drop_drop]
    congr 1
    omega

/-- A write that extends the length within the capacity, over spare elements
    that are zero: the content is the old content up to the cursor, then the
    bytes written, then zeroes; the spare elements that remain are zero. -/
theorem copyAt_grown (s : Slice) (o : Nat) (p : List Byte) (hol : o ≤ s.len)
    (hgrow : s.len ≤ o + p.length) (hroom : s.len + p.length ≤ s.cap)
    (hz : s.spareZero = true) :
    (({ s with len := s.len + p.length } : Slice).copyAt o p).content =
      s.content.take o ++ p ++ List.replicate (s.len - o) 0 ∧
    (({ s with len := s.len + p.length } : Slice).copyAt o p).len = s.len + p.length ∧
    (({ s with len := s.len + p.length } : Slice).copyAt o p).cap = s.cap ∧
    (({ s with len := s.len + p.length } : Slice).copyAt o p).spareZero = true := by
  have hc2 : s.len + p.length ≤ s.arr.length := hroom
  rw [spareZero_iff] at hz
  obtain ⟨h1, h2, h3, h4⟩ := copyAt_fits ({ s with len := s.len + p.length } : Slice) o p hroom
    (show o + p.length ≤ s.len + p.length by omega)
  have hd : ∀ k, s.len ≤ k → s.arr.drop k = List.replicate (s.cap - k) 0 := by
    intro k hk
    have : s.arr.drop k = (s.arr.drop s.len).drop (k - s.len) := by
      rw [List.drop_drop]
      congr 1
      omega
    rw [this, hz, List.drop_replicate]
    congr 1
    omega
  refine ⟨?_, h2, h3, ?_⟩
  · rw [h1]
    show (s.arr.take (s.len + p.length)).take o ++ p ++
      (s.arr.take (s.len + p.length)).drop (o + p.length) = (s.arr.take s.len).take o ++ p ++ _
    rw [List.take_take, List.take_take, Nat.min_eq_left (by omega), Nat.min_eq_left hol,
      List.drop_take, hd _ hgrow, List.take_replicate]
    congr 2
    have : s.cap = s.arr.length := rfl
    omega
  · rw [spareZero_iff, h3]
    show (({ s with len := s.len + p.length } : Slice).copyAt o p).arr.drop (s.len + p.length) = _
    rw [h4]
    exact hd (s.len + p.length) (by omega)

/-- The buffer a reallocating `grow` builds is the old content over a fresh
    zeroed array. -/
theorem grownSlice_eq (s : Slice) (n : Nat) :
    grownSlice s n = { (⟨s.content ++ List.replicate (2 * s.cap + n - s.len) 0, s.len⟩ : Slice) with
      len := s.len + n } := rfl

theorem grownBase (s : Slice) (n : Nat) (hc : s.len ≤ s.cap) :
    (⟨s.content ++ List.replicate (2 * s.cap + n - s.len) 0, s.len⟩ : Slice).content = s.content ∧
    (⟨s.content ++ List.replicate (2 * s.cap + n - s.len) 0, s.len⟩ : Slice).cap = 2 * s.cap + n ∧
    (⟨s.content ++ List.replicate (2 * s.cap + n - s.len) 0, s.len⟩ : Slice).spareZero = true := by
  have hcl := Slice.content_length s hc
  have hcap : (⟨s.content ++ List.replicate (2 * s.cap + n - s.len) 0, s.len⟩ : Slice).cap =
      2 * s.cap + n := grownSlice_cap s n hc
  refine ⟨?_, hcap, ?_⟩
  · show (s.content ++ List.replicate (2 * s.cap + n - s.len) 0).take s.len = s.content
    exact List.take_left' hcl
  · rw [spareZero_iff, hcap]
    show (s.content ++ List.replicate (2 * s.cap + n - s.len) 0).drop s.len = _
    rw [List.drop_left' hcl]

/-- A write that needs more than can be allocated: `Write` returns
    `(0, ErrTooLarge)` and changes neither the store nor the handle. -/
theorem Write_too_large (sl : SliceHeap) (f : memoryFile) (p : List Byte) (ptr o : Nat) (s : Slice)
    (hd : f.data = some ptr) (hs : sl[ptr]? = some s) (ho : f.offset = (o : Int))
    (hol : o ≤ s.len) (hgrow : s.len < o + p.length) (hroom : s.cap < s.len + p.length)
    (hcap : 2 * s.cap + p.length < 9223372036854775808) (hlen : s.len ≤ s.cap)
    (hb : maxAlloc < 2 * s.cap + p.length) :
    f.Write sl p = some (0, some Error.ErrTooLarge, sl, f) := by
  have hg := grow_too_large sl f p.length ptr s hd hs hroom (by omega) hcap hb
  have hw : wrapInt64 ((o : Int) + (p.length : Int)) = ((o + p.length : Nat) : Int) := by
    rw [wrapInt64_of_range] <;> omega
  have h1 : (((o + p.length : Nat) : Int) > (s.len : Int)) := by omega
  unfold memoryFile.Write
  simp only [memoryFile.size, hd, deref_some, hs, ho, hw, h1, if_true]
  rw [hg]

/-- The postcondition of `Write` on a bare handle whose cursor is within the
    buffer, by cases: the source fits below the length, the length grows
    within the capacity, the buffer is reallocated, or it cannot be. -/
theorem Write_post (sl : SliceHeap) (f : memoryFile) (p : List Byte) (ptr o : Nat)
    (s : Slice) (hd : f.data = some ptr) (hs : sl[ptr]? = some s) (ho : f.offset = (o : Int))
    (hol : o ≤ s.len) (hc : s.len ≤ s.cap) (hz : s.spareZero = true)
    (hcap : s.cap ≤ maxAlloc) (hp : p.length ≤ maxAlloc) :
    ((o + p.length ≤ s.len ∨ s.len + p.length ≤ s.cap ∨ 2 * s.cap + p.length ≤ maxAlloc) →
      ∃ (sl1 : SliceHeap) (ptr1 : Nat) (s1 : Slice),
        f.Write sl p = some ((p.length : Int), none, sl1,
          { f with offset := ((o + p.length : Nat) : Int), data := some ptr1 }) ∧
        sl1[ptr1]? = some s1 ∧
        s1.content = s.content.take o ++ p ++
          (if o + p.length ≤ s.len then s.content.drop (o + p.length)
           else List.replicate (s.len - o) 0) ∧
        s1.len = (if o + p.length ≤ s.len then s.len else s.len + p.length) ∧
        s.len ≤ s1.len ∧ s1.len ≤ s1.cap ∧ s1.spareZero = true ∧
        ((sl1 = sl.set ptr s1 ∧ ptr1 = ptr ∧ s1.cap = s.cap) ∨
          (sl1 = sl ++ [s1] ∧ ptr1 = sl.length ∧ s1.cap = 2 * s.cap + p.length ∧
            2 * s.cap + p.length ≤ maxAlloc))) ∧
    (s.len < o + p.length → s.cap < s.len + p.length → maxAlloc < 2 * s.cap + p.length →
      f.Write sl p = some (0, some Error.ErrTooLarge, sl, f)) := by
  have hm := maxAlloc_eq
  have hlt := get?_lt _ _ _ hs
  obtain ⟨fname, foff, fdata⟩ := f
  simp only at hd ho
  subst hd ho
  refine ⟨?_, ?_⟩
  · intro hall
    by_cases hfit : o + p.length ≤ s.len
    · obtain ⟨h1, h2, h3, h4⟩ := copyAt_fits s o p hc hfit
      refine ⟨sl.set ptr (s.copyAt o p), ptr, s.copyAt o p,
        Write_fits sl _ p ptr o s rfl hs rfl hfit (by omega),
        List.getElem?_set_self hlt, ?_, ?_, ?_, ?_, ?_, Or.inl ⟨rfl, rfl, h3⟩⟩
      · rw [h1, if_pos hfit]
      · rw [h2, if_pos hfit]
      · rw [h2]
      · rw [h2, h3]
        exact hc
      · rw [spareZero_iff, h3]
        show (s.copyAt o p).arr.drop s.len = _
        rw [h4]
        exact (spareZero_iff s).mp hz
    · by_cases hroom : s.len + p.length ≤ s.cap
      · obtain ⟨h1, h2, h3, h4⟩ := copyAt_grown s o p hol (by omega) hroom hz
        refine ⟨_, ptr, _, Write_grow_inplace sl _ p ptr o s rfl hs rfl hol (by omega) hroom
          (by omega), List.getElem?_set_self hlt, ?_, ?_, ?_, ?_, h4, Or.inl ⟨rfl, rfl, h3⟩⟩
        · rw [h1, if_neg hfit]
        · rw [h2, if_neg hfit]
        · rw [h2]
          omega
        · rw [h2, h3]
          exact hroom
      · have hb : 2 * s.cap + p.length ≤ maxAlloc := by
          rcases hall with h | h | h
          · exact absurd h hfit
          · exact absurd h hroom
          · exact h
        obtain ⟨g1, g2, g3⟩ := grownBase s p.length hc
        obtain ⟨h1, h2, h3, h4⟩ := copyAt_grown
          (⟨s.content ++ List.replicate (2 * s.cap + p.length - s.len) 0, s.len⟩ : Slice) o p hol
          (by show s.len ≤ o + p.length; omega)
          (by rw [g2]; show s.len + p.length ≤ _; omega) g3
        rw [g1] at h1
        refine ⟨_, sl.length, _, Write_grow_realloc sl _ p ptr o s rfl hs rfl hol hc (by omega)
          (by omega) hb, get?_append_length _ _, ?_, ?_, ?_, ?_, h4,
          Or.inr ⟨rfl, rfl, by rw [grownSlice_eq, h3, g2], hb⟩⟩
        · rw [if_neg hfit]
          exact h1
        · rw [if_neg hfit]
          exact h2
        · rw [grownSlice_eq, h2]
          show s.len ≤ s.len + p.length
          omega
        · rw [grownSlice_eq, h2, h3, g2]
          show s.len + p.length ≤ _
          omega
  · intro hgrow hroom hb
    exact Write_too_large sl _ p ptr o s rfl hs rfl hol hgrow hroom (by omega) hc hb

/-- C18 — `Write` on a bare handle with cursor `o`, `0 ≤ o ≤ L`, over a
    buffer of length `L` whose spare elements are zero (as in every buffer of
    the package), for a source `p` of length `n`, all sizes being sizes of Go
    slices.  Unless the buffer must be reallocated and `2*cap + n` elements
    cannot be allocated, `Write` returns `(n, nil)`, the cursor becomes
    `o + n`, and the buffer the handle refers to afterwards holds: the old
    bytes `[0, o)`, then `p`, then, when `o + n ≤ L`, the old bytes
    `[o+n, L)` (the length stays `L`), and otherwise `L - o` zero bytes (the
    length becomes `L + n`, not `o + n`); the length does not decrease, stays
    within the capacity, and the spare elements are zero again; the store
    is changed in the cell of that buffer only, or, on reallocation, extended
    by the new buffer of capacity `2*cap + n`.  In the excepted case `Write` returns `(0, ErrTooLarge)` and changes nothing. -/
theorem C18_write_postcondition (sl : SliceHeap) (f : memoryFile) (p : List Byte) (ptr o : Nat)
    (s : Slice) (hd : f.data = some ptr) (hs : sl[ptr]? = some s) (ho : f.offset = (o : Int))
    (hol : o ≤ s.len) (hc : s.len ≤ s.cap) (hz : s.spareZero = true)
    (hcap : s.cap ≤ maxAlloc) (hp : p.length ≤ maxAlloc) :
    ((o + p.length ≤ s.len ∨ s.len + p.length ≤ s.cap ∨ 2 * s.cap + p.length ≤ maxAlloc) →
      ∃ (sl1 : SliceHeap) (ptr1 : Nat) (s1 : Slice),
        f.Write sl p = some ((p.length : Int), none, sl1,
          { f with offset := ((o + p.length : Nat) : Int), data := some ptr1 }) ∧
        sl1[ptr1]? = some s1 ∧
        s1.content = s.content.take o ++ p ++
          (if o + p.length ≤ s.len then s.content.drop (o + p.length)
           else List.replicate (s.len - o) 0) ∧
        s1.len = (if o + p.length ≤ s.len then s.len else s.len + p.length) ∧
        s.len ≤ s1.len ∧ s1.len ≤ s1.cap ∧ s1.spareZero = true ∧
        ((sl1 = sl.set ptr s1 ∧ ptr1 = ptr ∧ s1.cap = s.cap) ∨
          (sl1 = sl ++ [s1] ∧ ptr1 = sl.length ∧ s1.cap = 2 * s.cap + p.length ∧
            2 * s.cap + p.length ≤ maxAlloc))) ∧
    (s.len < o + p.length → s.cap < s.len + p.length → maxAlloc < 2 * s.cap + p.length →
      f.Write sl p = some (0, some Error.ErrTooLarge, sl, f)) :=
  Write_post sl f p ptr o s hd hs ho hol hc hz hcap hp

/-- Witness for C18: over the buffer "Hello world!" (length and capacity 12)
    with the cursor at 5, `Write("Bye world")` reallocates; the new buffer
    holds "Hello", "Bye world" and 7 zero bytes. -/
theorem C18_write_postcondition_witness :
    ∃ (sl1 : SliceHeap) (ptr1 : Nat) (s1 : Slice),
      memoryFile.Write [⟨bytes hello, 12⟩] ⟨"f", 5, some 0⟩ (bytes bye) =
        some (9, none, sl1, ⟨"f", 14, some ptr1⟩) ∧
      sl1[ptr1]? = some s1 ∧
      s1.content = (bytes hello).take 5 ++ bytes bye ++ List.replicate 7 0 ∧
      s1.len = 21 ∧ 12 ≤ s1.len ∧ s1.len ≤ s1.cap ∧ s1.spareZero = true ∧
      ((sl1 = [⟨bytes hello, 12⟩].set 0 s1 ∧ ptr1 = 0 ∧ s1.cap = 12) ∨
        (sl1 = [⟨bytes hello, 12⟩] ++ [s1] ∧ ptr1 = 1 ∧ s1.cap = 2 * 12 + 9 ∧
          2 * 12 + 9 ≤ maxAlloc)) :=
  (C18_write_postcondition [⟨bytes hello, 12⟩] ⟨"f", 5, some 0⟩ (bytes bye) 0 5 ⟨bytes hello, 12⟩
    rfl rfl rfl (by decide) (by decide) (by decide) (by decide) (by decide)).1
    (Or.inr (Or.inr (by decide)))

/-! ## The invariant of the client's view -/

theorem handleOk_iff (sl : SliceHeap) (f : memoryFile) :
    handleOk sl f = true ↔
      ∃ ptr s, f.data = some ptr ∧ sl[ptr]? = some s ∧ 0 ≤ f.offset ∧ f.offset ≤ (s.len : Int) := by
  unfold handleOk deref
  constructor
  · intro h
    cases hd : f.data with
    | none => simp [hd] at h
    | some ptr =>
      rw [hd] at h
      dsimp only at h
      cases hs : sl[ptr]? with
      | none => simp [hs] at h
      | some s =>
        rw [hs] at h
        exact ⟨ptr, s, rfl, hs, by simpa using h⟩
  · rintro ⟨ptr, s, hd, hs, h0, h1⟩
    simp [hd, hs, h0, h1]

theorem keysOk_iff (h : Heap) :
    keysOk h = true ↔ ∀ nd ∈ h.nodes, ∀ l, nd.children = some l → ∀ e ∈ l, e.1 ≠ "" := by
  unfold keysOk
  rw [List.all_eq_true]
  constructor
  · intro hk nd hnd l hl e he
    have := hk nd hnd
    rw [hl] at this
    simp only [List.all_eq_true] at this
    simpa using this e he
  · intro hk nd hnd
    cases hl : nd.children with
    | none => rfl
    | some l =>
      simp only [List.all_eq_true]
      intro e he
      simpa using hk nd hnd l hl e he

theorem Inv_iff (fs : MemoryFilesystem) (s : Sys) :
    Inv fs s = true ↔ s.heap.wf fs = true ∧ keysOk s.heap = true ∧
      (∀ b ∈ s.heap.slices, b.cap ≤ maxAlloc ∧ b.spareZero = true) ∧
      ∀ f ∈ s.handles, handleOk s.heap.slices f.handle = true := by
  simp [Inv, bufOk, and_assoc]

theorem Inv_init : Inv NewFilesystem.2 initSys = true := by
  decide

theorem grows_refl (sl : SliceHeap) : grows sl sl := fun _ t ht => ⟨t, ht, Nat.le_refl _⟩

theorem grows_append (sl : SliceHeap) (l : List Slice) : grows sl (sl ++ l) := by
  intro q t ht
  refine ⟨t, ?_, Nat.le_refl _⟩
  rw [List.getElem?_append_left (get?_lt _ _ _ ht)]
  exact ht

theorem grows_set (sl : SliceHeap) (ptr : Nat) (s s1 : Slice) (hs : sl[ptr]? = some s)
    (hl : s.len ≤ s1.len) : grows sl (sl.set ptr s1) := by
  intro q t ht
  by_cases hq : ptr = q
  · subst hq
    rw [hs] at ht
    cases ht
    exact ⟨s1, List.getElem?_set_self (get?_lt _ _ _ hs), hl⟩
  · exact ⟨t, by rw [get?_set_ne _ _ _ _ hq]; exact ht, Nat.le_refl _⟩

theorem handleOk_grows (sl sl1 : SliceHeap) (f : memoryFile) (hg : grows sl sl1)
    (hf : handleOk sl f = true) : handleOk sl1 f = true := by
  rw [handleOk_iff] at hf ⊢
  obtain ⟨ptr, s, hd, hs, h0, h1⟩ := hf
  obtain ⟨t1, ht1, hle⟩ := hg ptr s hs
  exact ⟨ptr, t1, hd, ht1, h0, by omega⟩

/-- `Read` on a handle whose cursor is within its buffer returns, and the
    cursor stays within the buffer; the name is kept. -/
theorem Read_inv (sl : SliceHeap) (f : memoryFile) (p : List Byte) (hok : storeOk sl)
    (hf : handleOk sl f = true) :
    ∃ n e p1 f1, f.Read sl p = some (n, e, p1, f1) ∧ handleOk sl f1 = true ∧
      f1.name = f.name := by
  have hm := maxAlloc_eq
  have hf0 := hf
  rw [handleOk_iff] at hf
  obtain ⟨ptr, s, hd, hs, h0, h1⟩ := hf
  obtain ⟨hc, hcap, _⟩ := hok s (List.getElem?_mem hs)
  have hde : deref sl f.data = some s := by
    rw [hd]
    exact hs
  by_cases hlt : f.offset.toNat < s.len
  · have hr := Read_data sl f p f.offset.toNat s hde (by omega) hlt hc (by omega)
    refine ⟨_, _, _, _, hr, ?_, rfl⟩
    rw [handleOk_iff]
    exact ⟨ptr, s, hd, hs, by simp only; omega, by simp only; omega⟩
  · exact ⟨_, _, _, _, Read_eof sl f p s hde (by omega), hf0, rfl⟩

/-- `Seek` on a handle whose cursor is within its buffer returns, and the
    cursor stays within the buffer; the name is kept. -/
theorem Seek_inv (sl : SliceHeap) (f : memoryFile) (offset whence : Int)
    (hf : handleOk sl f = true) :
    ∃ n e f1, f.Seek sl offset whence = some (n, e, f1) ∧ handleOk sl f1 = true ∧
      f1.name = f.name := by
  have hf0 := hf
  rw [handleOk_iff] at hf
  obtain ⟨ptr, s, hd, hs, h0, h1⟩ := hf
  have hde : deref sl f.data = some s := by
    rw [hd]
    exact hs
  obtain ⟨r, hr⟩ := Seek_total sl f s offset whence hde
  obtain ⟨n, e, f1⟩ := r
  obtain ⟨hn, hdat, hoff⟩ := Seek_result sl f f1 offset whence n e hr
  refine ⟨n, e, f1, hr, ?_, hn⟩
  rw [handleOk_iff]
  rcases hoff with ho | ⟨s2, hs2, h2, h3⟩
  · exact ⟨ptr, s, by rw [hdat, hd], hs, by rw [ho]; exact h0, by rw [ho]; exact h1⟩
  · rw [hde] at hs2
    cases hs2
    exact ⟨ptr, s, by rw [hdat, hd], hs, h2, h3⟩

/-- `Write` of a Go slice on a handle whose cursor is within its buffer
    returns; the store it returns extends the old one by buffers of the
    package, the cursor is within the buffer the handle then refers to, and
    the name is kept. -/
theorem Write_inv (sl : SliceHeap) (f : memoryFile) (p : List Byte) (hok : storeOk sl)
    (hp : p.length ≤ maxAlloc) (hf : handleOk sl f = true) :
    ∃ n e sl1 f1, f.Write sl p = some (n, e, sl1, f1) ∧ grows sl sl1 ∧ storeOk sl1 ∧
      handleOk sl1 f1 = true ∧ f1.name = f.name := by
  have hm := maxAlloc_eq
  have hf0 := hf
  rw [handleOk_iff] at hf
  obtain ⟨ptr, s, hd, hs, h0, h1⟩ := hf
  obtain ⟨hc, hcap, hz⟩ := hok s (List.getElem?_mem hs)
  obtain ⟨hpost, hfail⟩ := Write_post sl f p ptr f.offset.toNat s hd hs (by omega) (by omega) hc hz
    hcap hp
  by_cases hall : f.offset.toNat + p.length ≤ s.len ∨ s.len + p.length ≤ s.cap ∨
      2 * s.cap + p.length ≤ maxAlloc
  · obtain ⟨sl1, ptr1, s1, hw, hg1, _, hlen, hle, hc1, hz1, hrel⟩ := hpost hall
    have hs1ok : s1.cap ≤ maxAlloc := by
      rcases hrel with ⟨_, _, h3⟩ | ⟨_, _, h3, h4⟩
      · rw [h3]
        exact hcap
      · rw [h3]
        exact h4
    have hoff : f.offset.toNat + p.length ≤ s1.len := by
      rw [hlen]
      split <;> omega
    refine ⟨_, _, sl1, _, hw, ?_, ?_, ?_, rfl⟩
    · rcases hrel with ⟨h1, _, _⟩ | ⟨h1, _, _⟩
      · rw [h1]
        exact grows_set sl ptr s s1 hs hle
      · rw [h1]
        exact grows_append sl _
    · intro b hb
      rcases hrel with ⟨h1, _, _⟩ | ⟨h1, _, _⟩
      · rw [h1] at hb
        rcases List.mem_or_eq_of_mem_set hb with h2 | h2
        · exact hok b h2
        · rw [h2]
          exact ⟨hc1, hs1ok, hz1⟩
      · rw [h1] at hb
        rcases List.mem_append.mp hb with h2 | h2
        · exact hok b h2
        · rw [List.mem_singleton] at h2
          rw [h2]
          exact ⟨hc1, hs1ok, hz1⟩
    · rw [handleOk_iff]
      exact ⟨ptr1, s1, rfl, hg1, by simp only; omega, by simp only; omega⟩
  · simp only [not_or, Nat.not_le] at hall
    have hw := hfail (by omega) hall.2.1 hall.2.2
    exact ⟨_, _, _, _, hw, grows_refl sl, hok, hf0, rfl⟩

/-- `Read` through any handle whose cursor is within its buffer returns, and
    keeps the cursor within the buffer and the name. -/
theorem File_Read_inv (sl : SliceHeap) (p : List Byte) (hok : storeOk sl) :
    ∀ file : File, handleOk sl file.handle = true →
      ∃ n e p1 file1, file.Read sl p = some (n, e, p1, file1) ∧
        handleOk sl file1.handle = true ∧ file1.Name = file.Name := by
  intro file
  induction file with
  | mem f =>
    intro hf
    obtain ⟨n, e, p1, f1, hr, h1, h2⟩ := Read_inv sl f p hok hf
    exact ⟨n, e, p1, File.mem f1, by simp only [File.Read, hr, Option.map_some'], h1, h2⟩
  | readOnlyFile inner ih =>
    intro hf
    obtain ⟨n, e, p1, f1, hr, h1, h2⟩ := ih hf
    exact ⟨n, e, p1, File.readOnlyFile f1, by simp only [File.Read, hr, Option.map_some'], h1, h2⟩
  | writeOnlyFile inner ih =>
    intro hf
    exact ⟨_, _, _, _, rfl, hf, rfl⟩

/-- `Seek` through any handle whose cursor is within its buffer returns, and
    keeps the cursor within the buffer and the name. -/
theorem File_Seek_inv (sl : SliceHeap) (offset whence : Int) :
    ∀ file : File, handleOk sl file.handle = true →
      ∃ n e file1, file.Seek sl offset whence = some (n, e, file1) ∧
        handleOk sl file1.handle = true ∧ file1.Name = file.Name := by
  intro file
  induction file with
  | mem f =>
    intro hf
    obtain ⟨n, e, f1, hr, h1, h2⟩ := Seek_inv sl f offset whence hf
    exact ⟨n, e, File.mem f1, by simp only [File.Seek, hr, Option.map_some'], h1, h2⟩
  | readOnlyFile inner ih =>
    intro hf
    obtain ⟨n, e, f1, hr, h1, h2⟩ := ih hf
    exact ⟨n, e, File.readOnlyFile f1, by simp only [File.Seek, hr, Option.map_some'], h1, h2⟩
  | writeOnlyFile inner ih =>
    intro hf
    obtain ⟨n, e, f1, hr, h1, h2⟩ := ih hf
    exact ⟨n, e, File.writeOnlyFile f1, by simp only [File.Seek, hr, Option.map_some'], h1, h2⟩

/-- `Write` of a Go slice through any handle whose cursor is within its
    buffer returns; the store is extended by buffers of the package, the
    cursor is within the buffer the handle then refers to, the name is
    kept. -/
theorem File_Write_inv (sl : SliceHeap) (p : List Byte) (hok : storeOk sl)
    (hp : p.length ≤ maxAlloc) :
    ∀ file : File, handleOk sl file.handle = true →
      ∃ n e sl1 file1, file.Write sl p = some (n, e, sl1, file1) ∧ grows sl sl1 ∧
        storeOk sl1 ∧ handleOk sl1 file1.handle = true ∧ file1.Name = file.Name := by
  intro file
  induction file with
  | mem f =>
    intro hf
    obtain ⟨n, e, sl1, f1, hr, h1, h2, h3, h4⟩ := Write_inv sl f p hok hp hf
    exact ⟨n, e, sl1, File.mem f1, by simp only [File.Write, hr, Option.map_some'], h1, h2, h3, h4⟩
  | readOnlyFile inner ih =>
    intro hf
    exact ⟨_, _, _, _, rfl, grows_refl sl, hok, hf, rfl⟩
  | writeOnlyFile inner ih =>
    intro hf
    obtain ⟨n, e, sl1, f1, hr, h1, h2, h3, h4⟩ := ih hf
    exact ⟨n, e, sl1, File.writeOnlyFile f1, by simp only [File.Write, hr, Option.map_some'],
      h1, h2, h3, h4⟩

/-- What `setChild` on the store extended by a new node returns. -/
theorem setChild_some (nodes nodes1 : List fileInfo) (nd pn : fileInfo) (p k : Nat)
    (base : String) (hp : nodes[p]? = some pn)
    (hset : setChild (nodes ++ [nd]) (some p) base k = some nodes1) :
    ∃ l, pn.children = some l ∧
      nodes1 = (nodes ++ [nd]).set p { pn with children := some (mapSet l base k) } := by
  have hp2 : (nodes ++ [nd])[p]? = some pn := by
    rw [get?_append_lt _ _ _ (get?_lt _ _ _ hp), hp]
  cases hl : pn.children with
  | none => simp [setChild, hp2, hl] at hset
  | some l =>
    simp only [setChild, hp2, hl, Option.some.injEq] at hset
    exact ⟨l, rfl, hset.symm⟩

/-- The outcomes of `Mkdir`: an error and the same state, or no error and
    the state in which the new directory node is allocated and linked under
    the key `Base name` of the parent. -/
theorem Mkdir_cases (h h1 : Heap) (fs : MemoryFilesystem) (name : String) (perm : Nat)
    (err : Option PathError) (hmk : fs.Mkdir h name perm = some (err, h1)) :
    (h1 = h ∧ err.isSome = true) ∨
    (err = none ∧ ∃ p pn l, fs.stat h name = some (some p, none, none) ∧
      h.nodes[p]? = some pn ∧ pn.children = some l ∧
      h1 = ⟨h.slices, (h.nodes ++ [(⟨Base name, name, perm, some [], none⟩ : fileInfo)]).set p
        { pn with children := some (mapSet l (Base name) h.nodes.length) }⟩) := by
  obtain ⟨r0, hst⟩ : ∃ r, fs.stat h name = r := ⟨_, rfl⟩
  cases r0 with
  | none =>
    unfold MemoryFilesystem.Mkdir at hmk
    rw [hst] at hmk
    cases hmk
  | some r =>
    obtain ⟨parent, node, e⟩ := r
    cases e with
    | some e =>
      rw [Mkdir_stat_error h fs name perm parent node e hst] at hmk
      cases hmk
      exact Or.inl ⟨rfl, rfl⟩
    | none =>
      cases node with
      | some i =>
        rw [Mkdir_exist h fs name perm parent i hst] at hmk
        cases hmk
        exact Or.inl ⟨rfl, rfl⟩
      | none =>
        rw [Mkdir_fresh h fs name perm parent hst] at hmk
        obtain ⟨p, hpar⟩ := stat_ok_parent h fs name parent none hst
        subst hpar
        obtain ⟨pn, seg, _, hp, _, _, _⟩ := stat_parts h fs name p none hst
        cases hset : setChild (h.nodes ++ [(⟨Base name, name, perm, some [], none⟩ : fileInfo)])
            (some p) (Base name) h.nodes.length with
        | none =>
          rw [hset] at hmk
          cases hmk
        | some nodes1 =>
          rw [hset] at hmk
          simp only [Option.some.injEq, Prod.mk.injEq] at hmk
          obtain ⟨he, hh⟩ := hmk
          obtain ⟨l, hl, hn1⟩ := setChild_some h.nodes nodes1 _ pn p h.nodes.length (Base name) hp
            hset
          subst hn1
          exact Or.inr ⟨he.symm, p, pn, l, hst, hp, hl, hh.symm⟩

/-- The outcomes of `OpenFile` on a well-formed state: no handle and the same
    state; or, without `O_CREATE`, a handle on the existing file node and the
    same state; or, with `O_CREATE`, a handle on a new file node, which is
    allocated with a new empty buffer and linked under the key `Base name` of
    the parent. -/
theorem OpenFile_cases (h h1 : Heap) (fs : MemoryFilesystem) (name : String) (flag : Int)
    (perm : Nat) (file : Option File) (err : Option PathError) (hwf : h.wf fs = true)
    (hop : fs.OpenFile h name flag perm = some (file, err, h1)) :
    (h1 = h ∧ file = none ∧ err.isSome = true) ∨
    (h1 = h ∧ err = none ∧ hasFlag flag O_CREATE = false ∧ ∃ p i fi f,
      fs.stat h name = some (p, some i, none) ∧ h.nodes[i]? = some fi ∧ fi.IsDir = false ∧
      fi.openFile h.slices flag = some f ∧ file = some f) ∨
    (err = none ∧ hasFlag flag O_CREATE = true ∧ ∃ p pn l f node,
      fs.stat h name = some (some p, node, none) ∧
      (∀ i, node = some i → ∃ fi, h.nodes[i]? = some fi ∧ fi.IsDir = false) ∧
      h.nodes[p]? = some pn ∧ pn.children = some l ∧
      h1 = ⟨h.slices ++ [emptyData],
        (h.nodes ++ [(⟨Base name, name, perm, none, some h.slices.length⟩ : fileInfo)]).set p
          { pn with children := some (mapSet l (Base name) h.nodes.length) }⟩ ∧
      fileInfo.openFile (h.slices ++ [emptyData])
        ⟨Base name, name, perm, none, some h.slices.length⟩ flag = some f ∧ file = some f) := by
  obtain ⟨r0, hst⟩ : ∃ r, fs.stat h name = r := ⟨_, rfl⟩
  cases r0 with
  | none =>
    unfold MemoryFilesystem.OpenFile at hop
    rw [hst] at hop
    cases hop
  | some r =>
    obtain ⟨parent, node, e⟩ := r
    cases e with
    | some e =>
      rw [OpenFile_stat_error h fs name flag perm parent node e hst] at hop
      cases hop
      exact Or.inl ⟨rfl, rfl, rfl⟩
    | none =>
      obtain ⟨p, hpar⟩ := stat_ok_parent h fs name parent node hst
      subst hpar
      obtain ⟨pn, seg, _, hp, _, hnode, _⟩ := stat_parts h fs name p node hst
      have hleaf : ∀ i, node = some i → ∃ fi, h.nodes[i]? = some fi := by
        intro i hi
        rw [hi] at hnode
        exact wf_child h fs hwf p pn hp seg i hnode.symm
      have hcreate : (∀ i, node = some i → ∃ fi, h.nodes[i]? = some fi ∧ fi.IsDir = false) →
          hasFlag flag O_CREATE = true → (node = none ∨ hasFlag flag O_TRUNC = true) →
          err = none ∧ hasFlag flag O_CREATE = true ∧ ∃ p pn l f node,
            fs.stat h name = some (some p, node, none) ∧
            (∀ i, node = some i → ∃ fi, h.nodes[i]? = some fi ∧ fi.IsDir = false) ∧
            h.nodes[p]? = some pn ∧ pn.children = some l ∧
            h1 = ⟨h.slices ++ [emptyData],
              (h.nodes ++ [(⟨Base name, name, perm, none, some h.slices.length⟩ : fileInfo)]).set p
                { pn with children := some (mapSet l (Base name) h.nodes.length) }⟩ ∧
            fileInfo.openFile (h.slices ++ [emptyData])
              ⟨Base name, name, perm, none, some h.slices.length⟩ flag = some f ∧
            file = some f := by
        intro hfile hcr htr
        have hpd : pn.IsDir = true := by
          cases node with
          | none =>
            cases hl : pn.children with
            | none =>
              unfold MemoryFilesystem.OpenFile at hop
              have hp2 : (h.nodes ++ [(⟨Base name, name, perm, none, some h.slices.length⟩ :
                  fileInfo)])[p]? = some pn := by
                rw [get?_append_lt _ _ _ (get?_lt _ _ _ hp), hp]
              simp [hst, hcr, setChild, hp2, hl] at hop
            | some l =>
              unfold fileInfo.IsDir
              rw [hl]
              rfl
          | some i =>
            cases hl : pn.children with
            | none =>
              rw [hl] at hnode
              cases hnode
            | some l =>
              unfold fileInfo.IsDir
              rw [hl]
              rfl
        obtain ⟨f1, nodes1, ho, hset, hof⟩ := OpenFile_create h fs name flag perm p pn node hst hp
          hpd hfile hcr htr
        rw [ho] at hop
        simp only [Option.some.injEq, Prod.mk.injEq] at hop
        obtain ⟨h3, h4, h5⟩ := hop
        obtain ⟨l, hl, hn1⟩ := setChild_some h.nodes nodes1 _ pn p h.nodes.length (Base name) hp
          hset
        subst hn1
        exact ⟨h4.symm, hcr, p, pn, l, f1, node, hst, hfile, hp, hl, h5.symm, hof, h3.symm⟩
      cases node with
      | none =>
        by_cases hcr : hasFlag flag O_CREATE = true
        · exact Or.inr (Or.inr (hcreate (fun i hi => by cases hi) hcr (Or.inl rfl)))
        · have hcr2 : hasFlag flag O_CREATE = false := by simpa using hcr
          rw [OpenFile_absent h fs name flag perm _ hst hcr2] at hop
          cases hop
          exact Or.inl ⟨rfl, rfl, rfl⟩
      | some i =>
        obtain ⟨fi, hfi⟩ := hleaf i rfl
        by_cases hdir : fi.IsDir = true
        · rw [OpenFile_directory h fs name flag perm _ i fi hst hfi hdir] at hop
          cases hop
          exact Or.inl ⟨rfl, rfl, rfl⟩
        · have hdir2 : fi.IsDir = false := by simpa using hdir
          by_cases hcr : hasFlag flag O_CREATE = true
          · by_cases htr : hasFlag flag O_TRUNC = true
            · exact Or.inr (Or.inr (hcreate (fun j hj => by cases hj; exact ⟨fi, hfi, hdir2⟩) hcr
                (Or.inr htr)))
            · have htr2 : hasFlag flag O_TRUNC = false := by simpa using htr
              rw [OpenFile_exist h fs name flag perm _ i fi hst hfi hdir2 hcr htr2] at hop
              cases hop
              exact Or.inl ⟨rfl, rfl, rfl⟩
          · have hcr2 : hasFlag flag O_CREATE = false := by simpa using hcr
            rw [OpenFile_existing h fs name flag perm _ i fi hst hfi hdir2 hcr2] at hop
            cases hof : fi.openFile h.slices flag with
            | none =>
              rw [hof] at hop
              cases hop
            | some f1 =>
              rw [hof] at hop
              cases hop
              exact Or.inr (Or.inl ⟨rfl, rfl, hcr2, _, i, fi, f1, hst, hfi, hdir2, hof, rfl⟩)

theorem Base_ne_empty (name : String) : Base name ≠ "" := by
  unfold Base
  split
  · decide
  · dsimp only
    split
    · decide
    · rename_i hl
      intro hcon
      apply hl
      have := congrArg String.data hcon
      simpa using this

/-- Linking a new node under a non-empty key keeps all keys non-empty. -/
theorem keysOk_link (h : Heap) (sl : SliceHeap) (p k : Nat) (pn nd : fileInfo)
    (l : List (String × Nat)) (base : String) (hk : keysOk h = true)
    (hp : h.nodes[p]? = some pn) (hl : pn.children = some l) (hb : base ≠ "")
    (hnd : nd.children = none ∨ nd.children = some []) :
    keysOk ⟨sl, (h.nodes ++ [nd]).set p { pn with children := some (mapSet l base k) }⟩ = true := by
  rw [keysOk_iff] at hk ⊢
  intro x hx l1 hl1 e he
  rcases List.mem_or_eq_of_mem_set hx with h2 | h2
  · rcases List.mem_append.mp h2 with h3 | h3
    · exact hk x h3 l1 hl1 e he
    · rw [List.mem_singleton] at h3
      subst h3
      rcases hnd with h4 | h4
      · rw [h4] at hl1
        cases hl1
      · rw [h4] at hl1
        cases hl1
        cases he
  · subst h2
    simp only [Option.some.injEq] at hl1
    subst hl1
    rcases mem_mapSet l base k e he with h3 | h3
    · exact hk pn (List.getElem?_mem hp) l hl e h3
    · rw [h3]
      exact hb

/-- The handle `openFile` builds over a node with a valid buffer has its
    cursor within the buffer and is named by the node's full path. -/
theorem openFile_handleOk (sl : SliceHeap) (fi : fileInfo) (flag : Int) (file : File)
    (ptr : Nat) (s : Slice) (hd : fi.data = some ptr) (hs : sl[ptr]? = some s)
    (hof : fi.openFile sl flag = some file) :
    handleOk sl file.handle = true ∧ file.Name = fi.fullpath := by
  obtain ⟨f, hn, hfd, h0, hap, hfile⟩ := openFile_shape sl fi flag file hof
  have hh : file.handle = f ∧ file.Name = f.name := by
    rw [hfile]
    split
    · exact ⟨rfl, rfl⟩
    · split <;> exact ⟨rfl, rfl⟩
  rw [hh.1, hh.2, hn]
  refine ⟨?_, rfl⟩
  rw [handleOk_iff]
  refine ⟨ptr, s, by rw [hfd, hd], hs, ?_⟩
  cases ha : hasFlag flag O_APPEND with
  | false =>
    rw [h0 ha]
    exact ⟨Int.le_refl _, Int.natCast_nonneg _⟩
  | true =>
    obtain ⟨s2, hs2, _, h1, h2⟩ := hap ha
    rw [hd] at hs2
    have : some s = some s2 := by
      rw [← hs, ← hs2]
      rfl
    cases this
    exact ⟨h1, h2⟩

theorem Inv_parts (fs : MemoryFilesystem) (s : Sys) :
    Inv fs s = true ↔ s.heap.wf fs = true ∧ keysOk s.heap = true ∧ storeOk s.heap.slices ∧
      ∀ f ∈ s.handles, handleOk s.heap.slices f.handle = true := by
  rw [Inv_iff]
  constructor
  · rintro ⟨h1, h2, h3, h4⟩
    exact ⟨h1, h2, fun b hb => ⟨wf_slices _ fs h1 b hb, (h3 b hb).1, (h3 b hb).2⟩, h4⟩
  · rintro ⟨h1, h2, h3, h4⟩
    exact ⟨h1, h2, fun b hb => ⟨(h3 b hb).2.1, (h3 b hb).2.2⟩, h4⟩

theorem storeOk_append_empty (sl : SliceHeap) (hok : storeOk sl) : storeOk (sl ++ [emptyData]) := by
  intro b hb
  rcases List.mem_append.mp hb with h2 | h2
  · exact hok b h2
  · rw [List.mem_singleton] at h2
    rw [h2]
    refine ⟨Nat.zero_le _, ?_, emptyData_spareZero⟩
    rw [emptyData_cap, maxAlloc_eq]
    omega

theorem mem_set_handles (l : List File) (i : Nat) (a x : File) (P : File → Prop)
    (hl : ∀ f ∈ l, P f) (ha : P a) (hx : x ∈ l.set i a) : P x := by
  rcases List.mem_or_eq_of_mem_set hx with h | h
  · exact hl x h
  · rw [h]
    exact ha

/-- Every call keeps the invariant of the client's view. -/
theorem step_inv (fs : MemoryFilesystem) (s s1 : Sys) (op : Op) (hinv : Inv fs s = true)
    (hsz : op.sized = true) (hstep : step fs s op = some s1) : Inv fs s1 = true := by
  obtain ⟨hwf, hk, hok, hh⟩ := (Inv_parts fs s).mp hinv
  cases op with
  | mkdir name perm =>
    simp only [step, Option.map_eq_some'] at hstep
    obtain ⟨⟨err, h1⟩, hmk, hs1⟩ := hstep
    subst hs1
    have hwf1 := Mkdir_wf s.heap h1 fs name perm err hwf hmk
    rcases Mkdir_cases s.heap h1 fs name perm err hmk with ⟨he, _⟩ | ⟨_, p, pn, l, _, hp, hl, he⟩
    · subst he
      exact hinv
    · subst he
      exact (Inv_parts fs _).mpr ⟨hwf1, keysOk_link s.heap _ p _ pn _ l (Base name) hk hp hl
        (Base_ne_empty name) (Or.inr rfl), hok, hh⟩
  | openFile name flag perm =>
    simp only [step, Option.map_eq_some'] at hstep
    obtain ⟨⟨file, err, h1⟩, hop, hs1⟩ := hstep
    have hwf1 := OpenFile_wf s.heap h1 fs name flag perm file err hwf hop
    rcases OpenFile_cases s.heap h1 fs name flag perm file err hwf hop with
      ⟨he, hf, _⟩ | ⟨he, _, _, p, i, fi, f, _, hfi, hdir, hof, hf⟩ |
      ⟨_, _, p, pn, l, f, node, _, _, hp, hl, he, hof, hf⟩
    · subst he hf hs1
      exact hinv
    · subst he hf hs1
      obtain ⟨ptr, b, hptr, hb⟩ := wf_file_data s.heap fs hwf i fi hfi hdir
      refine (Inv_parts fs _).mpr ⟨hwf, hk, hok, ?_⟩
      intro x hx
      rcases List.mem_append.mp hx with h2 | h2
      · exact hh x h2
      · rw [List.mem_singleton] at h2
        rw [h2]
        exact (openFile_handleOk s.heap.slices fi flag f ptr b hptr hb hof).1
    · subst hf hs1
      subst he
      refine (Inv_parts fs _).mpr ⟨hwf1, keysOk_link s.heap _ p _ pn _ l (Base name) hk hp hl
        (Base_ne_empty name) (Or.inl rfl), storeOk_append_empty _ hok, ?_⟩
      intro x hx
      rcases List.mem_append.mp hx with h2 | h2
      · exact handleOk_grows _ _ _ (grows_append _ _) (hh x h2)
      · rw [List.mem_singleton] at h2
        rw [h2]
        exact (openFile_handleOk (s.heap.slices ++ [emptyData]) _ flag f s.heap.slices.length
          emptyData rfl (get?_append_length _ _) hof).1
  | stat name =>
    simp only [step, Option.map_eq_some'] at hstep
    obtain ⟨_, _, hs1⟩ := hstep
    subst hs1
    exact hinv
  | read i p =>
    simp only [step] at hstep
    cases hi : s.handles[i]? with
    | none =>
      rw [hi] at hstep
      cases hstep
    | some file =>
      rw [hi] at hstep
      dsimp only at hstep
      obtain ⟨n, e, p1, file1, hr, h1, _⟩ := File_Read_inv s.heap.slices p hok file
        (hh file (List.getElem?_mem hi))
      rw [hr] at hstep
      simp only [Option.map_some', Option.some.injEq] at hstep
      subst hstep
      exact (Inv_parts fs _).mpr ⟨hwf, hk, hok, fun x hx =>
        mem_set_handles s.handles i file1 x _ hh h1 hx⟩
  | write i p =>
    simp only [step] at hstep
    cases hi : s.handles[i]? with
    | none =>
      rw [hi] at hstep
      cases hstep
    | some file =>
      rw [hi] at hstep
      dsimp only at hstep
      have hp : p.length ≤ maxAlloc := by simpa [Op.sized] using hsz
      obtain ⟨n, e, sl1, file1, hw, hg, hok1, h1, _⟩ := File_Write_inv s.heap.slices p hok hp file
        (hh file (List.getElem?_mem hi))
      have hwf1 := File_Write_wf s.heap fs hwf file file1 p n e sl1 hw
      rw [hw] at hstep
      simp only [Option.map_some', Option.some.injEq] at hstep
      subst hstep
      exact (Inv_parts fs _).mpr ⟨hwf1, hk, hok1, fun x hx =>
        mem_set_handles s.handles i file1 x _
          (fun f hf => handleOk_grows _ _ _ hg (hh f hf)) h1 hx⟩
  | seek i offset whence =>
    simp only [step] at hstep
    cases hi : s.handles[i]? with
    | none =>
      rw [hi] at hstep
      cases hstep
    | some file =>
      rw [hi] at hstep
      dsimp only at hstep
      obtain ⟨n, e, file1, hr, h1, _⟩ := File_Seek_inv s.heap.slices offset whence file
        (hh file (List.getElem?_mem hi))
      rw [hr] at hstep
      simp only [Option.map_some', Option.some.injEq] at hstep
      subst hstep
      exact (Inv_parts fs _).mpr ⟨hwf, hk, hok, fun x hx =>
        mem_set_handles s.handles i file1 x _ hh h1 hx⟩
  | close i =>
    simp only [step] at hstep
    cases hi : s.handles[i]? with
    | none =>
      rw [hi] at hstep
      cases hstep
    | some file =>
      rw [hi] at hstep
      dsimp only at hstep
      cases hstep
      exact hinv

/-- Every sequence of calls keeps the invariant of the client's view. -/
theorem run_inv (fs : MemoryFilesystem) (ops : List Op) :
    ∀ (s s1 : Sys), Inv fs s = true → (∀ op ∈ ops, op.sized = true) →
      run fs s ops = some s1 → Inv fs s1 = true := by
  induction ops with
  | nil =>
    intro s s1 hinv _ hrun
    cases hrun
    exact hinv
  | cons op rest ih =>
    intro s s1 hinv hsz hrun
    simp only [run] at hrun
    cases hst : step fs s op with
    | none =>
      rw [hst] at hrun
      cases hrun
    | some s2 =>
      rw [hst] at hrun
      exact ih s2 s1 (step_inv fs s s2 op hinv (hsz op (List.mem_cons_self _ _)) hst)
        (fun o ho => hsz o (List.mem_cons_of_mem _ ho)) hrun

/-- C17 — cursor invariant.  Start from a fresh filesystem and make any
    sequence of calls of `Mkdir`, `OpenFile` (hence `Create` and `Open`, with
    any flags), `Stat` and of `Read`, `Write`, `Seek`, `Close` on any of the
    handles returned so far, each call succeeding or failing, the sources of
    the writes being Go slices.  In the state reached (hence after each call,
    every prefix of a sequence being a sequence), every handle returned so
    far refers to an allocated buffer and its cursor satisfies
    `0 ≤ offset ≤ len(buffer)`; hence slicing that buffer at the cursor is in
    range and `Read`, `Write` and `Seek` on the handle return. -/
theorem C17_cursor_invariant (ops : List Op) (s : Sys)
    (hsz : ∀ op ∈ ops, op.sized = true)
    (hrun : run NewFilesystem.2 initSys ops = some s) :
    ∀ file ∈ s.handles,
      (∃ ptr b, file.handle.data = some ptr ∧ s.heap.slices[ptr]? = some b ∧
        0 ≤ file.handle.offset ∧ file.handle.offset ≤ (b.len : Int) ∧
        (b.sliceFrom file.handle.offset).isSome = true) ∧
      (∀ p, ∃ r, file.Read s.heap.slices p = some r) ∧
      (∀ p, p.length ≤ maxAlloc → ∃ r, file.Write s.heap.slices p = some r) ∧
      (∀ off wh, ∃ r, file.Seek s.heap.slices off wh = some r) := by
  intro file hfile
  have hinv := run_inv NewFilesystem.2 ops initSys s Inv_init hsz hrun
  obtain ⟨_, _, hok, hh⟩ := (Inv_parts _ s).mp hinv
  have hf := hh file hfile
  refine ⟨?_, ?_, ?_, ?_⟩
  · obtain ⟨ptr, b, hd, hb, h0, h1⟩ := (handleOk_iff _ _).mp hf
    refine ⟨ptr, b, hd, hb, h0, h1, ?_⟩
    simp [Slice.sliceFrom, h0, h1]
  · intro p
    obtain ⟨n, e, p1, f1, hr, _⟩ := File_Read_inv s.heap.slices p hok file hf
    exact ⟨_, hr⟩
  · intro p hp
    obtain ⟨n, e, sl1, f1, hw, _⟩ := File_Write_inv s.heap.slices p hok hp file hf
    exact ⟨_, hw⟩
  · intro off wh
    obtain ⟨n, e, f1, hr, _⟩ := File_Seek_inv s.heap.slices off wh file hf
    exact ⟨_, hr⟩

/-- Witness for C17: after `Create("/foo.txt")`, `Seek(3, SEEK_SET)` (which
    fails with `ErrTooFar`) and `Seek(0, SEEK_END)` on the handle, the cursor
    is 0 and the buffer is empty. -/
theorem C17_cursor_invariant_witness :
    run NewFilesystem.2 initSys
      [Op.openFile "/foo.txt" (Int.lor (Int.lor O_RDWR O_CREATE) O_TRUNC) 438,
        Op.seek 0 3 SEEK_SET, Op.seek 0 0 SEEK_END] =
      some ⟨fooState 438, [File.mem ⟨"/foo.txt", 0, some 0⟩]⟩ ∧
    ∃ ptr b, (File.handle (File.mem ⟨"/foo.txt", 0, some 0⟩)).data = some ptr ∧
      (fooState 438).slices[ptr]? = some b ∧
      0 ≤ (File.handle (File.mem ⟨"/foo.txt", 0, some 0⟩)).offset ∧
      (File.handle (File.mem ⟨"/foo.txt", 0, some 0⟩)).offset ≤ (b.len : Int) ∧
      (b.sliceFrom (File.handle (File.mem ⟨"/foo.txt", 0, some 0⟩)).offset).isSome = true :=
  ⟨by rfl,
    (C17_cursor_invariant
      [Op.openFile "/foo.txt" (Int.lor (Int.lor O_RDWR O_CREATE) O_TRUNC) 438,
        Op.seek 0 3 SEEK_SET, Op.seek 0 0 SEEK_END]
      ⟨fooState 438, [File.mem ⟨"/foo.txt", 0, some 0⟩]⟩
      (by decide) (by rfl) (File.mem ⟨"/foo.txt", 0, some 0⟩) (List.mem_singleton.mpr rfl)).1⟩

/-! ## The last segment of a path and `path.Base` -/

theorem takeWhile_append_of_exists {α : Type} (p : α → Bool) (l r : List α)
    (hex : ∃ x ∈ l, p x = false) : (l ++ r).takeWhile p = l.takeWhile p := by
  induction l with
  | nil =>
    obtain ⟨x, hx, _⟩ := hex
    cases hx
  | cons a l ih =>
    cases hpa : p a with
    | false => simp [List.takeWhile, hpa]
    | true =>
      obtain ⟨x, hx, hpx⟩ := hex
      have hx2 : x ∈ l := by
        rcases List.mem_cons.mp hx with h | h
        · rw [h] at hpx
          rw [hpa] at hpx
          cases hpx
        · exact h
      rw [List.cons_append, List.takeWhile_cons, List.takeWhile_cons, hpa, if_pos rfl, if_pos rfl,
        ih ⟨x, hx2, hpx⟩]

theorem takeWhile_append_of_all {α : Type} (p : α → Bool) (l r : List α)
    (hall : ∀ x ∈ l, p x = true) : (l ++ r).takeWhile p = l ++ r.takeWhile p := by
  induction l with
  | nil => rfl
  | cons a l ih =>
    have hpa : p a = true := hall a (List.mem_cons_self _ _)
    rw [List.cons_append, List.takeWhile_cons, hpa, if_pos rfl,
      ih (fun x hx => hall x (List.mem_cons_of_mem _ hx)), List.cons_append]

/-- A list of characters splits into one segment exactly when it holds no
    separator. -/
theorem splitSep_length_one_iff (cs : List Char) :
    (splitSep cs).length = 1 ↔ ∀ c ∈ cs, c ≠ '/' := by
  induction cs with
  | nil => simp [splitSep]
  | cons c cs ih =>
    by_cases hc : c = '/'
    · subst hc
      have := splitSep_length_pos cs
      simp only [splitSep, if_true, List.length_cons]
      constructor
      · intro h
        omega
      · intro h
        exact absurd rfl (h '/' (List.mem_cons_self _ _))
    · have hlen : (splitSep (c :: cs)).length = (splitSep cs).length := by
        simp only [splitSep, if_neg hc]
        cases hs : splitSep cs with
        | nil => exact absurd hs (splitSep_ne_nil cs)
        | cons a l => rfl
      rw [hlen, ih]
      constructor
      · intro h x hx
        rcases List.mem_cons.mp hx with h1 | h1
        · rw [h1]
          exact hc
        · exact h x h1
      · intro h x hx
        exact h x (List.mem_cons_of_mem _ hx)

/-- The last segment of a split is what follows the last separator. -/
theorem splitSep_getLast (cs : List Char) :
    (splitSep cs).getLast? = some (cs.reverse.takeWhile (fun c => c ≠ '/')).reverse := by
  induction cs with
  | nil => rfl
  | cons c cs ih =>
    cases hs : splitSep cs with
    | nil => exact absurd hs (splitSep_ne_nil cs)
    | cons a l =>
      rw [hs] at ih
      by_cases hc : c = '/'
      · subst hc
        simp only [splitSep, if_true, hs]
        rw [List.getLast?_cons_cons, ih, List.reverse_cons]
        congr 2
        by_cases hex : ∃ x ∈ cs.reverse, (fun c => decide (c ≠ '/')) x = false
        · rw [takeWhile_append_of_exists _ _ _ hex]
        · have hall : ∀ x ∈ cs.reverse, (fun c => decide (c ≠ '/')) x = true := by
            intro x hx
            by_contra hcon
            exact hex ⟨x, hx, by simpa using hcon⟩
          rw [takeWhile_append_of_all _ _ _ hall, List.takeWhile_eq_self_iff.mpr hall]
          simp
      · simp only [splitSep, if_neg hc, hs]
        rw [List.reverse_cons]
        cases l with
        | nil =>
          have h1 : (splitSep cs).length = 1 := by rw [hs]; rfl
          have hno := (splitSep_length_one_iff cs).mp h1
          have hall : ∀ x ∈ cs.reverse, (fun c => decide (c ≠ '/')) x = true := by
            intro x hx
            simpa using hno x (List.mem_reverse.mp hx)
          rw [takeWhile_append_of_all _ _ _ hall]
          simp only [List.getLast?_singleton, Option.some.injEq] at ih ⊢
          rw [List.takeWhile_eq_self_iff.mpr hall, List.reverse_reverse] at ih
          simp [hc, ih]
        | cons b l2 =>
          have h2 : (splitSep cs).length ≠ 1 := by rw [hs]; simp
          have hsome : ¬ ∀ c ∈ cs, c ≠ '/' := fun h => h2 ((splitSep_length_one_iff cs).mpr h)
          have hex : ∃ x ∈ cs.reverse, (fun c => decide (c ≠ '/')) x = false := by
            by_contra hcon
            apply hsome
            intro x hx hx2
            exact hcon ⟨x, List.mem_reverse.mpr hx, by simp [hx2]⟩
          rw [takeWhile_append_of_exists _ _ _ hex, List.getLast?_cons_cons]
          rw [List.getLast?_cons_cons] at ih
          exact ih

/-- When the last segment of a path is not empty, `path.Base` is that
    segment. -/
theorem Base_eq_last (name seg : String) (hl : (Split name).getLast? = some seg)
    (hne : seg ≠ "") : Base name = seg := by
  unfold Split at hl
  rw [List.getLast?_map, splitSep_getLast] at hl
  simp only [Option.map_some', Option.some.injEq] at hl
  have hlast : (name.data.reverse.takeWhile (fun c => c ≠ '/')).reverse ≠ [] := by
    intro hcon
    rw [hcon] at hl
    exact hne hl.symm
  cases hr : name.data.reverse with
  | nil =>
    rw [hr] at hlast
    exact absurd rfl hlast
  | cons x rest =>
    have hx : x ≠ '/' := by
      intro hcon
      rw [hr, hcon] at hlast
      exact hlast rfl
    have hdata : name.data ≠ [] := by
      intro hcon
      rw [hcon] at hr
      cases hr
    have hdrop : (x :: rest).dropWhile (fun c => decide (c = '/')) = x :: rest := by
      rw [List.dropWhile_cons]
      simp [hx]
    unfold Base
    rw [if_neg hdata]
    dsimp only
    rw [hr, hdrop, ← hr, List.reverse_reverse, if_neg hlast]
    exact hl

/-! ## Opening with `O_CREATE|O_TRUNC` -/

/-- In a state without empty keys, a path that resolves to a node ends in a
    segment that `path.Base` returns unchanged. -/
theorem stat_leaf_norm (h : Heap) (fs : MemoryFilesystem) (name : String) (p i : Nat)
    (hk : keysOk h = true) (hst : fs.stat h name = some (some p, some i, none)) :
    (Split name).getLast? = some (Base name) := by
  obtain ⟨pn, seg, _, hp, hlast, hnode, _⟩ := stat_parts h fs name p (some i) hst
  cases hl : pn.children with
  | none =>
    rw [hl] at hnode
    cases hnode
  | some l =>
    rw [hl] at hnode
    have hmem := lookup_mem l seg i hnode.symm
    have hne : seg ≠ "" :=
      (keysOk_iff h).mp hk pn (List.getElem?_mem hp) l hl (seg, i) hmem
    rw [Base_eq_last name seg hlast hne]
    exact hlast

/-- After a new node has been linked under `Base name` of the parent that
    `name` resolves to, `name` resolves to the new node. -/
theorem stat_after_link (h : Heap) (sl : SliceHeap) (fs : MemoryFilesystem) (name : String)
    (p : Nat) (node : Option Nat) (pn nd : fileInfo) (l : List (String × Nat))
    (hst : fs.stat h name = some (some p, node, none))
    (hp : h.nodes[p]? = some pn) (hl : pn.children = some l)
    (hnorm : (Split name).getLast? = some (Base name))
    (hfree : ∀ e en, l.lookup (Base name) = some e → h.nodes[e]? = some en → en.IsDir = false) :
    fs.stat ⟨sl, (h.nodes ++ [nd]).set p
      { pn with children := some (mapSet l (Base name) h.nodes.length) }⟩ name =
      some (some p, some h.nodes.length, none) ∧
    ((h.nodes ++ [nd]).set p
      { pn with children := some (mapSet l (Base name) h.nodes.length) })[h.nodes.length]? =
      some nd := by
  obtain ⟨pn0, seg, hwalk, hp0, _, _, hlen⟩ := stat_parts h fs name p node hst
  have hplt := get?_lt _ _ _ hp
  obtain ⟨N, hN⟩ : ∃ N, N = (h.nodes ++ [nd]).set p
      { pn with children := some (mapSet l (Base name) h.nodes.length) } := ⟨_, rfl⟩
  rw [← hN]
  have hnewp : N[p]? = some { pn with children := some (mapSet l (Base name) h.nodes.length) } := by
    rw [hN]
    exact List.getElem?_set_self (by rw [List.length_append]; omega)
  have hnewk : N[h.nodes.length]? = some nd := by
    rw [hN, get?_set_ne _ _ _ _ (by omega), get?_append_length]
  have hwalk1 : walk N fs.root (((Split name).drop 1).take ((Split name).length - 2)) =
      some (some p) := by
    rw [hN]
    exact walk_link h.nodes p pn _ l (Base name) hp hl hfree _ fs.root p hwalk
  refine ⟨?_, hnewk⟩
  unfold MemoryFilesystem.stat
  rw [if_neg hlen]
  dsimp only
  rw [hwalk1]
  dsimp only
  rw [hnewp, hnorm]
  dsimp only [mapGet]
  rw [mapSet_lookup_self]

/-- C11 — `O_CREATE|O_TRUNC` discards the prior content.  In a state without
    empty keys (every state reached from a fresh filesystem is one,
    `run_inv`), let `Stat` resolve `name` to a regular file, whatever
    its content, and let the flags hold `O_CREATE` and `O_TRUNC` (as
    `O_CREATE|O_TRUNC|O_WRONLY` does).  Then `OpenFile` returns a handle and
    no error; it adds one empty buffer to the store and changes no other
    buffer; afterwards `Stat(name)` finds a new file node of size 0 whose
    buffer is the new one, and `Open(name)` returns a read-only handle over
    that new buffer on which every `Read` reports `(0, io.EOF)`.  A later
    read-only open therefore sees no byte of the old content, which lives in
    the old buffers. -/
theorem C11_create_trunc (h : Heap) (fs : MemoryFilesystem) (name : String) (flag : Int)
    (perm i : Nat) (fi : fileInfo) (hk : keysOk h = true)
    (hS : fs.Stat h name = some (some i, none)) (hi : h.nodes[i]? = some fi)
    (hfile : fi.IsDir = false) (hcr : hasFlag flag O_CREATE = true)
    (htr : hasFlag flag O_TRUNC = true) :
    ∃ (file : File) (h1 : Heap),
      fs.OpenFile h name flag perm = some (some file, none, h1) ∧
      h1.slices = h.slices ++ [emptyData] ∧
      fs.Stat h1 name = some (some h.nodes.length, none) ∧
      h1.nodes[h.nodes.length]? = some ⟨Base name, name, perm, none, some h.slices.length⟩ ∧
      fileInfo.IsDir ⟨Base name, name, perm, none, some h.slices.length⟩ = false ∧
      fileInfo.Size h1.slices ⟨Base name, name, perm, none, some h.slices.length⟩ = some 0 ∧
      fs.Open h1 name =
        some (some (File.readOnlyFile (File.mem ⟨name, 0, some h.slices.length⟩)), none, h1) ∧
      ∀ dst, File.Read h1.slices (File.readOnlyFile (File.mem ⟨name, 0, some h.slices.length⟩)) dst =
        some (0, some Error.EOF, dst,
          File.readOnlyFile (File.mem ⟨name, 0, some h.slices.length⟩)) := by
  obtain ⟨p0, hst0⟩ := Stat_some h fs name i hS
  obtain ⟨p, hpar⟩ := stat_ok_parent h fs name p0 (some i) hst0
  subst hpar
  obtain ⟨pn, seg, _, hp, hlast, hnode, _⟩ := stat_parts h fs name p (some i) hst0
  have hnorm := stat_leaf_norm h fs name p i hk hst0
  rw [hlast] at hnorm
  simp only [Option.some.injEq] at hnorm
  subst hnorm
  cases hl : pn.children with
  | none =>
    rw [hl] at hnode
    cases hnode
  | some l =>
    have hpd : pn.IsDir = true := by
      unfold fileInfo.IsDir
      rw [hl]
      rfl
    rw [hl] at hnode
    have hlook : l.lookup (Base name) = some i := hnode.symm
    obtain ⟨file, nodes1, hop, hset, _⟩ := OpenFile_create h fs name flag perm p pn (some i) hst0
      hp hpd (fun j hj => by cases hj; exact ⟨fi, hi, hfile⟩) hcr (Or.inr htr)
    obtain ⟨l2, hl2, hn1⟩ := setChild_some h.nodes nodes1 _ pn p h.nodes.length (Base name) hp hset
    rw [hl] at hl2
    cases hl2
    subst hn1
    obtain ⟨hst1, hnew⟩ := stat_after_link h (h.slices ++ [emptyData]) fs name p (some i) pn
      ⟨Base name, name, perm, none, some h.slices.length⟩ l hst0 hp hl hlast
      (fun e en he hen => by
        rw [hlook] at he
        cases he
        rw [hi] at hen
        cases hen
        exact hfile)
    have hde : deref (h.slices ++ [emptyData]) (some h.slices.length) = some emptyData :=
      get?_append_length _ _
    have hopen : fileInfo.openFile (h.slices ++ [emptyData])
        ⟨Base name, name, perm, none, some h.slices.length⟩ O_RDONLY =
        some (File.readOnlyFile (File.mem ⟨name, 0, some h.slices.length⟩)) := by
      have h1 : hasFlag O_RDONLY O_APPEND = false := by decide
      have h2 : hasFlag O_RDONLY O_RDWR = false := by decide
      have h3 : hasFlag O_RDONLY O_WRONLY = false := by decide
      simp [fileInfo.openFile, h1, h2, h3]
    refine ⟨file, _, hop, rfl, ?_, hnew, rfl, ?_, ?_, ?_⟩
    · unfold MemoryFilesystem.Stat
      rw [hst1]
    · show fileInfo.Size (h.slices ++ [emptyData]) _ = some 0
      simp only [fileInfo.Size, fileInfo.IsDir, Option.isSome_none, Bool.false_eq_true, if_false,
        hde]
      rfl
    · unfold MemoryFilesystem.Open
      rw [OpenFile_existing _ fs name O_RDONLY 0 (some p) h.nodes.length _ hst1 hnew rfl
        (by decide)]
      show (match fileInfo.openFile (h.slices ++ [emptyData]) _ O_RDONLY with
        | none => none
        | some file => some (some file, none, _)) = _
      rw [hopen]
    · intro dst
      show File.Read (h.slices ++ [emptyData]) _ dst = _
      have hr := Read_eof (h.slices ++ [emptyData]) ⟨name, 0, some h.slices.length⟩ dst emptyData
        hde (Int.le_refl _)
      simp only [File.Read, hr, Option.map_some']

/-- Witness for C11: on the state whose file "/foo.txt" holds
    "Hello world!", `OpenFile("/foo.txt", O_CREATE|O_TRUNC|O_WRONLY, 0666)`
    succeeds, and afterwards `Stat` reports size 0 and a read-only open reads
    `io.EOF`. -/
theorem C11_create_trunc_witness :
    keysOk helloState = true ∧
    NewFilesystem.2.Stat helloState "/foo.txt" = some (some 1, none) ∧
    fileInfo.Size helloState.slices ⟨"foo.txt", "/foo.txt", 438, none, some 0⟩ = some 12 ∧
    ∃ (file : File) (h1 : Heap),
      NewFilesystem.2.OpenFile helloState "/foo.txt" (Int.lor (Int.lor O_CREATE O_TRUNC) O_WRONLY)
        438 = some (some file, none, h1) ∧
      h1.slices = helloState.slices ++ [emptyData] ∧
      NewFilesystem.2.Stat h1 "/foo.txt" = some (some 2, none) ∧
      h1.nodes[2]? = some ⟨Base "/foo.txt", "/foo.txt", 438, none, some 1⟩ ∧
      fileInfo.IsDir ⟨Base "/foo.txt", "/foo.txt", 438, none, some 1⟩ = false ∧
      fileInfo.Size h1.slices ⟨Base "/foo.txt", "/foo.txt", 438, none, some 1⟩ = some 0 ∧
      NewFilesystem.2.Open h1 "/foo.txt" =
        some (some (File.readOnlyFile (File.mem ⟨"/foo.txt", 0, some 1⟩)), none, h1) ∧
      ∀ dst, File.Read h1.slices (File.readOnlyFile (File.mem ⟨"/foo.txt", 0, some 1⟩)) dst =
        some (0, some Error.EOF, dst, File.readOnlyFile (File.mem ⟨"/foo.txt", 0, some 1⟩)) :=
  ⟨by decide, by decide, by decide,
    C11_create_trunc helloState NewFilesystem.2 "/foo.txt"
      (Int.lor (Int.lor O_CREATE O_TRUNC) O_WRONLY) 438 1
      ⟨"foo.txt", "/foo.txt", 438, none, some 0⟩ (by decide) (by decide) (by decide) (by decide)
      (by decide) (by decide)⟩

end mfs
